import Mathlib

/-!
Verification of the yada dependency-graph compiler and workflow state
machine.  The definitions below are a shallow embedding of the
TypeScript sources (src/core/graph.ts, src/core/resolver.ts,
src/core/state.ts): JavaScript `Map`s become insertion-ordered
association lists, object mutation becomes explicit state passing, and
file storage for the compiled plan becomes an `Option Yadasmith` value
threaded through the operations.
-/

namespace Yada

/-- Insertion-ordered association list modelling a JavaScript `Map`. -/
abbrev JMap (α β : Type) := List (α × β)

/-- `Map.get`: the value stored at the first (unique) occurrence of the key. -/
def jmGet [DecidableEq α] (m : JMap α β) (k : α) : Option β :=
  match m with
  | [] => none
  | (k', v) :: rest => if k = k' then some v else jmGet rest k

/-- `Map.has`. -/
def jmHas [DecidableEq α] (m : JMap α β) (k : α) : Bool :=
  (jmGet m k).isSome

/-- `Map.set`: replace the value in place when the key exists, else append. -/
def jmSet [DecidableEq α] (m : JMap α β) (k : α) (v : β) : JMap α β :=
  match m with
  | [] => [(k, v)]
  | (k', v') :: rest =>
      if k = k' then (k', v) :: rest else (k', v') :: jmSet rest k v

/-- Mutation of the object stored at a key (a no-op when the key is absent),
modelling field assignment through a reference obtained from `Map.get`. -/
def jmUpdate [DecidableEq α] (m : JMap α β) (k : α) (f : β → β) : JMap α β :=
  match m with
  | [] => []
  | (k', v') :: rest =>
      if k = k' then (k', f v') :: rest else (k', v') :: jmUpdate rest k f

/-- `Map.keys()`, in insertion order. -/
def jmKeys (m : JMap α β) : List α := m.map Prod.fst

/-- Task status vocabulary (src/types/dp.ts `TaskStatus`). -/
inductive TaskStatus where
  | pending
  | completed
  | in_progress
  | skipped
deriving DecidableEq, Repr

/-- A parsed Design Prescription (src/types/dp.ts `ParsedDP`), restricted to
the fields the graph compiler and plan reader consume: identifier, display
name, priority and the declared external dependency identifiers.  Fields used
only by validation and rendering (nature, phase, description, subdps,
filePath) are omitted. -/
structure ParsedDP where
  id : String
  name : String
  priority : Int
  dependencies : List String
deriving DecidableEq, Repr

/-- Graph node (src/types/dp.ts `GraphNode`). -/
structure GraphNode where
  id : String
  dp : ParsedDP
  dependencies : List String
  dependents : List String
  level : Nat
deriving DecidableEq, Repr

/-- Placeholder node; stands for the unreachable `undefined` result of the
non-null-asserted `nodes.get(...)!` lookups. -/
def dfltNode : GraphNode :=
  { id := "", dp := { id := "", name := "", priority := 0, dependencies := [] },
    dependencies := [], dependents := [], level := 0 }

/-- Graph (src/types/dp.ts `Graph`). -/
structure Graph where
  nodes : JMap String GraphNode
  levels : JMap Nat (List String)
deriving Repr

/-- Validation result (src/types/dp.ts `ValidationResult`). -/
structure ValidationResult where
  valid : Bool
  errors : List String
  warnings : List String
deriving DecidableEq, Repr

/-- First loop of `buildGraph` (graph.ts lines 16-24): one node per DP, with
empty edge sets and level 0. -/
def initNodes (dps : List ParsedDP) : JMap String GraphNode :=
  dps.foldl (fun ns dp =>
    jmSet ns dp.id
      { id := dp.id, dp := dp, dependencies := [], dependents := [], level := 0 }) []

/-- Second loop of `buildGraph` (graph.ts lines 27-40) for one DP: for every
declared dependency identifier that resolves to a known node, push a forward
edge on the dependent and a backward edge on the dependency. -/
def addEdges (nodes : JMap String GraphNode) (dp : ParsedDP) : JMap String GraphNode :=
  dp.dependencies.foldl (fun ns depId =>
    if jmHas ns depId then
      let ns1 := jmUpdate ns dp.id
        (fun n => { n with dependencies := n.dependencies ++ [depId] })
      jmUpdate ns1 depId (fun n => { n with dependents := n.dependents ++ [dp.id] })
    else ns) nodes

/-- Body of the inner `for` loop of `calculateLevels` (graph.ts lines 81-92):
decrement the dependent's remaining in-degree, raise its level to
`max(level, currentNode.level + 1)`, and enqueue it once the degree reaches 0.
The current node's level is re-read from the evolving map because in the
source the update goes through a live object reference. -/
def kahnVisit (currentId : String)
    (st : JMap String GraphNode × JMap String Int × List String)
    (dependentId : String) :
    JMap String GraphNode × JMap String Int × List String :=
  let currentLevel := ((jmGet st.1 currentId).getD dfltNode).level
  let currentDegree := (jmGet st.2.1 dependentId).getD 0 - 1
  let inDegree' := jmSet st.2.1 dependentId currentDegree
  let nodes' := jmUpdate st.1 dependentId
    (fun n => { n with level := max n.level (currentLevel + 1) })
  let queue' := if currentDegree = 0 then st.2.2 ++ [dependentId] else st.2.2
  (nodes', inDegree', queue')

/-- The `while (queue.length > 0)` loop of `calculateLevels` (graph.ts lines
77-93), with explicit fuel; every node is enqueued at most once, so fuel
`nodes.length + 1` always drains the queue. -/
def kahnLoop (fuel : Nat) (nodes : JMap String GraphNode)
    (inDegree : JMap String Int) (queue : List String) : JMap String GraphNode :=
  match fuel with
  | 0 => nodes
  | fuel' + 1 =>
    match queue with
    | [] => nodes
    | currentId :: rest =>
      let deps := ((jmGet nodes currentId).getD dfltNode).dependents
      let st := deps.foldl (kahnVisit currentId) (nodes, inDegree, rest)
      kahnLoop fuel' st.1 st.2.1 st.2.2

/-- `calculateLevels` (graph.ts lines 58-94): in-degrees, zero-degree seeds at
level 1, then the BFS level propagation. -/
def calculateLevels (nodes : JMap String GraphNode) : JMap String GraphNode :=
  let inDegree : JMap String Int :=
    nodes.foldl (fun m p => jmSet m p.1 (p.2.dependencies.length : Int)) []
  let seeded := inDegree.foldl
    (fun (st : List String × JMap String GraphNode) p =>
      if p.2 = 0 then
        (st.1 ++ [p.1], jmUpdate st.2 p.1 (fun n => { n with level := 1 }))
      else st)
    ([], nodes)
  kahnLoop (nodes.length + 1) seeded.2 inDegree seeded.1

/-- Final grouping loop of `buildGraph` (graph.ts lines 46-50): group node
identifiers by their computed level. -/
def groupLevels (nodes : JMap String GraphNode) : JMap Nat (List String) :=
  nodes.foldl (fun ls p =>
    jmSet ls p.2.level ((jmGet ls p.2.level).getD [] ++ [p.2.id])) []

/-- `buildGraph` (graph.ts lines 11-53). -/
def buildGraph (dps : List ParsedDP) : Graph :=
  let nodes1 := dps.foldl addEdges (initNodes dps)
  let nodes2 := calculateLevels nodes1
  { nodes := nodes2, levels := groupLevels nodes2 }

/-- State of the recursive depth-first search in `detectCycles`: the visited
set, the recursion stack, the current path and the accumulated result. -/
structure DfsSt where
  visited : List String
  stack : List String
  path : List String
  result : ValidationResult
deriving Repr

/-- The formatted chain pushed by `detectCycles` (graph.ts line 114). -/
def cycleMsg (cycle : List String) : String :=
  "Circular dependency detected: " ++ String.intercalate " -> " cycle

/-- The `for (const depId of node.dependencies)` loop inside `dfs` (graph.ts
lines 129-133): search each dependency in turn through the recursive call
`rec`, returning `true` as soon as a cycle is found (without restoring path
or stack, matching the early return). -/
def dfsList (rec : String → DfsSt → Bool × DfsSt) :
    List String → DfsSt → Bool × DfsSt
  | [], s => (false, s)
  | d :: ds, s =>
    let r := rec d s
    if r.1 then r else dfsList rec ds r.2

/-- The recursive `dfs` of `detectCycles` (graph.ts lines 110-139).  On a node
already on the recursion stack it records the cycle (the path slice from that
node's first occurrence, closed by the node itself) and reports `true`; a
fully-visited node is skipped; otherwise the node is pushed and its
dependencies are searched, popping the node afterwards.  `fuel` bounds the
recursion depth; each nested call visits a previously-unvisited node, so
`g.length + 1` fuel is never exhausted. -/
def dfs (g : JMap String GraphNode) : Nat → String → DfsSt → Bool × DfsSt
  | 0, _, s => (false, s)
  | fuel' + 1, nodeId, s =>
    if nodeId ∈ s.stack then
      let cycleStart := s.path.indexOf nodeId
      let cycle := s.path.drop cycleStart ++ [nodeId]
      (true, { s with result :=
        { s.result with errors := s.result.errors ++ [cycleMsg cycle], valid := false } })
    else if nodeId ∈ s.visited then
      (false, s)
    else
      let s1 : DfsSt := { s with visited := s.visited ++ [nodeId],
                                 stack := s.stack ++ [nodeId],
                                 path := s.path ++ [nodeId] }
      match jmGet g nodeId with
      | some node =>
        let r := dfsList (dfs g fuel') node.dependencies s1
        if r.1 then r
        else (false, { r.2 with path := r.2.path.dropLast, stack := r.2.stack.erase nodeId })
      | none =>
        (false, { s1 with path := s1.path.dropLast, stack := s1.stack.erase nodeId })

/-- The initial `result`, `visited`, `recursionStack` and `path` of
`detectCycles` (graph.ts lines 100-108). -/
def initDfsSt : DfsSt :=
  { visited := [], stack := [], path := [],
    result := { valid := true, errors := [], warnings := [] } }

/-- The driver loop of `detectCycles` (graph.ts lines 141-147): start a DFS
from every unvisited node, stopping at the first cycle found. -/
def detectLoop (g : JMap String GraphNode) : List String → DfsSt → DfsSt
  | [], s => s
  | nodeId :: rest, s =>
    if nodeId ∈ s.visited then detectLoop g rest s
    else
      let r := dfs g (g.length + 1) nodeId s
      if r.1 then r.2 else detectLoop g rest r.2

/-- `detectCycles` (graph.ts lines 99-150). -/
def detectCycles (graph : Graph) : ValidationResult :=
  (detectLoop graph.nodes (jmKeys graph.nodes) initDfsSt).result

/-- Forward dependency edge of a node map: `a` depends on `b`. -/
def edge (g : JMap String GraphNode) (a b : String) : Prop :=
  ∃ n, jmGet g a = some n ∧ b ∈ n.dependencies

instance instDecidableEdge (g : JMap String GraphNode) (a b : String) :
    Decidable (edge g a b) :=
  match h : jmGet g a with
  | some n =>
    if hb : b ∈ n.dependencies then
      isTrue ⟨n, h, hb⟩
    else
      isFalse (fun hc => by
        obtain ⟨m, hm, hbm⟩ := hc
        rw [h] at hm
        cases hm
        exact hb hbm)
  | none =>
    isFalse (fun hc => by
      obtain ⟨m, hm, _⟩ := hc
      rw [h] at hm
      cases hm)

/-- A dependency cycle: a chain of at least one forward edge whose first and
last identifiers coincide. -/
def IsCycleList (g : JMap String GraphNode) (c : List String) : Prop :=
  2 ≤ c.length ∧ c.Chain' (edge g) ∧ c.head? = c.getLast?

/-- Executable check that consecutive identifiers of a list are forward
edges; used to decide `IsCycleList` by evaluation. -/
def chainEdgesB (g : JMap String GraphNode) : List String → Bool
  | [] => true
  | [_] => true
  | a :: b :: rest => decide (edge g a b) && chainEdgesB g (b :: rest)

instance instDecidableIsCycleList (g : JMap String GraphNode) (c : List String) :
    Decidable (IsCycleList g c) :=
  decidable_of_iff (2 ≤ c.length ∧ chainEdgesB g c = true ∧ c.head? = c.getLast?)
    (by
      have hch : ∀ l : List String, chainEdgesB g l = true ↔ l.Chain' (edge g) := by
        intro l
        induction l with
        | nil => simp [chainEdgesB]
        | cons a t ih =>
          cases t with
          | nil => simp [chainEdgesB]
          | cons b t2 =>
            rw [List.chain'_cons]
            rw [show chainEdgesB g (a :: b :: t2)
                  = (decide (edge g a b) && chainEdgesB g (b :: t2)) from rfl]
            rw [Bool.and_eq_true, decide_eq_true_iff, ih]
      rw [hch c]
      exact Iff.rfl)

/-- Termination of the forward dependency relation from a node: every
dependency path out of the node is finite, i.e. the node neither lies on a
dependency cycle nor transitively depends on one. -/
inductive DAcc (g : JMap String GraphNode) : String → Prop where
  | intro (a : String) (h : ∀ b, edge g a b → DAcc g b) : DAcc g a

/-- Compiled plan entry (src/types/dp.ts `YadasmithEntry`). -/
structure YadasmithEntry where
  ref : String
  id : String
  status : TaskStatus
  level : Nat
deriving DecidableEq, Repr

/-- One compiled level (src/types/dp.ts `YadasmithLevel`). -/
structure YadasmithLevel where
  level : Nat
  dps : List YadasmithEntry
deriving DecidableEq, Repr

/-- The compiled plan (src/types/dp.ts `Yadasmith`).  The compilation
timestamp is threaded in as an explicit `now` argument wherever the source
calls `new Date().toISOString()`. -/
structure Yadasmith where
  version : String
  compiledAt : String
  levels : List YadasmithLevel
deriving DecidableEq, Repr

/-- Resolver result (src/types/dp.ts `ResolveResult`). -/
structure ResolveResult where
  yadasmith : Yadasmith
  errors : List String
  warnings : List String
deriving DecidableEq, Repr

/-- `createEmptyYadasmith` (resolver.ts). -/
def createEmptyYadasmith (now : String) : Yadasmith :=
  { version := "1.0.0", compiledAt := now, levels := [] }

/-- `getSortedLevels` (graph.ts): the level keys sorted ascending, matching
the numeric comparator `(a, b) => a - b`. -/
def getSortedLevels (graph : Graph) : List Nat :=
  (graph.levels.map Prod.fst).mergeSort (fun a b => a ≤ b)

/-- `getNode` (graph.ts). -/
def getNode (graph : Graph) (id : String) : Option GraphNode :=
  jmGet graph.nodes id

/-- The `priorityMap` built by `sortByPriority` (resolver.ts lines 445-449);
`dp.priority || 0` coincides with `dp.priority` since the only falsy integer
is 0 itself. -/
def priorityMap (dps : List ParsedDP) : JMap String Int :=
  dps.foldl (fun m dp => jmSet m dp.id dp.priority) []

/-- The priority a comparator operand resolves to:
`priorityMap.get(e.id) || 0`. -/
def prioOf (pm : JMap String Int) (e : YadasmithEntry) : Int :=
  (jmGet pm e.id).getD 0

/-- The comparator of `sortByPriority` as a total boolean preorder:
`entryLE pm a b` holds exactly when the source comparator returns a value
`≤ 0` on `(a, b)` — higher priority first, ties by identifier ascending.
`localeCompare` is modelled as ordinal string comparison, its behaviour on
the ASCII identifiers at hand. -/
def entryLE (pm : JMap String Int) (a b : YadasmithEntry) : Bool :=
  decide (prioOf pm b < prioOf pm a) ||
    (decide (prioOf pm a = prioOf pm b) && decide (a.id ≤ b.id))

/-- `sortByPriority` (resolver.ts lines 444-465): sort the entries of every
level by priority descending, ties broken by identifier ascending. -/
def sortByPriority (y : Yadasmith) (dps : List ParsedDP) : Yadasmith :=
  let pm := priorityMap dps
  { y with levels := y.levels.map (fun lv =>
      { lv with dps := lv.dps.mergeSort (entryLE pm) }) }

/-- `resolve` (resolver.ts lines 352-427): build the graph, gate on cycle
detection, then emit one plan level per sorted level key and order each level
by priority. -/
def resolve (now : String) (dps : List ParsedDP) : ResolveResult :=
  if dps.length = 0 then
    { yadasmith := createEmptyYadasmith now, errors := [],
      warnings := ["No DPs found to compile"] }
  else
    let graph := buildGraph dps
    let cycleCheck := detectCycles graph
    if cycleCheck.valid = false then
      { yadasmith := createEmptyYadasmith now, errors := cycleCheck.errors,
        warnings := [] }
    else
      let levels := getSortedLevels graph
      let yadasmithLevels : List YadasmithLevel := levels.map (fun levelNum =>
        { level := levelNum,
          dps := ((jmGet graph.levels levelNum).getD []).filterMap (fun nodeId =>
            (getNode graph nodeId).map (fun node =>
              ({ ref := node.dp.name, id := nodeId, status := TaskStatus.pending,
                 level := levelNum } : YadasmithEntry))) })
      let smith : Yadasmith :=
        { version := "1.0.0", compiledAt := now, levels := yadasmithLevels }
      { yadasmith := sortByPriority smith dps, errors := [], warnings := [] }

/-- All entries of a plan in flattened level order: levels in stored sequence,
entries in compiled order — the walk order shared by `getFlatTaskOrder`,
`findTask`, `markUntil` and `getStatus`. -/
def flattenEntries (y : Yadasmith) : List YadasmithEntry :=
  (y.levels.map (fun lv => lv.dps)).flatten

/-- `getFlatTaskOrder` (resolver.ts). -/
def getFlatTaskOrder (y : Yadasmith) : List String :=
  (flattenEntries y).map (fun e => e.id)

/-- The nested first-match lookup shared by `findTask` (state.ts lines
234-243) and `getTaskById` (resolver.ts lines 485-494). -/
def findTaskInLevels (taskId : String) : List YadasmithLevel → Option YadasmithEntry
  | [] => none
  | lv :: rest =>
    match lv.dps.find? (fun e => e.id == taskId) with
    | some e => some e
    | none => findTaskInLevels taskId rest

/-- `findTask` (state.ts). -/
def findTask (y : Yadasmith) (taskId : String) : Option YadasmithEntry :=
  findTaskInLevels taskId y.levels

/-- `getTaskById` (resolver.ts); its body is identical to `findTask`. -/
def getTaskById (y : Yadasmith) (id : String) : Option YadasmithEntry :=
  findTaskInLevels id y.levels

/-- The reversion applied past the target by `markUntil` (state.ts lines
83-86): completed entries fall back to pending, others are untouched. -/
def revertEntry (e : YadasmithEntry) : YadasmithEntry :=
  if e.status = TaskStatus.completed then { e with status := TaskStatus.pending } else e

/-- Inner entry loop of `markUntil` (state.ts lines 82-94), threading the
`foundTarget` flag: before the target every entry is forced to completed and
the flag flips at the target; after it completed entries are reverted. -/
def markUntilEntries (targetId : String) (ft : Bool) :
    List YadasmithEntry → List YadasmithEntry × Bool
  | [] => ([], ft)
  | e :: es =>
    if ft then
      let r := markUntilEntries targetId true es
      (revertEntry e :: r.1, r.2)
    else
      let r := markUntilEntries targetId (e.id == targetId) es
      ({ e with status := TaskStatus.completed } :: r.1, r.2)

/-- Outer level loop of `markUntil` (state.ts lines 81-95). -/
def markUntilLevels (targetId : String) (ft : Bool) :
    List YadasmithLevel → List YadasmithLevel × Bool
  | [] => ([], ft)
  | lv :: rest =>
    let r := markUntilEntries targetId ft lv.dps
    let r2 := markUntilLevels targetId r.2 rest
    ({ lv with dps := r.1 } :: r2.1, r2.2)

/-- `markUntil` (state.ts lines 55-105).  Storage is the `Option Yadasmith`
argument; the returned option is the storage content after the call. -/
def markUntil (now : String) (stored : Option Yadasmith) (targetId : String) :
    ValidationResult × Option Yadasmith :=
  match stored with
  | none =>
    ({ valid := false,
       errors := ["No .yadasmith file found. Run \"yada compile\" first."],
       warnings := [] }, none)
  | some y =>
    match findTask y targetId with
    | none =>
      ({ valid := false, errors := ["Task not found: " ++ targetId],
         warnings := [] }, some y)
    | some _ =>
      let r := markUntilLevels targetId false y.levels
      ({ valid := true, errors := [], warnings := [] },
       some { y with compiledAt := now, levels := r.1 })

/-- Completion of the first entry carrying the given identifier, modelling the
in-place `task.status = 'completed'` through the reference returned by
`findTask` (state.ts line 133). -/
def markOneEntries (taskId : String) :
    List YadasmithEntry → List YadasmithEntry × Bool
  | [] => ([], false)
  | e :: es =>
    if e.id == taskId then ({ e with status := TaskStatus.completed } :: es, true)
    else
      let r := markOneEntries taskId es
      (e :: r.1, r.2)

/-- Level-wise propagation of `markOneEntries` across the plan. -/
def markOneLevels (taskId : String) :
    List YadasmithLevel → List YadasmithLevel × Bool
  | [] => ([], false)
  | lv :: rest =>
    let r := markOneEntries taskId lv.dps
    if r.2 then ({ lv with dps := r.1 } :: rest, true)
    else
      let r2 := markOneLevels taskId rest
      (lv :: r2.1, r2.2)

/-- `markOne` (state.ts lines 110-142). -/
def markOne (now : String) (stored : Option Yadasmith) (taskId : String) :
    ValidationResult × Option Yadasmith :=
  match stored with
  | none =>
    ({ valid := false,
       errors := ["No .yadasmith file found. Run \"yada compile\" first."],
       warnings := [] }, none)
  | some y =>
    match findTask y taskId with
    | none =>
      ({ valid := false, errors := ["Task not found: " ++ taskId],
         warnings := [] }, some y)
    | some _ =>
      ({ valid := true, errors := [], warnings := [] },
       some { y with compiledAt := now,
                     levels := (markOneLevels taskId y.levels).1 })

/-- `resetAll` (state.ts lines 147-180): every completed entry falls back to
pending; other statuses are untouched. -/
def resetAll (now : String) (stored : Option Yadasmith) :
    ValidationResult × Option Yadasmith :=
  match stored with
  | none =>
    ({ valid := true, errors := [],
       warnings := ["No .yadasmith file found. Nothing to reset."] }, none)
  | some y =>
    ({ valid := true, errors := [], warnings := [] },
     some { y with compiledAt := now,
                   levels := y.levels.map (fun lv =>
                     { lv with dps := lv.dps.map revertEntry }) })

/-- The summary returned by `getStatus` (state.ts lines 185-229). -/
structure StatusSummary where
  completed : Nat
  pending : Nat
  total : Nat
  percentComplete : Nat
  nextTask : Option YadasmithEntry
deriving DecidableEq, Repr

/-- One entry of the counting pass of `getStatus` (state.ts lines 202-211):
bump the total, count completed entries, and remember the first entry whose
status is not completed. -/
def statusStep (acc : Nat × Nat × Option YadasmithEntry) (e : YadasmithEntry) :
    Nat × Nat × Option YadasmithEntry :=
  (if e.status = TaskStatus.completed then acc.1 + 1 else acc.1,
   acc.2.1 + 1,
   if e.status = TaskStatus.completed then acc.2.2
   else
     match acc.2.2 with
     | some t => some t
     | none => some e)

/-- `getStatus` (state.ts lines 185-229).  `Math.round((completed / total)
* 100)` on IEEE doubles rounds exactly like the rational `100 * completed /
total` with halves rounded up for every plan size below 2^45, which is the
integer expression used here. -/
def getStatus (stored : Option Yadasmith) : StatusSummary :=
  match stored with
  | none =>
    { completed := 0, pending := 0, total := 0, percentComplete := 0,
      nextTask := none }
  | some y =>
    let st := y.levels.foldl (fun acc lv => lv.dps.foldl statusStep acc)
      ((0 : Nat), (0 : Nat), (none : Option YadasmithEntry))
    let percentComplete := if 0 < st.2.1 then (200 * st.1 + st.2.1) / (2 * st.2.1) else 0
    { completed := st.1, pending := st.2.1 - st.1, total := st.2.1,
      percentComplete := percentComplete, nextTask := st.2.2 }

/-- Forcing an entry to completed, as the mark operations do. -/
def completeEntry (e : YadasmithEntry) : YadasmithEntry :=
  { e with status := TaskStatus.completed }

/-- Specification-level effect of `markOne` on the flattened entry list: the
first entry carrying the target identifier is forced to completed, every
other position is untouched. -/
def markOneTransform (tid : String) (es : List YadasmithEntry) : List YadasmithEntry :=
  es.mapIdx (fun j e =>
    if j = es.findIdx (fun x => x.id == tid) then completeEntry e else e)

/-- Specification-level effect of `markUntil` on the flattened entry list:
every position up to and including the first occurrence of the target is
forced to completed, every position strictly after it has completed reverted
to pending and all other statuses kept. -/
def markThroughTransform (tid : String) (es : List YadasmithEntry) : List YadasmithEntry :=
  es.mapIdx (fun j e =>
    if j ≤ es.findIdx (fun x => x.id == tid) then completeEntry e else revertEntry e)

/-- Concrete three-entry plan (one completed entry) instantiating the
state-machine theorems. -/
def samplePlan1 : Yadasmith :=
  { version := "1.0.0", compiledAt := "t0",
    levels :=
      [ { level := 1,
          dps := [ { ref := "A", id := "a", status := TaskStatus.completed, level := 1 } ] },
        { level := 2,
          dps := [ { ref := "B", id := "b", status := TaskStatus.pending, level := 2 },
                   { ref := "C", id := "c", status := TaskStatus.pending, level := 2 } ] } ] }

/-- Concrete three-entry plan whose last entry is completed, instantiating the
mark-through reversion behaviour. -/
def samplePlan2 : Yadasmith :=
  { version := "1.0.0", compiledAt := "t0",
    levels :=
      [ { level := 1,
          dps := [ { ref := "A", id := "a", status := TaskStatus.pending, level := 1 } ] },
        { level := 2,
          dps := [ { ref := "B", id := "b", status := TaskStatus.pending, level := 2 },
                   { ref := "C", id := "c", status := TaskStatus.completed, level := 2 } ] } ] }

/-- Every declared forward edge of the node map points at a key; graphs built
by `buildGraph` satisfy this because edges are filtered through `nodes.has`. -/
def WFdeps (g : JMap String GraphNode) : Prop :=
  ∀ k n, jmGet g k = some n → ∀ d ∈ n.dependencies, d ∈ jmKeys g

/-- The immutable part of a node: everything but the level field. -/
def nodeShape (n : GraphNode) : String × ParsedDP × List String × List String :=
  (n.id, n.dp, n.dependencies, n.dependents)

/-- Two node maps with the same keys and the same per-entry shapes; the
leveling pass only rewrites levels, so it relates its input and output. -/
def SameShape (m1 m2 : JMap String GraphNode) : Prop :=
  m1.map (fun p => (p.1, nodeShape p.2)) = m2.map (fun p => (p.1, nodeShape p.2))

/-- Number of keys of the node map not yet visited by the DFS; the measure
that shrinks at every nested `dfs` call. -/
def unvisitedCount (g : JMap String GraphNode) (s : DfsSt) : Nat :=
  ((jmKeys g).filter (fun k => decide (k ∉ s.visited))).length

/-- Invariant of the DFS state between `dfs` calls: the recursion stack and
the path carry the same identifiers, the path is a duplicate-free edge chain
of visited keys, and every fully-processed node (visited but off the path)
has provably terminating dependencies. -/
structure DfsInv (g : JMap String GraphNode) (s : DfsSt) : Prop where
  stack_eq : ∀ x, x ∈ s.stack ↔ x ∈ s.path
  path_nodup : s.path.Nodup
  path_chain : s.path.Chain' (edge g)
  path_vis : ∀ x ∈ s.path, x ∈ s.visited
  vis_keys : ∀ x ∈ s.visited, x ∈ jmKeys g
  done_acc : ∀ x ∈ s.visited, x ∉ s.path → DAcc g x

/-- The two-node circular input used to instantiate the cycle-detection
theorems (`A depends on B`, `B depends on A`). -/
def cycDps : List ParsedDP :=
  [ { id := "a", name := "A", priority := 0, dependencies := ["b"] },
    { id := "b", name := "B", priority := 0, dependencies := ["a"] } ]

/-- Three independent records with priorities 10, 50, 50 and identifiers
b, a, c, instantiating the intra-level ordering example. -/
def prioDps : List ParsedDP :=
  [ { id := "b", name := "B", priority := 10, dependencies := [] },
    { id := "a", name := "A", priority := 50, dependencies := [] },
    { id := "c", name := "C", priority := 50, dependencies := [] } ]

/-- The compiled entry of DP `a` in the priority example. -/
def eA : YadasmithEntry :=
  { ref := "A", id := "a", status := TaskStatus.pending, level := 1 }

/-- The compiled entry of DP `b` in the priority example. -/
def eB : YadasmithEntry :=
  { ref := "B", id := "b", status := TaskStatus.pending, level := 1 }

/-- The compiled entry of DP `c` in the priority example. -/
def eC : YadasmithEntry :=
  { ref := "C", id := "c", status := TaskStatus.pending, level := 1 }

/-- The dependency identifier list stored at a node key (empty when the key
is absent). -/
def ndeps (g : JMap String GraphNode) (x : String) : List String :=
  ((jmGet g x).getD dfltNode).dependencies

/-- The dependent identifier list stored at a node key (empty when the key
is absent). -/
def ndept (g : JMap String GraphNode) (x : String) : List String :=
  ((jmGet g x).getD dfltNode).dependents

/-- The level stored at a node key (0 when the key is absent). -/
def nlevel (g : JMap String GraphNode) (x : String) : Nat :=
  ((jmGet g x).getD dfltNode).level

/-- Number of in-degree decrements `x` has received once the identifiers of
`processed` have been dequeued: one per occurrence of `x` in a processed
node's dependent list. -/
def occCount (g : JMap String GraphNode) (processed : List String) (x : String) : Nat :=
  (processed.map (fun d => (ndept g d).count x)).sum

/-- The level a node holds right after seeding: 1 for dependency-free nodes
(the zero in-degree seeds of `calculateLevels`), otherwise the constructor's
initial 0. -/
def seedLvl (g : JMap String GraphNode) (x : String) : Nat :=
  if ndeps g x = [] then 1 else 0

/-- Largest `level + 1` among the already-processed dependency occurrences of
`x`: dependency lists are read in `g`, levels in the evolving map `m`. -/
def depMax (g m : JMap String GraphNode) (P : List String) (x : String) : Nat :=
  (((ndeps g x).filter (fun d => decide (d ∈ P))).map
    (fun d => nlevel m d + 1)).foldr max 0

/-- Static well-formedness of the node map the leveling pass runs on: keys
are duplicate-free, edge lists stay inside the key set, and the dependency
and dependent lists record the same multiset of edges. -/
structure GraphWF (g : JMap String GraphNode) : Prop where
  keys_nodup : (jmKeys g).Nodup
  deps_keys : ∀ x ∈ jmKeys g, ∀ d ∈ ndeps g x, d ∈ jmKeys g
  dept_keys : ∀ x ∈ jmKeys g, ∀ d ∈ ndept g x, d ∈ jmKeys g
  dual : ∀ x d, (ndeps g x).count d = (ndept g d).count x

/-- Invariant of the Kahn `while` loop of `calculateLevels` between
iterations, with the list of already-dequeued identifiers as ghost state:
the in-degree entry of every node counts its not-yet-processed dependency
occurrences, a node is processed or queued exactly when all its dependency
occurrences are processed, every node's level is the maximum of its seed
level and `level + 1` over its processed dependencies, and everything that
ever reaches the queue has provably terminating dependencies. -/
structure KahnInv (g nodes : JMap String GraphNode)
    (inDeg : JMap String Int) (queue processed : List String) : Prop where
  shape : SameShape g nodes
  proc_nodup : processed.Nodup
  queue_nodup : queue.Nodup
  disj : ∀ x ∈ queue, x ∉ processed
  proc_keys : ∀ x ∈ processed, x ∈ jmKeys g
  queue_keys : ∀ x ∈ queue, x ∈ jmKeys g
  deg : ∀ x ∈ jmKeys g, jmGet inDeg x
      = some (((ndeps g x).length : Int) - (occCount g processed x : Int))
  memb : ∀ x ∈ jmKeys g,
      (x ∈ processed ∨ x ∈ queue) ↔ occCount g processed x = (ndeps g x).length
  lvl : ∀ x ∈ jmKeys g,
      nlevel nodes x = max (seedLvl g x) (depMax g nodes processed x)
  proc_dacc : ∀ x ∈ processed, DAcc g x
  queue_dacc : ∀ x ∈ queue, DAcc g x

/-- Mid-fold invariant while one dequeued node `c` walks its dependent list:
`done` is the already-visited prefix of that list, `nodes0` the node map at
the start of the walk and `rest` the queue behind `c`. Levels move only on
visited dependents, and the queue grows exactly by the dependents whose
in-degree reached zero within `done`. -/
structure KahnMid (g : JMap String GraphNode) (c : String)
    (processed rest : List String) (nodes0 : JMap String GraphNode)
    (done : List String)
    (st : JMap String GraphNode × JMap String Int × List String) : Prop where
  shape : SameShape g st.1
  deg : ∀ x ∈ jmKeys g, jmGet st.2.1 x
      = some (((ndeps g x).length : Int) - (occCount g processed x : Int)
          - (done.count x : Int))
  qmem : ∀ x, x ∈ st.2.2 ↔ (x ∈ rest ∨ (1 ≤ done.count x ∧
      occCount g processed x + done.count x = (ndeps g x).length))
  qnodup : st.2.2.Nodup
  lvl0 : ∀ x, done.count x = 0 → nlevel st.1 x = nlevel nodes0 x
  lvl1 : ∀ x, 1 ≤ done.count x →
      nlevel st.1 x = max (nlevel nodes0 x) (nlevel nodes0 c + 1)

/-- Three-record acyclic input (`a`; `b` after `a`; `c` after `a` and `b`)
instantiating the leveling theorem. -/
def c2Dps : List ParsedDP :=
  [ { id := "a", name := "A", priority := 0, dependencies := [] },
    { id := "b", name := "B", priority := 0, dependencies := ["a"] },
    { id := "c", name := "C", priority := 0, dependencies := ["a", "b"] } ]

/-- Input whose nodes `c` and `d` form a cycle while `c` also depends on the
acyclic node `a`: the leveling pass still raises the level of `c`. -/
def c10Dps : List ParsedDP :=
  [ { id := "a", name := "A", priority := 0, dependencies := [] },
    { id := "c", name := "C", priority := 0, dependencies := ["a", "d"] },
    { id := "d", name := "D", priority := 0, dependencies := ["c"] } ]

theorem markUntilEntries_true (tid : String) (es : List YadasmithEntry) :
    markUntilEntries tid true es = (es.map revertEntry, true) := by
  induction es with
  | nil => rfl
  | cons e es ih => simp [markUntilEntries, ih]

theorem markUntilEntries_length (tid : String) (ft : Bool) (es : List YadasmithEntry) :
    (markUntilEntries tid ft es).1.length = es.length := by
  induction es generalizing ft with
  | nil => rfl
  | cons e es ih =>
    by_cases h : ft
    · subst h
      simp [markUntilEntries, ih]
    · simp at h
      subst h
      simp [markUntilEntries, ih]

theorem mapIdx_ext {α β : Type} (f g : Nat → α → β) (l : List α)
    (h : ∀ i a, f i a = g i a) : l.mapIdx f = l.mapIdx g := by
  induction l generalizing f g with
  | nil => rfl
  | cons a l ih =>
    simp only [List.mapIdx_cons, h]
    exact congrArg _ (ih _ _ (fun i a => h (i + 1) a))

theorem mapIdx_ignore {α β : Type} (f : α → β) (l : List α) :
    l.mapIdx (fun _ a => f a) = l.map f := by
  induction l with
  | nil => rfl
  | cons a l ih => simp only [List.mapIdx_cons, List.map_cons, ih]

theorem markUntilEntries_false_flag (tid : String) (es : List YadasmithEntry) :
    (markUntilEntries tid false es).2 = es.any (fun x => x.id == tid) := by
  induction es with
  | nil => rfl
  | cons e es ih =>
    by_cases h : e.id = tid
    · have hb : (e.id == tid) = true := by simp [h]
      simp [markUntilEntries, hb, markUntilEntries_true]
    · have hb : (e.id == tid) = false := by simp [h]
      simp [markUntilEntries, hb, ih]

theorem markUntilEntries_false_spec (tid : String) (es : List YadasmithEntry) :
    (markUntilEntries tid false es).1 =
      es.mapIdx (fun j e =>
        if j ≤ es.findIdx (fun x => x.id == tid) then completeEntry e
        else revertEntry e) := by
  induction es with
  | nil => rfl
  | cons e es ih =>
    by_cases h : e.id = tid
    · have hb : (e.id == tid) = true := by simp [h]
      simp only [markUntilEntries, hb, markUntilEntries_true, List.findIdx_cons,
        List.mapIdx_cons, cond_true, Nat.le_zero, if_true, Nat.le_refl]
      refine congrArg (fun l => completeEntry e :: l) ?_
      rw [show (fun i e => if i + 1 = 0 then completeEntry e else revertEntry e)
            = (fun (_ : Nat) e => revertEntry e) from ?_]
      · rw [mapIdx_ignore]
      · funext i x
        simp
    · have hb : (e.id == tid) = false := by simp [h]
      simp only [markUntilEntries, hb, List.findIdx_cons, List.mapIdx_cons, cond_false]
      refine congrArg₂ (fun a l => a :: l) ?_ ?_
      · simp [completeEntry]
      · rw [ih]
        refine mapIdx_ext _ _ _ ?_
        intro i x
        simp [Nat.succ_le_succ_iff]

theorem markUntilLevels_spec (tid : String) (ft : Bool) (lvls : List YadasmithLevel) :
    ((markUntilLevels tid ft lvls).1.map (fun lv => lv.dps)).flatten =
      (markUntilEntries tid ft ((lvls.map (fun lv => lv.dps)).flatten)).1 ∧
    (markUntilLevels tid ft lvls).2 =
      (markUntilEntries tid ft ((lvls.map (fun lv => lv.dps)).flatten)).2 ∧
    (markUntilLevels tid ft lvls).1.map (fun lv => lv.level) =
      lvls.map (fun lv => lv.level) ∧
    (markUntilLevels tid ft lvls).1.map (fun lv => lv.dps.length) =
      lvls.map (fun lv => lv.dps.length) := by
  induction lvls generalizing ft with
  | nil => exact ⟨rfl, rfl, rfl, rfl⟩
  | cons lv rest ih =>
    have happ : ∀ (f : Bool) (l1 l2 : List YadasmithEntry),
        markUntilEntries tid f (l1 ++ l2) =
          ((markUntilEntries tid f l1).1 ++
             (markUntilEntries tid (markUntilEntries tid f l1).2 l2).1,
           (markUntilEntries tid (markUntilEntries tid f l1).2 l2).2) := by
      intro f l1 l2
      induction l1 generalizing f with
      | nil => simp [markUntilEntries]
      | cons a l1 ih1 =>
        by_cases hf : f
        · subst hf
          simp [markUntilEntries, ih1]
        · simp at hf
          subst hf
          simp [markUntilEntries, ih1]
    obtain ⟨ih1, ih2, ih3, ih4⟩ := ih (markUntilEntries tid ft lv.dps).2
    refine ⟨?_, ?_, ?_, ?_⟩
    · simp only [markUntilLevels, List.map_cons, List.flatten_cons, happ]
      rw [ih1]
    · simp only [markUntilLevels, List.map_cons, List.flatten_cons, happ]
      rw [ih2]
    · simp only [markUntilLevels, List.map_cons]
      rw [ih3]
    · simp only [markUntilLevels, List.map_cons]
      rw [ih4, markUntilEntries_length]

theorem findTaskInLevels_eq_find (tid : String) (lvls : List YadasmithLevel) :
    findTaskInLevels tid lvls =
      ((lvls.map (fun lv => lv.dps)).flatten).find? (fun e => e.id == tid) := by
  induction lvls with
  | nil => rfl
  | cons lv rest ih =>
    simp only [findTaskInLevels, List.map_cons, List.flatten_cons, List.find?_append]
    cases h : lv.dps.find? (fun e => e.id == tid) with
    | some e => simp [Option.or]
    | none => simp [Option.or, ih]

theorem findTask_eq_find (tid : String) (y : Yadasmith) :
    findTask y tid = (flattenEntries y).find? (fun e => e.id == tid) :=
  findTaskInLevels_eq_find tid y.levels

theorem markOneEntries_spec (tid : String) (es : List YadasmithEntry) :
    (markOneEntries tid es).1 =
      es.mapIdx (fun j e =>
        if j = es.findIdx (fun x => x.id == tid) then completeEntry e else e) ∧
    (markOneEntries tid es).2 = es.any (fun x => x.id == tid) := by
  induction es with
  | nil => exact ⟨rfl, rfl⟩
  | cons e es ih =>
    by_cases h : e.id = tid
    · have hb : (e.id == tid) = true := by simp [h]
      constructor
      · simp only [markOneEntries, hb, if_true, List.findIdx_cons, cond_true,
          List.mapIdx_cons, if_pos rfl]
        refine congrArg (fun l => completeEntry e :: l) ?_
        rw [show (fun i e => if i + 1 = 0 then completeEntry e else e)
              = (fun (_ : Nat) (e : YadasmithEntry) => e) from ?_]
        · rw [mapIdx_ignore]
          simp
        · funext i x
          simp
      · simp [markOneEntries, hb]
    · have hb : (e.id == tid) = false := by simp [h]
      constructor
      · simp only [markOneEntries, hb, if_false, List.findIdx_cons, cond_false,
          List.mapIdx_cons]
        refine congrArg₂ (fun a l => a :: l) ?_ ?_
        · simp
        · rw [ih.1]
          refine mapIdx_ext _ _ _ ?_
          intro i x
          simp [Nat.succ_inj]
      · simp [markOneEntries, hb, ih.2]

theorem markOneEntries_length (tid : String) (es : List YadasmithEntry) :
    (markOneEntries tid es).1.length = es.length := by
  rw [(markOneEntries_spec tid es).1, List.length_mapIdx]

theorem markOneEntries_not_found (tid : String) (es : List YadasmithEntry)
    (h : es.any (fun x => x.id == tid) = false) : (markOneEntries tid es).1 = es := by
  induction es with
  | nil => rfl
  | cons e es ih =>
    simp only [List.any_cons, Bool.or_eq_false_iff] at h
    simp [markOneEntries, h.1, ih h.2]

theorem markOneEntries_append (tid : String) (l1 l2 : List YadasmithEntry) :
    (markOneEntries tid (l1 ++ l2)).1 =
      (if (markOneEntries tid l1).2 then (markOneEntries tid l1).1 ++ l2
       else l1 ++ (markOneEntries tid l2).1) ∧
    (markOneEntries tid (l1 ++ l2)).2 =
      ((markOneEntries tid l1).2 || (markOneEntries tid l2).2) := by
  induction l1 with
  | nil => simp [markOneEntries]
  | cons a l1 ih =>
    by_cases ha : (a.id == tid) = true
    · simp [markOneEntries, ha]
    · simp only [Bool.not_eq_true] at ha
      rw [List.cons_append]
      constructor
      · rw [show markOneEntries tid (a :: (l1 ++ l2)) =
            (a :: (markOneEntries tid (l1 ++ l2)).1, (markOneEntries tid (l1 ++ l2)).2) from by
          simp [markOneEntries, ha]]
        rw [show markOneEntries tid (a :: l1) =
            (a :: (markOneEntries tid l1).1, (markOneEntries tid l1).2) from by
          simp [markOneEntries, ha]]
        simp only [ih.1]
        by_cases h2 : (markOneEntries tid l1).2 = true
        · simp [h2]
        · simp only [Bool.not_eq_true] at h2
          simp [h2]
      · rw [show markOneEntries tid (a :: (l1 ++ l2)) =
            (a :: (markOneEntries tid (l1 ++ l2)).1, (markOneEntries tid (l1 ++ l2)).2) from by
          simp [markOneEntries, ha]]
        rw [show markOneEntries tid (a :: l1) =
            (a :: (markOneEntries tid l1).1, (markOneEntries tid l1).2) from by
          simp [markOneEntries, ha]]
        simp only [ih.2]

theorem markOneLevels_spec (tid : String) (lvls : List YadasmithLevel) :
    ((markOneLevels tid lvls).1.map (fun lv => lv.dps)).flatten =
      (markOneEntries tid ((lvls.map (fun lv => lv.dps)).flatten)).1 ∧
    (markOneLevels tid lvls).2 =
      ((lvls.map (fun lv => lv.dps)).flatten).any (fun x => x.id == tid) ∧
    (markOneLevels tid lvls).1.map (fun lv => lv.level) =
      lvls.map (fun lv => lv.level) ∧
    (markOneLevels tid lvls).1.map (fun lv => lv.dps.length) =
      lvls.map (fun lv => lv.dps.length) := by
  induction lvls with
  | nil => exact ⟨rfl, rfl, rfl, rfl⟩
  | cons lv rest ih =>
    obtain ⟨ih1, ih2, ih3, ih4⟩ := ih
    by_cases hf : (markOneEntries tid lv.dps).2 = true
    · have hflag : (lv.dps.any (fun x => x.id == tid)) = true := by
        rw [← (markOneEntries_spec tid lv.dps).2]
        exact hf
      refine ⟨?_, ?_, ?_, ?_⟩
      · simp only [markOneLevels, hf, if_true, List.map_cons, List.flatten_cons,
          (markOneEntries_append tid lv.dps _).1]
      · simp only [markOneLevels, hf, if_true, List.map_cons, List.flatten_cons,
          List.any_append, hflag]
        simp
      · simp [markOneLevels, hf]
      · simp only [markOneLevels, hf, if_true, List.map_cons]
        rw [markOneEntries_length]
    · simp only [Bool.not_eq_true] at hf
      have hflag : (lv.dps.any (fun x => x.id == tid)) = false := by
        rw [← (markOneEntries_spec tid lv.dps).2]
        exact hf
      refine ⟨?_, ?_, ?_, ?_⟩
      · simp only [markOneLevels, hf, Bool.false_eq_true, if_false, List.map_cons,
          List.flatten_cons, (markOneEntries_append tid lv.dps _).1, hf]
        rw [ih1]
      · simp only [markOneLevels, hf, Bool.false_eq_true, if_false, List.map_cons,
          List.flatten_cons, List.any_append, hflag]
        rw [ih2]
        simp
      · simp only [markOneLevels, hf, Bool.false_eq_true, if_false, List.map_cons]
        rw [ih3]
      · simp only [markOneLevels, hf, Bool.false_eq_true, if_false, List.map_cons]
        rw [ih4]

theorem findTask_isSome_iff (tid : String) (y : Yadasmith) :
    (findTask y tid).isSome = true ↔ tid ∈ (flattenEntries y).map (fun e => e.id) := by
  rw [findTask_eq_find]
  constructor
  · intro h
    obtain ⟨e, he⟩ := Option.isSome_iff_exists.mp h
    have := List.find?_some he
    have hmem := List.mem_of_find?_eq_some he
    simp at this
    exact List.mem_map.mpr ⟨e, hmem, this⟩
  · intro h
    obtain ⟨e, hmem, hid⟩ := List.mem_map.mp h
    cases hf : (flattenEntries y).find? (fun e => e.id == tid) with
    | some _ => simp
    | none =>
      rw [List.find?_eq_none] at hf
      exact absurd (by simpa using hid) (by simpa using hf e hmem)

theorem markOneTransform_cons_pos (tid : String) (e : YadasmithEntry)
    (es : List YadasmithEntry) (h : (e.id == tid) = true) :
    markOneTransform tid (e :: es) = completeEntry e :: es := by
  unfold markOneTransform
  simp only [List.findIdx_cons, h, cond_true, List.mapIdx_cons, if_pos rfl]
  refine congrArg (fun l => completeEntry e :: l) ?_
  rw [show (fun i e => if i + 1 = 0 then completeEntry e else e)
        = (fun (_ : Nat) (e : YadasmithEntry) => e) from by
    funext i x
    simp]
  rw [mapIdx_ignore]
  simp

theorem markOneTransform_cons_neg (tid : String) (e : YadasmithEntry)
    (es : List YadasmithEntry) (h : (e.id == tid) = false) :
    markOneTransform tid (e :: es) = e :: markOneTransform tid es := by
  unfold markOneTransform
  simp only [List.findIdx_cons, h, cond_false, List.mapIdx_cons]
  refine congrArg₂ (fun a l => a :: l) (by simp) ?_
  refine mapIdx_ext _ _ _ ?_
  intro i x
  simp [Nat.succ_inj]

theorem markThroughTransform_cons_pos (tid : String) (e : YadasmithEntry)
    (es : List YadasmithEntry) (h : (e.id == tid) = true) :
    markThroughTransform tid (e :: es) = completeEntry e :: es.map revertEntry := by
  unfold markThroughTransform
  simp only [List.findIdx_cons, h, cond_true, List.mapIdx_cons, Nat.le_refl, if_pos]
  refine congrArg (fun l => completeEntry e :: l) ?_
  rw [show (fun i e => if i + 1 ≤ 0 then completeEntry e else revertEntry e)
        = (fun (_ : Nat) (e : YadasmithEntry) => revertEntry e) from by
    funext i x
    simp]
  rw [mapIdx_ignore]

theorem markThroughTransform_cons_neg (tid : String) (e : YadasmithEntry)
    (es : List YadasmithEntry) (h : (e.id == tid) = false) :
    markThroughTransform tid (e :: es) = completeEntry e :: markThroughTransform tid es := by
  unfold markThroughTransform
  simp only [List.findIdx_cons, h, cond_false, List.mapIdx_cons]
  refine congrArg₂ (fun a l => a :: l) (by simp) ?_
  refine mapIdx_ext _ _ _ ?_
  intro i x
  simp [Nat.succ_le_succ_iff]

theorem find?_markOneTransform_self (tid : String) (es : List YadasmithEntry)
    (h : tid ∈ es.map (fun e => e.id)) :
    (markOneTransform tid es).find? (fun x => x.id == tid) =
      (es.find? (fun x => x.id == tid)).map completeEntry := by
  induction es with
  | nil => simp at h
  | cons e es ih =>
    by_cases he : (e.id == tid) = true
    · rw [markOneTransform_cons_pos _ _ _ he]
      rw [@List.find?_cons_of_pos _ (fun x => x.id == tid) (completeEntry e) es he]
      rw [@List.find?_cons_of_pos _ (fun x => x.id == tid) e es he]
      rfl
    · have he' : (e.id == tid) = false := by simpa using he
      rw [markOneTransform_cons_neg _ _ _ he']
      rw [@List.find?_cons_of_neg _ (fun x => x.id == tid) e (markOneTransform tid es)
        (by simp [he'])]
      rw [@List.find?_cons_of_neg _ (fun x => x.id == tid) e es (by simp [he'])]
      refine ih ?_
      simp only [List.map_cons, List.mem_cons] at h
      rcases h with h | h
      · exact absurd h.symm (by simpa using he')
      · exact h

theorem find?_markOneTransform_other (tid id' : String) (es : List YadasmithEntry)
    (h : id' ≠ tid) :
    (markOneTransform tid es).find? (fun x => x.id == id') =
      es.find? (fun x => x.id == id') := by
  induction es with
  | nil => rfl
  | cons e es ih =>
    by_cases he : (e.id == tid) = true
    · have heq : e.id = tid := by simpa using he
      have hne : ¬((e.id == id') = true) := by
        simp only [beq_iff_eq, heq]
        exact fun hc => h hc.symm
      rw [markOneTransform_cons_pos _ _ _ he]
      rw [@List.find?_cons_of_neg _ (fun x => x.id == id') (completeEntry e) es hne]
      rw [@List.find?_cons_of_neg _ (fun x => x.id == id') e es hne]
    · have he' : (e.id == tid) = false := by simpa using he
      rw [markOneTransform_cons_neg _ _ _ he']
      by_cases hm : (e.id == id') = true
      · rw [@List.find?_cons_of_pos _ (fun x => x.id == id') e (markOneTransform tid es) hm]
        rw [@List.find?_cons_of_pos _ (fun x => x.id == id') e es hm]
      · rw [@List.find?_cons_of_neg _ (fun x => x.id == id') e (markOneTransform tid es) hm]
        rw [@List.find?_cons_of_neg _ (fun x => x.id == id') e es hm]
        exact ih

theorem statusStep_fold (es : List YadasmithEntry) (c t : Nat)
    (nt : Option YadasmithEntry) :
    es.foldl statusStep (c, t, nt) =
      (c + (es.filter (fun e => e.status == TaskStatus.completed)).length,
       t + es.length,
       nt.or (es.find? (fun e => !(e.status == TaskStatus.completed)))) := by
  induction es generalizing c t nt with
  | nil => simp
  | cons e es ih =>
    by_cases h : e.status = TaskStatus.completed
    · have hb : (e.status == TaskStatus.completed) = true := by simp [h]
      rw [List.foldl_cons,
        show statusStep (c, t, nt) e = (c + 1, t + 1, nt) from by simp [statusStep, h]]
      rw [ih]
      rw [@List.find?_cons_of_neg _ (fun e => !(e.status == TaskStatus.completed)) e es
        (by simp [hb])]
      rw [List.filter_cons]
      simp only [hb, if_true]
      refine congrArg₂ Prod.mk (by simp; omega) (congrArg₂ Prod.mk (by simp; omega) rfl)
    · have hb : (e.status == TaskStatus.completed) = false := by simp [h]
      rw [List.foldl_cons,
        show statusStep (c, t, nt) e = (c, t + 1, nt.or (some e)) from by
          cases nt <;> simp [statusStep, h, Option.or]]
      rw [ih]
      rw [@List.find?_cons_of_pos _ (fun e => !(e.status == TaskStatus.completed)) e es
        (by simp [hb])]
      rw [List.filter_cons]
      simp only [hb, Bool.false_eq_true, if_false]
      refine congrArg₂ Prod.mk rfl (congrArg₂ Prod.mk (by simp; omega) ?_)
      rw [Option.or_assoc]
      refine congrArg _ ?_
      show (some e).or _ = some e
      rfl

theorem getStatus_eq (y : Yadasmith) :
    getStatus (some y) =
      { completed := ((flattenEntries y).filter
          (fun e => e.status == TaskStatus.completed)).length,
        pending := (flattenEntries y).length -
          ((flattenEntries y).filter (fun e => e.status == TaskStatus.completed)).length,
        total := (flattenEntries y).length,
        percentComplete :=
          (if 0 < (flattenEntries y).length then
            (200 * ((flattenEntries y).filter
              (fun e => e.status == TaskStatus.completed)).length +
              (flattenEntries y).length) / (2 * (flattenEntries y).length)
          else 0),
        nextTask := (flattenEntries y).find?
          (fun e => !(e.status == TaskStatus.completed)) } := by
  have hfold : y.levels.foldl (fun acc lv => lv.dps.foldl statusStep acc)
      ((0 : Nat), (0 : Nat), (none : Option YadasmithEntry)) =
      (flattenEntries y).foldl statusStep
        ((0 : Nat), (0 : Nat), (none : Option YadasmithEntry)) := by
    unfold flattenEntries
    rw [List.foldl_flatten, List.foldl_map]
  have hdef : getStatus (some y) =
      { completed := (y.levels.foldl (fun acc lv => lv.dps.foldl statusStep acc)
          ((0 : Nat), (0 : Nat), (none : Option YadasmithEntry))).1,
        pending := (y.levels.foldl (fun acc lv => lv.dps.foldl statusStep acc)
          ((0 : Nat), (0 : Nat), (none : Option YadasmithEntry))).2.1 -
          (y.levels.foldl (fun acc lv => lv.dps.foldl statusStep acc)
          ((0 : Nat), (0 : Nat), (none : Option YadasmithEntry))).1,
        total := (y.levels.foldl (fun acc lv => lv.dps.foldl statusStep acc)
          ((0 : Nat), (0 : Nat), (none : Option YadasmithEntry))).2.1,
        percentComplete :=
          (if 0 < (y.levels.foldl (fun acc lv => lv.dps.foldl statusStep acc)
              ((0 : Nat), (0 : Nat), (none : Option YadasmithEntry))).2.1 then
            (200 * (y.levels.foldl (fun acc lv => lv.dps.foldl statusStep acc)
              ((0 : Nat), (0 : Nat), (none : Option YadasmithEntry))).1 +
              (y.levels.foldl (fun acc lv => lv.dps.foldl statusStep acc)
              ((0 : Nat), (0 : Nat), (none : Option YadasmithEntry))).2.1) /
            (2 * (y.levels.foldl (fun acc lv => lv.dps.foldl statusStep acc)
              ((0 : Nat), (0 : Nat), (none : Option YadasmithEntry))).2.1)
          else 0),
        nextTask := (y.levels.foldl (fun acc lv => lv.dps.foldl statusStep acc)
          ((0 : Nat), (0 : Nat), (none : Option YadasmithEntry))).2.2 } := rfl
  rw [hdef]
  rw [hfold, statusStep_fold]
  simp [Option.or]

theorem percent_eq_round (c t : Nat) (ht : 0 < t) :
    (((200 * c + t) / (2 * t) : Nat) : ℤ) = round ((100 * (c : ℚ)) / (t : ℚ)) := by
  have ht' : (t : ℚ) ≠ 0 := by
    exact_mod_cast Nat.pos_iff_ne_zero.mp ht
  rw [round_eq]
  have hq : (100 * (c : ℚ)) / (t : ℚ) + 1 / 2
      = ((200 * c + t : ℕ) : ℚ) / ((2 * t : ℕ) : ℚ) := by
    push_cast
    field_simp
    ring
  rw [hq, Rat.floor_natCast_div_natCast]
  exact Int.natCast_div (200 * c + t) (2 * t)

/-- C5: for every stored plan, `markThrough` (`markUntil`) walks all entries
in flattened level order, forces every entry up to and including the target to
completed, reverts every completed entry strictly after the target to pending,
leaves other entries after the target unchanged, persists the result with a
refreshed timestamp, and fails when the target identifier does not exist. -/
theorem markThrough_spec (now tid : String) (y : Yadasmith) :
    (tid ∈ (flattenEntries y).map (fun e => e.id) →
      ∃ y', markUntil now (some y) tid =
          ({ valid := true, errors := [], warnings := [] }, some y') ∧
        y'.version = y.version ∧
        y'.compiledAt = now ∧
        y'.levels.map (fun lv => lv.level) = y.levels.map (fun lv => lv.level) ∧
        y'.levels.map (fun lv => lv.dps.length) = y.levels.map (fun lv => lv.dps.length) ∧
        flattenEntries y' = markThroughTransform tid (flattenEntries y)) ∧
    (tid ∉ (flattenEntries y).map (fun e => e.id) →
      markUntil now (some y) tid =
        ({ valid := false, errors := ["Task not found: " ++ tid], warnings := [] },
         some y)) := by
  constructor
  · intro h
    obtain ⟨e0, he0⟩ := Option.isSome_iff_exists.mp ((findTask_isSome_iff tid y).mpr h)
    refine ⟨{ y with compiledAt := now, levels := (markUntilLevels tid false y.levels).1 },
      ?_, rfl, rfl, ?_, ?_, ?_⟩
    · simp [markUntil, he0]
    · exact (markUntilLevels_spec tid false y.levels).2.2.1
    · exact (markUntilLevels_spec tid false y.levels).2.2.2
    · show ((markUntilLevels tid false y.levels).1.map (fun lv => lv.dps)).flatten = _
      rw [(markUntilLevels_spec tid false y.levels).1]
      rw [markUntilEntries_false_spec]
      rfl
  · intro h
    have hnone : findTask y tid = none := by
      cases hf : findTask y tid with
      | none => rfl
      | some e =>
        exact absurd ((findTask_isSome_iff tid y).mp (by simp [hf])) h
    simp [markUntil, hnone]

/-- C5 witness: marking through `b` on a concrete three-entry plan whose last
entry was completed. -/
theorem markThrough_spec_witness :
    "b" ∈ (flattenEntries samplePlan2).map (fun e => e.id) ∧
    (∃ y', markUntil "t9" (some samplePlan2) "b" =
        ({ valid := true, errors := [], warnings := [] }, some y') ∧
      y'.version = samplePlan2.version ∧
      y'.compiledAt = "t9" ∧
      y'.levels.map (fun lv => lv.level) = samplePlan2.levels.map (fun lv => lv.level) ∧
      y'.levels.map (fun lv => lv.dps.length) =
        samplePlan2.levels.map (fun lv => lv.dps.length) ∧
      flattenEntries y' = markThroughTransform "b" (flattenEntries samplePlan2)) :=
  ⟨by decide, (markThrough_spec "t9" "b" samplePlan2).1 (by decide)⟩

/-- C6: `markOne` on an identifier present in the stored plan completes
exactly the first entry carrying that identifier, refreshes the timestamp and
persists; every other position is unchanged, `getTaskById` on the marked
identifier then yields status completed, and `getTaskById` on any other
identifier is unchanged. -/
theorem markOne_spec (now tid : String) (y : Yadasmith)
    (h : tid ∈ (flattenEntries y).map (fun e => e.id)) :
    ∃ y', markOne now (some y) tid =
        ({ valid := true, errors := [], warnings := [] }, some y') ∧
      y'.version = y.version ∧
      y'.compiledAt = now ∧
      y'.levels.map (fun lv => lv.level) = y.levels.map (fun lv => lv.level) ∧
      y'.levels.map (fun lv => lv.dps.length) = y.levels.map (fun lv => lv.dps.length) ∧
      flattenEntries y' = markOneTransform tid (flattenEntries y) ∧
      (getTaskById y' tid).map (fun e => e.status) = some TaskStatus.completed ∧
      (∀ id', id' ≠ tid → getTaskById y' id' = getTaskById y id') := by
  obtain ⟨e0, he0⟩ := Option.isSome_iff_exists.mp ((findTask_isSome_iff tid y).mpr h)
  have hflat : ((markOneLevels tid y.levels).1.map (fun lv => lv.dps)).flatten =
      markOneTransform tid (flattenEntries y) := by
    rw [(markOneLevels_spec tid y.levels).1]
    rw [(markOneEntries_spec tid ((y.levels.map (fun lv => lv.dps)).flatten)).1]
    rfl
  refine ⟨{ y with compiledAt := now, levels := (markOneLevels tid y.levels).1 },
    ?_, rfl, rfl, ?_, ?_, ?_, ?_, ?_⟩
  · simp [markOne, he0]
  · exact (markOneLevels_spec tid y.levels).2.2.1
  · exact (markOneLevels_spec tid y.levels).2.2.2
  · exact hflat
  · show (findTaskInLevels tid (markOneLevels tid y.levels).1).map (fun e => e.status) = _
    rw [findTaskInLevels_eq_find, hflat]
    rw [find?_markOneTransform_self tid (flattenEntries y) h]
    have hfd : (flattenEntries y).find? (fun x => x.id == tid) = some e0 := by
      rw [← findTask_eq_find]
      exact he0
    rw [hfd]
    rfl
  · intro id' hne
    show findTaskInLevels id' (markOneLevels tid y.levels).1 = getTaskById y id'
    rw [findTaskInLevels_eq_find, hflat]
    rw [find?_markOneTransform_other tid id' (flattenEntries y) hne]
    rw [show getTaskById y id' = findTaskInLevels id' y.levels from rfl]
    rw [findTaskInLevels_eq_find]
    rfl

/-- C6 witness: marking `b` on a concrete three-entry plan. -/
theorem markOne_spec_witness :
    "b" ∈ (flattenEntries samplePlan2).map (fun e => e.id) ∧
    (∃ y', markOne "t9" (some samplePlan2) "b" =
        ({ valid := true, errors := [], warnings := [] }, some y') ∧
      y'.version = samplePlan2.version ∧
      y'.compiledAt = "t9" ∧
      y'.levels.map (fun lv => lv.level) = samplePlan2.levels.map (fun lv => lv.level) ∧
      y'.levels.map (fun lv => lv.dps.length) =
        samplePlan2.levels.map (fun lv => lv.dps.length) ∧
      flattenEntries y' = markOneTransform "b" (flattenEntries samplePlan2) ∧
      (getTaskById y' "b").map (fun e => e.status) = some TaskStatus.completed ∧
      (∀ id', id' ≠ "b" → getTaskById y' id' = getTaskById samplePlan2 id')) :=
  ⟨by decide, markOne_spec "t9" "b" samplePlan2 (by decide)⟩

/-- C7: on an identifier absent from the stored plan, both `markOne` and
`markThrough` (`markUntil`) return an invalid result carrying a single
not-found error, mutate nothing, and leave the stored plan exactly as it
was. -/
theorem mark_not_found_atomic (now tid : String) (y : Yadasmith)
    (h : tid ∉ (flattenEntries y).map (fun e => e.id)) :
    markOne now (some y) tid =
      ({ valid := false, errors := ["Task not found: " ++ tid], warnings := [] },
       some y) ∧
    markUntil now (some y) tid =
      ({ valid := false, errors := ["Task not found: " ++ tid], warnings := [] },
       some y) ∧
    (markOne now (some y) tid).1.errors.length = 1 ∧
    (markUntil now (some y) tid).1.errors.length = 1 := by
  have hnone : findTask y tid = none := by
    cases hf : findTask y tid with
    | none => rfl
    | some e => exact absurd ((findTask_isSome_iff tid y).mp (by simp [hf])) h
  refine ⟨by simp [markOne, hnone], by simp [markUntil, hnone], ?_, ?_⟩
  · simp [markOne, hnone]
  · simp [markUntil, hnone]

/-- C7 witness: marking the unknown identifier `zz` on a concrete plan. -/
theorem mark_not_found_atomic_witness :
    "zz" ∉ (flattenEntries samplePlan1).map (fun e => e.id) ∧
    (markOne "t9" (some samplePlan1) "zz" =
      ({ valid := false, errors := ["Task not found: " ++ "zz"], warnings := [] },
       some samplePlan1) ∧
    markUntil "t9" (some samplePlan1) "zz" =
      ({ valid := false, errors := ["Task not found: " ++ "zz"], warnings := [] },
       some samplePlan1) ∧
    (markOne "t9" (some samplePlan1) "zz").1.errors.length = 1 ∧
    (markUntil "t9" (some samplePlan1) "zz").1.errors.length = 1) :=
  ⟨by decide, mark_not_found_atomic "t9" "zz" samplePlan1 (by decide)⟩

/-- C8: `getStatus` reports the total entry count, the completed count,
pending as total minus completed, the rounded integer percentage (0 on an
empty or absent plan), and the first not-completed entry in flattened level
order as the next task; an absent plan yields the zeroed summary, and a
three-entry plan with exactly one completed entry reports 1/3 and 33%. -/
theorem getStatus_summary_spec :
    (getStatus none = { completed := 0, pending := 0, total := 0,
                        percentComplete := 0, nextTask := none }) ∧
    (∀ y : Yadasmith,
      (getStatus (some y)).total = (flattenEntries y).length ∧
      (getStatus (some y)).completed =
        ((flattenEntries y).filter (fun e => e.status == TaskStatus.completed)).length ∧
      (getStatus (some y)).pending =
        (getStatus (some y)).total - (getStatus (some y)).completed ∧
      ((getStatus (some y)).total = 0 → (getStatus (some y)).percentComplete = 0) ∧
      (0 < (getStatus (some y)).total →
        ((getStatus (some y)).percentComplete : ℤ) =
          round ((100 * ((getStatus (some y)).completed : ℚ)) /
            ((getStatus (some y)).total : ℚ))) ∧
      (getStatus (some y)).nextTask =
        (flattenEntries y).find? (fun e => !(e.status == TaskStatus.completed))) ∧
    (∀ y : Yadasmith, (flattenEntries y).length = 3 →
      ((flattenEntries y).filter (fun e => e.status == TaskStatus.completed)).length = 1 →
      (getStatus (some y)).completed = 1 ∧ (getStatus (some y)).total = 3 ∧
      (getStatus (some y)).percentComplete = 33) := by
  refine ⟨rfl, ?_, ?_⟩
  · intro y
    rw [getStatus_eq]
    refine ⟨rfl, rfl, rfl, ?_, ?_, rfl⟩
    · intro h0
      have hlen : (flattenEntries y).length = 0 := h0
      show (if 0 < (flattenEntries y).length then
          (200 * ((flattenEntries y).filter
            (fun e => e.status == TaskStatus.completed)).length +
            (flattenEntries y).length) / (2 * (flattenEntries y).length)
        else 0) = 0
      simp [hlen]
    · intro hpos
      have hlen : 0 < (flattenEntries y).length := hpos
      show ((if 0 < (flattenEntries y).length then
          (200 * ((flattenEntries y).filter
            (fun e => e.status == TaskStatus.completed)).length +
            (flattenEntries y).length) / (2 * (flattenEntries y).length)
        else 0 : Nat) : ℤ) = _
      rw [if_pos hlen]
      exact percent_eq_round _ _ hlen
  · intro y h3 h1
    rw [getStatus_eq]
    refine ⟨h1, h3, ?_⟩
    show (if 0 < (flattenEntries y).length then
        (200 * ((flattenEntries y).filter
          (fun e => e.status == TaskStatus.completed)).length +
          (flattenEntries y).length) / (2 * (flattenEntries y).length)
      else 0) = 33
    rw [h3, h1]
    norm_num

theorem jmGet_isSome_iff {α β : Type} [DecidableEq α] (m : JMap α β) (k : α) :
    (jmGet m k).isSome = true ↔ k ∈ jmKeys m := by
  induction m with
  | nil => simp [jmGet, jmKeys]
  | cons p m ih =>
    obtain ⟨a, b⟩ := p
    by_cases h : k = a
    · subst h
      simp [jmGet, jmKeys]
    · simp [jmGet, jmKeys, h, ih]

theorem jmKeys_cons {α β : Type} (p : α × β) (m : JMap α β) :
    jmKeys (p :: m) = p.1 :: jmKeys m := rfl

theorem jmGet_mem {α β : Type} [DecidableEq α] {m : JMap α β} {k : α} {v : β}
    (h : jmGet m k = some v) : (k, v) ∈ m := by
  induction m with
  | nil => simp [jmGet] at h
  | cons p m ih =>
    obtain ⟨a, b⟩ := p
    by_cases hk : k = a
    · subst hk
      simp [jmGet] at h
      subst h
      simp
    · simp only [jmGet, if_neg hk] at h
      simp [ih h]

theorem jmGet_set_self {α β : Type} [DecidableEq α] (m : JMap α β) (k : α) (v : β) :
    jmGet (jmSet m k v) k = some v := by
  induction m with
  | nil => simp [jmSet, jmGet]
  | cons p m ih =>
    obtain ⟨a, b⟩ := p
    by_cases h : k = a
    · subst h
      simp [jmSet, jmGet]
    · simp [jmSet, jmGet, h, ih]

theorem jmGet_set_ne {α β : Type} [DecidableEq α] (m : JMap α β) (k k' : α) (v : β)
    (h : k' ≠ k) : jmGet (jmSet m k v) k' = jmGet m k' := by
  induction m with
  | nil => simp [jmSet, jmGet, h]
  | cons p m ih =>
    obtain ⟨a, b⟩ := p
    by_cases hk : k = a
    · subst hk
      simp [jmSet, jmGet, h]
    · by_cases hk' : k' = a
      · subst hk'
        simp [jmSet, jmGet, hk]
      · simp [jmSet, jmGet, hk, hk', ih]

theorem jmKeys_set_mem {α β : Type} [DecidableEq α] (m : JMap α β) (k : α) (v : β)
    (h : k ∈ jmKeys m) : jmKeys (jmSet m k v) = jmKeys m := by
  induction m with
  | nil => simp [jmKeys] at h
  | cons p m ih =>
    obtain ⟨a, b⟩ := p
    by_cases hk : k = a
    · subst hk
      simp [jmSet, jmKeys_cons]
    · rw [jmKeys_cons] at h
      simp only [List.mem_cons] at h
      rcases h with h | h
      · exact absurd h hk
      · rw [show jmSet ((a, b) :: m) k v = (a, b) :: jmSet m k v from by simp [jmSet, hk]]
        rw [jmKeys_cons, jmKeys_cons, ih h]

theorem jmKeys_set_not_mem {α β : Type} [DecidableEq α] (m : JMap α β) (k : α) (v : β)
    (h : k ∉ jmKeys m) : jmKeys (jmSet m k v) = jmKeys m ++ [k] := by
  induction m with
  | nil => simp [jmSet, jmKeys]
  | cons p m ih =>
    obtain ⟨a, b⟩ := p
    rw [jmKeys_cons] at h
    simp only [List.mem_cons] at h
    push_neg at h
    rw [show jmSet ((a, b) :: m) k v = (a, b) :: jmSet m k v from by simp [jmSet, h.1]]
    rw [jmKeys_cons, jmKeys_cons, ih h.2, List.cons_append]

theorem jmKeys_set_nodup {α β : Type} [DecidableEq α] (m : JMap α β) (k : α) (v : β)
    (h : (jmKeys m).Nodup) : (jmKeys (jmSet m k v)).Nodup := by
  by_cases hk : k ∈ jmKeys m
  · rw [jmKeys_set_mem m k v hk]
    exact h
  · rw [jmKeys_set_not_mem m k v hk]
    rw [List.nodup_append]
    refine ⟨h, List.nodup_singleton k, ?_⟩
    intro a ha hak
    simp only [List.mem_singleton] at hak
    subst hak
    exact hk ha

theorem jmKeys_update {α β : Type} [DecidableEq α] (m : JMap α β) (k : α) (f : β → β) :
    jmKeys (jmUpdate m k f) = jmKeys m := by
  induction m with
  | nil => rfl
  | cons p m ih =>
    obtain ⟨a, b⟩ := p
    by_cases hk : k = a
    · subst hk
      simp [jmUpdate, jmKeys]
    · rw [show jmUpdate ((a, b) :: m) k f = (a, b) :: jmUpdate m k f from by
        simp [jmUpdate, hk]]
      rw [jmKeys_cons, jmKeys_cons, ih]

theorem jmGet_update_self {α β : Type} [DecidableEq α] (m : JMap α β) (k : α) (f : β → β) :
    jmGet (jmUpdate m k f) k = (jmGet m k).map f := by
  induction m with
  | nil => simp [jmUpdate, jmGet]
  | cons p m ih =>
    obtain ⟨a, b⟩ := p
    by_cases hk : k = a
    · subst hk
      simp [jmUpdate, jmGet]
    · simp [jmUpdate, jmGet, hk, ih]

theorem jmGet_update_ne {α β : Type} [DecidableEq α] (m : JMap α β) (k k' : α)
    (f : β → β) (h : k' ≠ k) : jmGet (jmUpdate m k f) k' = jmGet m k' := by
  induction m with
  | nil => simp [jmUpdate, jmGet]
  | cons p m ih =>
    obtain ⟨a, b⟩ := p
    by_cases hk : k = a
    · subst hk
      simp [jmUpdate, jmGet, h]
    · by_cases hk' : k' = a
      · subst hk'
        simp [jmUpdate, jmGet, hk]
      · simp [jmUpdate, jmGet, hk, hk', ih]

theorem foldl_invariant_mem {γ δ : Type} (P : δ → Prop) (step : δ → γ → δ)
    (l : List γ) (hstep : ∀ s x, x ∈ l → P s → P (step s x)) :
    ∀ (s : δ), P s → P (l.foldl step s) := by
  induction l with
  | nil => exact fun s hs => hs
  | cons x l ih =>
    intro s hs
    exact ih (fun s y hy hP => hstep s y (List.mem_cons_of_mem _ hy) hP) _
      (hstep s x (List.mem_cons_self _ _) hs)

theorem jmSet_forall {α β : Type} [DecidableEq α] {P : α × β → Prop} {m : JMap α β}
    {k : α} {v : β} (hm : ∀ p ∈ m, P p) (hv : P (k, v)) : ∀ p ∈ jmSet m k v, P p := by
  induction m with
  | nil =>
    intro p hp
    simp [jmSet] at hp
    subst hp
    exact hv
  | cons q m ih =>
    obtain ⟨a, b⟩ := q
    by_cases hk : k = a
    · subst hk
      intro p hp
      rw [show jmSet ((k, b) :: m) k v = (k, v) :: m from by simp [jmSet]] at hp
      rcases List.mem_cons.mp hp with h | h
      · subst h
        exact hv
      · exact hm p (List.mem_cons_of_mem _ h)
    · intro p hp
      rw [show jmSet ((a, b) :: m) k v = (a, b) :: jmSet m k v from by simp [jmSet, hk]] at hp
      rcases List.mem_cons.mp hp with h | h
      · subst h
        exact hm _ (by simp)
      · exact ih (fun p hp => hm p (List.mem_cons_of_mem _ hp)) p h

theorem jmUpdate_forall {α β : Type} [DecidableEq α] {P : α × β → Prop} {m : JMap α β}
    {k : α} {f : β → β} (hm : ∀ p ∈ m, P p) (hf : ∀ a v, P (a, v) → P (a, f v)) :
    ∀ p ∈ jmUpdate m k f, P p := by
  induction m with
  | nil =>
    intro p hp
    simp [jmUpdate] at hp
  | cons q m ih =>
    obtain ⟨a, b⟩ := q
    by_cases hk : k = a
    · subst hk
      intro p hp
      rw [show jmUpdate ((k, b) :: m) k f = (k, f b) :: m from by simp [jmUpdate]] at hp
      rcases List.mem_cons.mp hp with h | h
      · subst h
        exact hf k b (hm _ (by simp))
      · exact hm p (List.mem_cons_of_mem _ h)
    · intro p hp
      rw [show jmUpdate ((a, b) :: m) k f = (a, b) :: jmUpdate m k f from by
        simp [jmUpdate, hk]] at hp
      rcases List.mem_cons.mp hp with h | h
      · subst h
        exact hm _ (by simp)
      · exact ih (fun p hp => hm p (List.mem_cons_of_mem _ hp)) p h

theorem sameShape_refl (m : JMap String GraphNode) : SameShape m m := rfl

theorem sameShape_trans {m1 m2 m3 : JMap String GraphNode} (h1 : SameShape m1 m2)
    (h2 : SameShape m2 m3) : SameShape m1 m3 := h1.trans h2

theorem sameShape_keys {m1 m2 : JMap String GraphNode} (h : SameShape m1 m2) :
    jmKeys m1 = jmKeys m2 := by
  have hmap := congrArg (List.map Prod.fst) h
  simpa [jmKeys, List.map_map, Function.comp] using hmap

theorem sameShape_update {m : JMap String GraphNode} (k : String)
    (f : GraphNode → GraphNode) (hf : ∀ n, nodeShape (f n) = nodeShape n) :
    SameShape m (jmUpdate m k f) := by
  induction m with
  | nil => rfl
  | cons p m ih =>
    obtain ⟨a, b⟩ := p
    unfold SameShape at ih ⊢
    by_cases hk : k = a
    · subst hk
      rw [show jmUpdate ((k, b) :: m) k f = (k, f b) :: m from by simp [jmUpdate]]
      simp [hf]
    · rw [show jmUpdate ((a, b) :: m) k f = (a, b) :: jmUpdate m k f from by
        simp [jmUpdate, hk]]
      simp only [List.map_cons]
      rw [ih]

theorem sameShape_get {m1 m2 : JMap String GraphNode} (h : SameShape m1 m2) (k : String) :
    (jmGet m1 k = none → jmGet m2 k = none) ∧
    (∀ n1, jmGet m1 k = some n1 →
      ∃ n2, jmGet m2 k = some n2 ∧ nodeShape n2 = nodeShape n1) := by
  induction m1 generalizing m2 with
  | nil =>
    cases m2 with
    | nil => simp [jmGet]
    | cons q m2 => exact absurd h (by simp [SameShape])
  | cons p m1 ih =>
    cases m2 with
    | nil => exact absurd h (by simp [SameShape])
    | cons q m2 =>
      obtain ⟨a, b⟩ := p
      obtain ⟨c, d⟩ := q
      unfold SameShape at h
      simp only [List.map_cons, List.cons.injEq, Prod.mk.injEq] at h
      obtain ⟨⟨hac, hbd⟩, htail⟩ := h
      subst hac
      by_cases hk : k = a
      · subst hk
        constructor
        · intro hno
          simp [jmGet] at hno
        · intro n1 hn1
          simp [jmGet] at hn1
          subst hn1
          exact ⟨d, by simp [jmGet], hbd.symm⟩
      · constructor
        · intro hno
          simp only [jmGet, if_neg hk] at hno ⊢
          exact (ih htail).1 hno
        · intro n1 hn1
          simp only [jmGet, if_neg hk] at hn1 ⊢
          exact (ih htail).2 n1 hn1

theorem sameShape_edge {m1 m2 : JMap String GraphNode} (h : SameShape m1 m2)
    (a b : String) : edge m1 a b ↔ edge m2 a b := by
  constructor
  · rintro ⟨n, hget, hb⟩
    obtain ⟨n2, hget2, hsh⟩ := (sameShape_get h a).2 n hget
    refine ⟨n2, hget2, ?_⟩
    have hdeps : n2.dependencies = n.dependencies :=
      congrArg (fun t => t.2.2.1) hsh
    rw [hdeps]
    exact hb
  · rintro ⟨n, hget, hb⟩
    obtain ⟨n2, hget2, hsh⟩ := (sameShape_get h.symm a).2 n hget
    refine ⟨n2, hget2, ?_⟩
    have hdeps : n2.dependencies = n.dependencies :=
      congrArg (fun t => t.2.2.1) hsh
    rw [hdeps]
    exact hb

theorem kahnLoop_sameShape (fuel : Nat) (nodes : JMap String GraphNode)
    (inDegree : JMap String Int) (queue : List String) :
    SameShape nodes (kahnLoop fuel nodes inDegree queue) := by
  induction fuel generalizing nodes inDegree queue with
  | zero => exact sameShape_refl _
  | succ f ih =>
    show SameShape nodes (kahnLoop (f + 1) nodes inDegree queue)
    cases queue with
    | nil => exact sameShape_refl _
    | cons c rest =>
      have hfold : ∀ (deps : List String)
          (st : JMap String GraphNode × JMap String Int × List String),
          SameShape st.1 (deps.foldl (kahnVisit c) st).1 := by
        intro deps
        induction deps with
        | nil => exact fun st => sameShape_refl _
        | cons d ds ihd =>
          intro st
          refine sameShape_trans ?_ (ihd _)
          exact sameShape_update _ _ (fun n => rfl)
      exact sameShape_trans (hfold _ (nodes, inDegree, rest)) (ih _ _ _)

theorem calculateLevels_sameShape (nodes : JMap String GraphNode) :
    SameShape nodes (calculateLevels nodes) := by
  unfold calculateLevels
  refine sameShape_trans ?_ (kahnLoop_sameShape _ _ _ _)
  have hseed : ∀ (ps : List (String × Int)) (st : List String × JMap String GraphNode),
      SameShape st.2 ((ps.foldl (fun (st : List String × JMap String GraphNode) p =>
        if p.2 = 0 then (st.1 ++ [p.1], jmUpdate st.2 p.1 (fun n => { n with level := 1 }))
        else st) st)).2 := by
    intro ps
    induction ps with
    | nil => exact fun st => sameShape_refl _
    | cons p ps ihp =>
      intro st
      simp only [List.foldl_cons]
      by_cases hp : p.2 = 0
      · rw [if_pos hp]
        refine sameShape_trans ?_ (ihp _)
        exact sameShape_update _ _ (fun n => rfl)
      · rw [if_neg hp]
        exact ihp st
  exact hseed _ ([], nodes)

theorem jmHas_iff {α β : Type} [DecidableEq α] (m : JMap α β) (k : α) :
    jmHas m k = true ↔ k ∈ jmKeys m := by
  unfold jmHas
  exact jmGet_isSome_iff m k

theorem mem_keys_set_self {α β : Type} [DecidableEq α] (m : JMap α β) (k : α) (v : β) :
    k ∈ jmKeys (jmSet m k v) := by
  rw [← jmGet_isSome_iff]
  simp [jmGet_set_self]

theorem jmKeys_mono_set {α β : Type} [DecidableEq α] (m : JMap α β) (k k' : α) (v : β)
    (h : k' ∈ jmKeys m) : k' ∈ jmKeys (jmSet m k v) := by
  by_cases hk : k ∈ jmKeys m
  · rw [jmKeys_set_mem m k v hk]
    exact h
  · rw [jmKeys_set_not_mem m k v hk]
    exact List.mem_append_left _ h

theorem mem_initNodes_keys (dps : List ParsedDP) (dp : ParsedDP) (h : dp ∈ dps) :
    dp.id ∈ jmKeys (initNodes dps) := by
  unfold initNodes
  have hgen : ∀ (l : List ParsedDP) (acc : JMap String GraphNode),
      (dp.id ∈ jmKeys acc ∨ dp ∈ l) →
      dp.id ∈ jmKeys (l.foldl (fun ns dp => jmSet ns dp.id
        { id := dp.id, dp := dp, dependencies := [], dependents := [], level := 0 }) acc) := by
    intro l
    induction l with
    | nil =>
      intro acc hacc
      rcases hacc with hacc | hacc
      · exact hacc
      · simp at hacc
    | cons x l ih =>
      intro acc hacc
      rcases hacc with hacc | hacc
      · exact ih _ (Or.inl (jmKeys_mono_set _ _ _ _ hacc))
      · rcases List.mem_cons.mp hacc with heq | hmem
        · subst heq
          exact ih _ (Or.inl (mem_keys_set_self _ _ _))
        · exact ih _ (Or.inr hmem)
  exact hgen dps [] (Or.inr h)

theorem initNodes_keys_nodup (dps : List ParsedDP) :
    (jmKeys (initNodes dps)).Nodup := by
  unfold initNodes
  refine foldl_invariant_mem (fun ns => (jmKeys ns).Nodup) _ dps ?_ [] (by simp [jmKeys])
  intro s dp _ hs
  exact jmKeys_set_nodup _ _ _ hs

theorem initNodes_forall (dps : List ParsedDP) :
    ∀ p ∈ initNodes dps,
      p.2.id = p.1 ∧ p.2.dependencies = [] ∧ p.2.dependents = [] ∧ p.2.level = 0 := by
  unfold initNodes
  refine foldl_invariant_mem
    (fun (ns : JMap String GraphNode) => ∀ p ∈ ns,
      p.2.id = p.1 ∧ p.2.dependencies = [] ∧ p.2.dependents = [] ∧ p.2.level = 0)
    _ dps ?_ [] (by intro p hp; simp at hp)
  intro s dp _ hs
  exact jmSet_forall hs ⟨rfl, rfl, rfl, rfl⟩

theorem edgesFold_inv (dps : List ParsedDP) :
    jmKeys (dps.foldl addEdges (initNodes dps)) = jmKeys (initNodes dps) ∧
    ∀ p ∈ dps.foldl addEdges (initNodes dps),
      p.2.id = p.1 ∧
      (∀ d ∈ p.2.dependencies, d ∈ jmKeys (initNodes dps)) ∧
      (∀ d ∈ p.2.dependents, d ∈ jmKeys (initNodes dps)) := by
  refine foldl_invariant_mem
    (fun (ns : JMap String GraphNode) => jmKeys ns = jmKeys (initNodes dps) ∧
      ∀ p ∈ ns, p.2.id = p.1 ∧
        (∀ d ∈ p.2.dependencies, d ∈ jmKeys (initNodes dps)) ∧
        (∀ d ∈ p.2.dependents, d ∈ jmKeys (initNodes dps)))
    addEdges dps ?_ (initNodes dps) ⟨rfl, ?_⟩
  · intro s dp hdp hP
    have hdpid : dp.id ∈ jmKeys (initNodes dps) := mem_initNodes_keys dps dp hdp
    unfold addEdges
    refine foldl_invariant_mem
      (fun (ns : JMap String GraphNode) => jmKeys ns = jmKeys (initNodes dps) ∧
        ∀ p ∈ ns, p.2.id = p.1 ∧
          (∀ d ∈ p.2.dependencies, d ∈ jmKeys (initNodes dps)) ∧
          (∀ d ∈ p.2.dependents, d ∈ jmKeys (initNodes dps)))
      _ dp.dependencies ?_ s hP
    intro s2 depId _ hP2
    obtain ⟨hkeys2, hall2⟩ := hP2
    by_cases hhas : jmHas s2 depId = true
    · rw [if_pos hhas]
      have hdepK : depId ∈ jmKeys (initNodes dps) := by
        rw [← hkeys2]
        exact (jmHas_iff s2 depId).mp hhas
      constructor
      · show jmKeys (jmUpdate (jmUpdate s2 dp.id _) depId _) = _
        rw [jmKeys_update, jmKeys_update]
        exact hkeys2
      · show ∀ p ∈ jmUpdate (jmUpdate s2 dp.id _) depId _, _
        refine jmUpdate_forall (jmUpdate_forall hall2 ?_) ?_
        · intro a v hv
          obtain ⟨hid, hdeps, hdept⟩ := hv
          refine ⟨hid, ?_, hdept⟩
          intro d hd
          rcases List.mem_append.mp hd with hmem | hmem
          · exact hdeps d hmem
          · simp only [List.mem_singleton] at hmem
            subst hmem
            exact hdepK
        · intro a v hv
          obtain ⟨hid, hdeps, hdept⟩ := hv
          refine ⟨hid, hdeps, ?_⟩
          intro d hd
          rcases List.mem_append.mp hd with hmem | hmem
          · exact hdept d hmem
          · simp only [List.mem_singleton] at hmem
            subst hmem
            exact hdpid
    · rw [if_neg hhas]
      exact ⟨hkeys2, hall2⟩
  · intro p hp
    obtain ⟨hid, hdeps, hdept, _⟩ := initNodes_forall dps p hp
    refine ⟨hid, ?_, ?_⟩
    · rw [hdeps]
      intro d hd
      simp at hd
    · rw [hdept]
      intro d hd
      simp at hd

theorem buildGraph_keys_nodup (dps : List ParsedDP) :
    (jmKeys (buildGraph dps).nodes).Nodup := by
  show (jmKeys (calculateLevels (dps.foldl addEdges (initNodes dps)))).Nodup
  rw [← sameShape_keys (calculateLevels_sameShape (dps.foldl addEdges (initNodes dps)))]
  rw [(edgesFold_inv dps).1]
  exact initNodes_keys_nodup dps

theorem buildGraph_keys_eq (dps : List ParsedDP) :
    jmKeys (buildGraph dps).nodes = jmKeys (initNodes dps) := by
  show jmKeys (calculateLevels (dps.foldl addEdges (initNodes dps))) = _
  rw [← sameShape_keys (calculateLevels_sameShape (dps.foldl addEdges (initNodes dps)))]
  exact (edgesFold_inv dps).1

theorem buildGraph_WFdeps (dps : List ParsedDP) : WFdeps (buildGraph dps).nodes := by
  intro k n hget d hd
  have hshape : SameShape (dps.foldl addEdges (initNodes dps))
      (calculateLevels (dps.foldl addEdges (initNodes dps))) :=
    calculateLevels_sameShape _
  obtain ⟨n1, hget1, hsh⟩ := (sameShape_get hshape.symm k).2 n
    (show jmGet (calculateLevels (dps.foldl addEdges (initNodes dps))) k = some n from hget)
  have hfacts := (edgesFold_inv dps).2 _ (jmGet_mem hget1)
  have hdeps1 : n1.dependencies = n.dependencies := congrArg (fun t => t.2.2.1) hsh
  have hdK : d ∈ jmKeys (initNodes dps) := by
    refine hfacts.2.1 d ?_
    rw [hdeps1]
    exact hd
  rw [show jmKeys (buildGraph dps).nodes = jmKeys (initNodes dps) from buildGraph_keys_eq dps]
  exact hdK

theorem filter_length_mono {α : Type} (l : List α) (p q : α → Bool)
    (h : ∀ a, p a = true → q a = true) :
    (l.filter p).length ≤ (l.filter q).length := by
  induction l with
  | nil => simp
  | cons a l ih =>
    rw [List.filter_cons, List.filter_cons]
    by_cases hp : p a = true
    · rw [if_pos hp, if_pos (h a hp)]
      simpa using ih
    · rw [if_neg hp]
      by_cases hq : q a = true
      · rw [if_pos hq]
        exact Nat.le_succ_of_le ih
      · rw [if_neg hq]
        exact ih

theorem unvisitedCount_mono (g : JMap String GraphNode) (s s' : DfsSt)
    (h : ∀ x ∈ s.visited, x ∈ s'.visited) :
    unvisitedCount g s' ≤ unvisitedCount g s := by
  unfold unvisitedCount
  refine filter_length_mono _ _ _ ?_
  intro a ha
  simp only [decide_eq_true_eq] at ha ⊢
  exact fun hmem => ha (h a hmem)

theorem filter_length_lt {α : Type} [DecidableEq α] (l : List α) (vis : List α) (x : α)
    (hx : x ∈ l) (hnv : x ∉ vis) :
    (l.filter (fun k => decide (k ∉ vis ++ [x]))).length <
    (l.filter (fun k => decide (k ∉ vis))).length := by
  induction l with
  | nil => simp at hx
  | cons a l ih =>
    rw [List.filter_cons, List.filter_cons]
    by_cases hax : a = x
    · subst hax
      rw [if_neg (by simp), if_pos (by simp [hnv])]
      have hle : (l.filter (fun k => decide (k ∉ vis ++ [a]))).length ≤
          (l.filter (fun k => decide (k ∉ vis))).length := by
        refine filter_length_mono _ _ _ ?_
        intro b hb
        simp only [decide_eq_true_eq, List.mem_append, List.mem_singleton] at hb ⊢
        exact fun hmem => hb (Or.inl hmem)
      simpa using Nat.lt_succ_of_le hle
    · have hxl : x ∈ l := by
        rcases List.mem_cons.mp hx with h | h
        · exact absurd h.symm hax
        · exact h
      by_cases ha : a ∈ vis
      · rw [if_neg (by simp [ha]), if_neg (by simp [ha])]
        exact ih hxl
      · rw [if_pos (by simp [ha, hax]), if_pos (by simp [ha])]
        simpa using ih hxl

theorem unvisitedCount_push (g : JMap String GraphNode) (s : DfsSt) (nodeId : String)
    (hk : nodeId ∈ jmKeys g) (hnv : nodeId ∉ s.visited) :
    unvisitedCount g { s with visited := s.visited ++ [nodeId], stack := s.stack ++ [nodeId], path := s.path ++ [nodeId] } <
      unvisitedCount g s := by
  unfold unvisitedCount
  exact filter_length_lt (jmKeys g) s.visited nodeId hk hnv

theorem dfs_step_stack (g : JMap String GraphNode) (fuel : Nat) (nodeId : String)
    (s : DfsSt) (h : nodeId ∈ s.stack) :
    dfs g (fuel + 1) nodeId s =
      (true, { s with result := { s.result with
        errors := s.result.errors ++
          [cycleMsg (s.path.drop (s.path.indexOf nodeId) ++ [nodeId])],
        valid := false } }) := by
  simp only [dfs]
  rw [if_pos h]

theorem dfs_step_visited (g : JMap String GraphNode) (fuel : Nat) (nodeId : String)
    (s : DfsSt) (h1 : nodeId ∉ s.stack) (h2 : nodeId ∈ s.visited) :
    dfs g (fuel + 1) nodeId s = (false, s) := by
  simp only [dfs]
  rw [if_neg h1, if_pos h2]

theorem dfs_step_fresh (g : JMap String GraphNode) (fuel : Nat) (nodeId : String)
    (s : DfsSt) (node : GraphNode) (h1 : nodeId ∉ s.stack) (h2 : nodeId ∉ s.visited)
    (hnode : jmGet g nodeId = some node) :
    dfs g (fuel + 1) nodeId s =
      (if (dfsList (dfs g fuel) node.dependencies
            { s with visited := s.visited ++ [nodeId], stack := s.stack ++ [nodeId], path := s.path ++ [nodeId] }).1
       then dfsList (dfs g fuel) node.dependencies
            { s with visited := s.visited ++ [nodeId], stack := s.stack ++ [nodeId], path := s.path ++ [nodeId] }
       else (false,
         { (dfsList (dfs g fuel) node.dependencies
              { s with visited := s.visited ++ [nodeId], stack := s.stack ++ [nodeId], path := s.path ++ [nodeId] }).2 with
           path := (dfsList (dfs g fuel) node.dependencies
              { s with visited := s.visited ++ [nodeId], stack := s.stack ++ [nodeId], path := s.path ++ [nodeId] }).2.path.dropLast,
           stack := (dfsList (dfs g fuel) node.dependencies
              { s with visited := s.visited ++ [nodeId], stack := s.stack ++ [nodeId], path := s.path ++ [nodeId] }).2.stack.erase nodeId })) := by
  simp only [dfs]
  rw [if_neg h1, if_neg h2, hnode]

theorem dfsList_nil (rec : String → DfsSt → Bool × DfsSt) (s : DfsSt) :
    dfsList rec [] s = (false, s) := by
  simp only [dfsList]

theorem dfsList_cons (rec : String → DfsSt → Bool × DfsSt) (d : String)
    (ds : List String) (s : DfsSt) :
    dfsList rec (d :: ds) s =
      (if (rec d s).1 then rec d s else dfsList rec ds (rec d s).2) := by
  simp only [dfsList]

theorem dfs_main (g : JMap String GraphNode) (hWF : WFdeps g) (fuel : Nat) :
    (∀ nodeId s, DfsInv g s → nodeId ∈ jmKeys g →
      (s.path = [] ∨ ∃ la, s.path.getLast? = some la ∧ edge g la nodeId) →
      unvisitedCount g s < fuel →
      (((dfs g fuel nodeId s).1 = false ∧
        DfsInv g (dfs g fuel nodeId s).2 ∧
        (dfs g fuel nodeId s).2.stack = s.stack ∧
        (dfs g fuel nodeId s).2.path = s.path ∧
        (dfs g fuel nodeId s).2.result = s.result ∧
        (∀ x ∈ s.visited, x ∈ (dfs g fuel nodeId s).2.visited) ∧
        nodeId ∈ (dfs g fuel nodeId s).2.visited ∧
        DAcc g nodeId) ∨
       ((dfs g fuel nodeId s).1 = true ∧
        (dfs g fuel nodeId s).2.result.valid = false ∧
        (dfs g fuel nodeId s).2.result.warnings = s.result.warnings ∧
        ∃ c, IsCycleList g c ∧
          (dfs g fuel nodeId s).2.result.errors = s.result.errors ++ [cycleMsg c]))) ∧
    (∀ deps s, DfsInv g s → (∀ d ∈ deps, d ∈ jmKeys g) →
      (∀ d ∈ deps, s.path = [] ∨ ∃ la, s.path.getLast? = some la ∧ edge g la d) →
      unvisitedCount g s < fuel →
      (((dfsList (dfs g fuel) deps s).1 = false ∧
        DfsInv g (dfsList (dfs g fuel) deps s).2 ∧
        (dfsList (dfs g fuel) deps s).2.stack = s.stack ∧
        (dfsList (dfs g fuel) deps s).2.path = s.path ∧
        (dfsList (dfs g fuel) deps s).2.result = s.result ∧
        (∀ x ∈ s.visited, x ∈ (dfsList (dfs g fuel) deps s).2.visited) ∧
        (∀ d ∈ deps, d ∈ (dfsList (dfs g fuel) deps s).2.visited ∧ DAcc g d)) ∨
       ((dfsList (dfs g fuel) deps s).1 = true ∧
        (dfsList (dfs g fuel) deps s).2.result.valid = false ∧
        (dfsList (dfs g fuel) deps s).2.result.warnings = s.result.warnings ∧
        ∃ c, IsCycleList g c ∧
          (dfsList (dfs g fuel) deps s).2.result.errors = s.result.errors ++ [cycleMsg c]))) := by
  induction fuel with
  | zero =>
    constructor
    · intro nodeId s _ _ _ hfuel
      exact absurd hfuel (by omega)
    · intro deps s _ _ _ hfuel
      exact absurd hfuel (by omega)
  | succ fuel ih =>
    have hdfs : ∀ nodeId s, DfsInv g s → nodeId ∈ jmKeys g →
        (s.path = [] ∨ ∃ la, s.path.getLast? = some la ∧ edge g la nodeId) →
        unvisitedCount g s < fuel + 1 →
        (((dfs g (fuel + 1) nodeId s).1 = false ∧
          DfsInv g (dfs g (fuel + 1) nodeId s).2 ∧
          (dfs g (fuel + 1) nodeId s).2.stack = s.stack ∧
          (dfs g (fuel + 1) nodeId s).2.path = s.path ∧
          (dfs g (fuel + 1) nodeId s).2.result = s.result ∧
          (∀ x ∈ s.visited, x ∈ (dfs g (fuel + 1) nodeId s).2.visited) ∧
          nodeId ∈ (dfs g (fuel + 1) nodeId s).2.visited ∧
          DAcc g nodeId) ∨
         ((dfs g (fuel + 1) nodeId s).1 = true ∧
          (dfs g (fuel + 1) nodeId s).2.result.valid = false ∧
          (dfs g (fuel + 1) nodeId s).2.result.warnings = s.result.warnings ∧
          ∃ c, IsCycleList g c ∧
            (dfs g (fuel + 1) nodeId s).2.result.errors =
              s.result.errors ++ [cycleMsg c])) := by
      intro nodeId s hinv hkey hcall hfuel
      by_cases hstack : nodeId ∈ s.stack
      · right
        rw [dfs_step_stack g fuel nodeId s hstack]
        have hmemPath : nodeId ∈ s.path := (hinv.stack_eq nodeId).mp hstack
        have hidx : s.path.indexOf nodeId < s.path.length :=
          List.indexOf_lt_length.mpr hmemPath
        have hdropne : s.path.drop (s.path.indexOf nodeId) ≠ [] := by
          intro hd
          have hlen := congrArg List.length hd
          rw [List.length_drop] at hlen
          simp only [List.length_nil] at hlen
          omega
        have hheadDrop : (s.path.drop (s.path.indexOf nodeId)).head? = some nodeId := by
          rw [List.head?_drop, List.getElem?_eq_getElem hidx, List.getElem_indexOf hidx]
        have hpathLast : ∃ la, s.path.getLast? = some la ∧ edge g la nodeId := by
          rcases hcall with hemp | h
          · rw [hemp] at hmemPath
            simp at hmemPath
          · exact h
        obtain ⟨la, hla, hedge⟩ := hpathLast
        have hdropLast : (s.path.drop (s.path.indexOf nodeId)).getLast? = some la := by
          obtain ⟨z, hz⟩ : ∃ z, (s.path.drop (s.path.indexOf nodeId)).getLast? = some z := by
            cases hdl : (s.path.drop (s.path.indexOf nodeId)).getLast? with
            | none => exact absurd (List.getLast?_eq_none_iff.mp hdl) hdropne
            | some z => exact ⟨z, rfl⟩
          have hsplit : s.path.getLast? = (s.path.drop (s.path.indexOf nodeId)).getLast? := by
            conv_lhs => rw [← List.take_append_drop (s.path.indexOf nodeId) s.path]
            rw [List.getLast?_append, hz]
            rfl
          rw [hz]
          rw [hsplit, hz] at hla
          exact hla
        have hchain : (s.path.drop (s.path.indexOf nodeId) ++ [nodeId]).Chain' (edge g) := by
          rw [List.chain'_append]
          refine ⟨hinv.path_chain.drop _, List.chain'_singleton _, ?_⟩
          intro x hx y hy
          rw [hdropLast] at hx
          simp only [Option.mem_def, Option.some.injEq, List.head?_cons] at hx hy
          subst hx
          subst hy
          exact hedge
        have hhead : (s.path.drop (s.path.indexOf nodeId) ++ [nodeId]).head? = some nodeId := by
          rw [List.head?_append, hheadDrop]
          rfl
        have hlast : (s.path.drop (s.path.indexOf nodeId) ++ [nodeId]).getLast? = some nodeId :=
          List.getLast?_concat _
        have hlen2 : 2 ≤ (s.path.drop (s.path.indexOf nodeId) ++ [nodeId]).length := by
          rw [List.length_append, List.length_drop]
          simp only [List.length_singleton]
          omega
        exact ⟨rfl, rfl, rfl,
          s.path.drop (s.path.indexOf nodeId) ++ [nodeId],
          ⟨hlen2, hchain, hhead.trans hlast.symm⟩, rfl⟩
      · by_cases hvis : nodeId ∈ s.visited
        · left
          rw [dfs_step_visited g fuel nodeId s hstack hvis]
          refine ⟨rfl, hinv, rfl, rfl, rfl, fun x hx => hx, hvis, ?_⟩
          exact hinv.done_acc nodeId hvis (fun hp => hstack ((hinv.stack_eq nodeId).mpr hp))
        · obtain ⟨node, hnode⟩ :=
            Option.isSome_iff_exists.mp ((jmGet_isSome_iff g nodeId).mpr hkey)
          rw [dfs_step_fresh g fuel nodeId s node hstack hvis hnode]
          have hinv1 : DfsInv g { s with visited := s.visited ++ [nodeId], stack := s.stack ++ [nodeId], path := s.path ++ [nodeId] } := by
            refine ⟨?_, ?_, ?_, ?_, ?_, ?_⟩
            · intro x
              constructor
              · intro hx
                rcases List.mem_append.mp hx with h | h
                · exact List.mem_append_left _ ((hinv.stack_eq x).mp h)
                · exact List.mem_append_right _ h
              · intro hx
                rcases List.mem_append.mp hx with h | h
                · exact List.mem_append_left _ ((hinv.stack_eq x).mpr h)
                · exact List.mem_append_right _ h
            · show (s.path ++ [nodeId]).Nodup
              rw [List.nodup_append]
              refine ⟨hinv.path_nodup, List.nodup_singleton _, ?_⟩
              intro x hx hxn
              simp only [List.mem_singleton] at hxn
              subst hxn
              exact hvis (hinv.path_vis x hx)
            · show (s.path ++ [nodeId]).Chain' (edge g)
              rw [List.chain'_append]
              refine ⟨hinv.path_chain, List.chain'_singleton _, ?_⟩
              intro x hx y hy
              simp only [List.head?_cons, Option.mem_def, Option.some.injEq] at hy
              subst hy
              rcases hcall with hemp | ⟨la, hla, hedge⟩
              · rw [hemp] at hx
                simp at hx
              · rw [hla] at hx
                simp only [Option.mem_def, Option.some.injEq] at hx
                subst hx
                exact hedge
            · intro x hx
              rcases List.mem_append.mp hx with h | h
              · exact List.mem_append_left _ (hinv.path_vis x h)
              · exact List.mem_append_right _ h
            · intro x hx
              rcases List.mem_append.mp hx with h | h
              · exact hinv.vis_keys x h
              · simp only [List.mem_singleton] at h
                subst h
                exact hkey
            · intro x hx hnp
              rcases List.mem_append.mp hx with h | h
              · refine hinv.done_acc x h ?_
                intro hp
                exact hnp (List.mem_append_left _ hp)
              · simp only [List.mem_singleton] at h
                subst h
                exact absurd (List.mem_append_right _ (by simp)) hnp
          have hkeysdeps : ∀ d ∈ node.dependencies, d ∈ jmKeys g := hWF nodeId node hnode
          have hcalldeps : ∀ d ∈ node.dependencies,
              ({ s with visited := s.visited ++ [nodeId], stack := s.stack ++ [nodeId], path := s.path ++ [nodeId] } : DfsSt).path = [] ∨
              ∃ la, ({ s with visited := s.visited ++ [nodeId], stack := s.stack ++ [nodeId], path := s.path ++ [nodeId] } : DfsSt).path.getLast? = some la ∧
                edge g la d := by
            intro d hd
            right
            exact ⟨nodeId, List.getLast?_concat _, node, hnode, hd⟩
          have hfuel1 : unvisitedCount g { s with visited := s.visited ++ [nodeId], stack := s.stack ++ [nodeId], path := s.path ++ [nodeId] } < fuel := by
            have hlt := unvisitedCount_push g s nodeId hkey hvis
            omega
          have hlist := ih.2 node.dependencies _ hinv1 hkeysdeps hcalldeps hfuel1
          rcases hlist with ⟨hf, hinv2, hstk2, hpath2, hres2, hmono2, hall2⟩ |
            ⟨ht, hval, hwarn, c, hc, herr⟩
          · left
            rw [if_neg (by rw [hf]; exact Bool.false_ne_true)]
            have hs3stack : (dfsList (dfs g fuel) node.dependencies
                { s with visited := s.visited ++ [nodeId], stack := s.stack ++ [nodeId], path := s.path ++ [nodeId] }).2.stack.erase nodeId = s.stack := by
              rw [hstk2]
              show (s.stack ++ [nodeId]).erase nodeId = s.stack
              rw [List.erase_append_right _ hstack, List.erase_cons_head, List.append_nil]
            have hs3path : (dfsList (dfs g fuel) node.dependencies
                { s with visited := s.visited ++ [nodeId], stack := s.stack ++ [nodeId], path := s.path ++ [nodeId] }).2.path.dropLast = s.path := by
              rw [hpath2]
              exact List.dropLast_concat
            have hacc : DAcc g nodeId := by
              refine DAcc.intro nodeId ?_
              intro b hb
              obtain ⟨n', hn', hbmem⟩ := hb
              rw [hnode] at hn'
              cases hn'
              exact (hall2 b hbmem).2
            have hmemvis : nodeId ∈ (dfsList (dfs g fuel) node.dependencies
                { s with visited := s.visited ++ [nodeId], stack := s.stack ++ [nodeId], path := s.path ++ [nodeId] }).2.visited := by
              refine hmono2 nodeId ?_
              exact List.mem_append_right _ (by simp)
            refine ⟨rfl, ?_, hs3stack, hs3path, by rw [hres2], ?_, hmemvis, hacc⟩
            · refine ⟨?_, ?_, ?_, ?_, ?_, ?_⟩
              · intro x
                show x ∈ (dfsList (dfs g fuel) node.dependencies _).2.stack.erase nodeId ↔
                  x ∈ (dfsList (dfs g fuel) node.dependencies _).2.path.dropLast
                rw [hs3stack, hs3path]
                exact hinv.stack_eq x
              · show ((dfsList (dfs g fuel) node.dependencies _).2.path.dropLast).Nodup
                rw [hs3path]
                exact hinv.path_nodup
              · show ((dfsList (dfs g fuel) node.dependencies _).2.path.dropLast).Chain' (edge g)
                rw [hs3path]
                exact hinv.path_chain
              · intro x hx
                rw [hs3path] at hx
                exact hmono2 x (List.mem_append_left _ (hinv.path_vis x hx))
              · intro x hx
                exact hinv2.vis_keys x hx
              · intro x hx hnp
                rw [hs3path] at hnp
                by_cases hxp : x ∈ (dfsList (dfs g fuel) node.dependencies
                    { s with visited := s.visited ++ [nodeId], stack := s.stack ++ [nodeId], path := s.path ++ [nodeId] }).2.path
                · rw [hpath2] at hxp
                  rcases List.mem_append.mp hxp with h | h
                  · exact absurd h hnp
                  · simp only [List.mem_singleton] at h
                    subst h
                    exact hacc
                · exact hinv2.done_acc x hx hxp
            · intro x hx
              exact hmono2 x (List.mem_append_left _ hx)
          · right
            rw [if_pos (by rw [ht])]
            exact ⟨ht, hval, hwarn, c, hc, herr⟩
    refine ⟨hdfs, ?_⟩
    intro deps
    induction deps with
    | nil =>
      intro s hinv _ _ _
      rw [dfsList_nil]
      exact Or.inl ⟨rfl, hinv, rfl, rfl, rfl, fun x hx => hx,
        fun d hd => absurd hd (by simp)⟩
    | cons d ds ihds =>
      intro s hinv hkeys hcalls hfuel
      have hd := hdfs d s hinv (hkeys d (by simp)) (hcalls d (by simp)) hfuel
      rcases hd with ⟨hf, hinvd, hstkd, hpathd, hresd, hmonod, hmemd, haccd⟩ |
        ⟨ht, hval, hwarn, c, hc, herr⟩
      · rw [dfsList_cons, if_neg (by rw [hf]; exact Bool.false_ne_true)]
        have hfuel' : unvisitedCount g (dfs g (fuel + 1) d s).2 < fuel + 1 := by
          have hmo := unvisitedCount_mono g s (dfs g (fuel + 1) d s).2 hmonod
          omega
        have hcalls' : ∀ d' ∈ ds, (dfs g (fuel + 1) d s).2.path = [] ∨
            ∃ la, (dfs g (fuel + 1) d s).2.path.getLast? = some la ∧ edge g la d' := by
          intro d' hd'
          rw [hpathd]
          exact hcalls d' (by simp [hd'])
        have hrec := ihds (dfs g (fuel + 1) d s).2 hinvd
          (fun d' h => hkeys d' (by simp [h])) hcalls' hfuel'
        rcases hrec with ⟨hf2, hinv2, hstk2, hpath2, hres2, hmono2, hall2⟩ |
          ⟨ht2, hval2, hwarn2, c2, hc2, herr2⟩
        · refine Or.inl ⟨hf2, hinv2, by rw [hstk2, hstkd], by rw [hpath2, hpathd],
            by rw [hres2, hresd], fun x hx => hmono2 x (hmonod x hx), ?_⟩
          intro d' hd'
          rcases List.mem_cons.mp hd' with h | h
          · subst h
            exact ⟨hmono2 d' hmemd, haccd⟩
          · exact hall2 d' h
        · refine Or.inr ⟨ht2, hval2, by rw [hwarn2, hresd], c2, hc2, ?_⟩
          rw [herr2, hresd]
      · rw [dfsList_cons, if_pos (by rw [ht])]
        exact Or.inr ⟨ht, hval, hwarn, c, hc, herr⟩

theorem unvisitedCount_le (g : JMap String GraphNode) (s : DfsSt) :
    unvisitedCount g s ≤ g.length := by
  unfold unvisitedCount
  calc ((jmKeys g).filter (fun k => decide (k ∉ s.visited))).length
      ≤ (jmKeys g).length := List.length_filter_le _ _
    _ = g.length := by simp [jmKeys]

theorem detectLoop_spec (g : JMap String GraphNode) (hWF : WFdeps g)
    (ks : List String) (hks : ∀ k ∈ ks, k ∈ jmKeys g) :
    ∀ s, DfsInv g s → s.path = [] →
      (((detectLoop g ks s).result = s.result ∧
        DfsInv g (detectLoop g ks s) ∧
        (detectLoop g ks s).path = [] ∧
        (∀ x ∈ s.visited, x ∈ (detectLoop g ks s).visited) ∧
        (∀ k ∈ ks, k ∈ (detectLoop g ks s).visited)) ∨
       ((detectLoop g ks s).result.valid = false ∧
        (detectLoop g ks s).result.warnings = s.result.warnings ∧
        ∃ c, IsCycleList g c ∧
          (detectLoop g ks s).result.errors = s.result.errors ++ [cycleMsg c])) := by
  induction ks with
  | nil =>
    intro s hinv hpath
    left
    exact ⟨rfl, hinv, hpath, fun x hx => hx, by simp⟩
  | cons k ks ih =>
    intro s hinv hpath
    have hfuel : unvisitedCount g s < g.length + 1 :=
      Nat.lt_succ_of_le (unvisitedCount_le g s)
    by_cases hv : k ∈ s.visited
    · rw [show detectLoop g (k :: ks) s = detectLoop g ks s from by
        simp only [detectLoop]
        rw [if_pos hv]]
      rcases ih (fun k' h => hks k' (by simp [h])) s hinv hpath with
        ⟨h1, h2, h3, h4, h5⟩ | hr
      · left
        refine ⟨h1, h2, h3, h4, ?_⟩
        intro k' hk'
        rcases List.mem_cons.mp hk' with h | h
        · subst h
          exact h4 k' hv
        · exact h5 k' h
      · right
        exact hr
    · have hstep := (dfs_main g hWF (g.length + 1)).1 k s hinv (hks k (by simp))
        (Or.inl hpath) hfuel
      rcases hstep with ⟨hf, hinvd, hstkd, hpathd, hresd, hmonod, hmemd, haccd⟩ |
        ⟨ht, hval, hwarn, c, hc, herr⟩
      · rw [show detectLoop g (k :: ks) s = detectLoop g ks (dfs g (g.length + 1) k s).2 from by
          simp only [detectLoop]
          rw [if_neg hv, if_neg (by rw [hf]; exact Bool.false_ne_true)]]
        have hpath2 : (dfs g (g.length + 1) k s).2.path = [] := by rw [hpathd, hpath]
        rcases ih (fun k' h => hks k' (by simp [h])) (dfs g (g.length + 1) k s).2
          hinvd hpath2 with ⟨h1, h2, h3, h4, h5⟩ | ⟨h1, h2, c, hc, herr⟩
        · left
          refine ⟨by rw [h1, hresd], h2, h3, fun x hx => h4 x (hmonod x hx), ?_⟩
          intro k' hk'
          rcases List.mem_cons.mp hk' with h | h
          · subst h
            exact h4 k' hmemd
          · exact h5 k' h
        · right
          exact ⟨h1, by rw [h2, hresd], c, hc, by rw [herr, hresd]⟩
      · rw [show detectLoop g (k :: ks) s = (dfs g (g.length + 1) k s).2 from by
          simp only [detectLoop]
          rw [if_neg hv, if_pos (by rw [ht])]]
        right
        exact ⟨hval, hwarn, c, hc, herr⟩

theorem initDfsSt_inv (g : JMap String GraphNode) : DfsInv g initDfsSt := by
  refine ⟨?_, ?_, ?_, ?_, ?_, ?_⟩ <;> simp [initDfsSt]

theorem detect_spec (dps : List ParsedDP) :
    ((detectCycles (buildGraph dps)).valid = true ∧
     (detectCycles (buildGraph dps)).errors = [] ∧
     (∀ k ∈ jmKeys (buildGraph dps).nodes, DAcc (buildGraph dps).nodes k)) ∨
    ((detectCycles (buildGraph dps)).valid = false ∧
     ∃ c, IsCycleList (buildGraph dps).nodes c ∧
       (detectCycles (buildGraph dps)).errors = [cycleMsg c]) := by
  have hWF := buildGraph_WFdeps dps
  have h := detectLoop_spec (buildGraph dps).nodes hWF
    (jmKeys (buildGraph dps).nodes) (fun k hk => hk) initDfsSt
    (initDfsSt_inv _) rfl
  rcases h with ⟨hres, hinv, hpath, _, hall⟩ | ⟨hval, hwarn, c, hc, herr⟩
  · left
    refine ⟨?_, ?_, ?_⟩
    · show (detectLoop (buildGraph dps).nodes (jmKeys (buildGraph dps).nodes)
        initDfsSt).result.valid = true
      rw [hres]
      rfl
    · show (detectLoop (buildGraph dps).nodes (jmKeys (buildGraph dps).nodes)
        initDfsSt).result.errors = []
      rw [hres]
      rfl
    · intro k hk
      refine hinv.done_acc k (hall k hk) ?_
      rw [hpath]
      simp
  · right
    refine ⟨hval, c, hc, ?_⟩
    show (detectLoop (buildGraph dps).nodes (jmKeys (buildGraph dps).nodes)
      initDfsSt).result.errors = _
    rw [herr]
    rfl

theorem cycle_successor (g : JMap String GraphNode) (c : List String)
    (hc : IsCycleList g c) (a : String) (ha : a ∈ c) :
    ∃ b, edge g a b ∧ b ∈ c := by
  obtain ⟨hlen, hchain, hring⟩ := hc
  obtain ⟨⟨i, hi⟩, hia⟩ := List.mem_iff_get.mp ha
  by_cases hlast : i + 1 < c.length
  · have hstep : edge g (c.get ⟨i, hi⟩) (c.get ⟨i + 1, hlast⟩) :=
      List.chain'_iff_get.mp hchain i (by omega)
    rw [hia] at hstep
    exact ⟨c.get ⟨i + 1, hlast⟩, hstep, List.get_mem _ _ _⟩
  · have h0 : 0 < c.length := by omega
    have h1 : 1 < c.length := by omega
    have hieq : i = c.length - 1 := by omega
    subst hieq
    have hheadEq : c.head? = some (c.get ⟨0, h0⟩) := by
      cases c with
      | nil => simp at h0
      | cons x xs => rfl
    have hlastEq : c.getLast? = some (c.get ⟨c.length - 1, hi⟩) := by
      rw [List.getLast?_eq_getElem?, List.getElem?_eq_getElem (by omega)]
      simp [List.get_eq_getElem]
    have hga : c.get ⟨0, h0⟩ = a := by
      rw [hheadEq, hlastEq] at hring
      simp only [Option.some.injEq] at hring
      rw [hring, hia]
    have hstep : edge g (c.get ⟨0, h0⟩) (c.get ⟨1, h1⟩) :=
      List.chain'_iff_get.mp hchain 0 (by omega)
    rw [hga] at hstep
    exact ⟨c.get ⟨1, h1⟩, hstep, List.get_mem _ _ _⟩

theorem dacc_no_cycle (g : JMap String GraphNode)
    (hall : ∀ k ∈ jmKeys g, DAcc g k) (c : List String) : ¬ IsCycleList g c := by
  intro hc
  have hcne : c ≠ [] := by
    intro h
    rw [h] at hc
    simp [IsCycleList] at hc
  obtain ⟨a, ha⟩ : ∃ a, c.head? = some a := by
    cases c with
    | nil => exact absurd rfl hcne
    | cons x xs => exact ⟨x, rfl⟩
  have hamem : a ∈ c := by
    cases c with
    | nil => exact absurd rfl hcne
    | cons x xs =>
      simp only [List.head?_cons, Option.some.injEq] at ha
      subst ha
      simp
  obtain ⟨b, hab, _⟩ := cycle_successor g c hc a hamem
  have hakey : a ∈ jmKeys g := by
    obtain ⟨n, hn, _⟩ := hab
    rw [← jmGet_isSome_iff]
    simp [hn]
  have hP : ∀ x, DAcc g x → x ∈ c → False := by
    intro x hx
    induction hx with
    | intro y hy ihy =>
      intro hymem
      obtain ⟨b', hyb', hb'c⟩ := cycle_successor g c hc y hymem
      exact ihy b' hyb' hb'c
  exact hP a (hall a hakey) hamem

theorem detect_false_iff (dps : List ParsedDP) :
    (detectCycles (buildGraph dps)).valid = false ↔
      ∃ c, IsCycleList (buildGraph dps).nodes c := by
  constructor
  · intro h
    rcases detect_spec dps with ⟨ht, _, _⟩ | ⟨_, c, hc, _⟩
    · rw [ht] at h
      exact absurd h (by simp)
    · exact ⟨c, hc⟩
  · intro ⟨c, hc⟩
    rcases detect_spec dps with ⟨_, _, hd⟩ | ⟨hf, _⟩
    · exact absurd hc (dacc_no_cycle _ hd c)
    · exact hf

theorem no_cycle_all_dacc (dps : List ParsedDP)
    (h : ¬ ∃ c, IsCycleList (buildGraph dps).nodes c) :
    ∀ k ∈ jmKeys (buildGraph dps).nodes, DAcc (buildGraph dps).nodes k := by
  rcases detect_spec dps with ⟨_, _, hd⟩ | ⟨hf, c, hc, _⟩
  · exact hd
  · exact absurd ⟨c, hc⟩ h

/-- C1: for every collection of Task Records, `detectCycles` applied to the
graph produced by `buildGraph` returns `valid = false` exactly when the
dependency relation restricted to known identifiers — the graph's forward
edges — contains a cycle; when it returns `valid = true` the error list is
empty, and when it returns `valid = false` the error list is non-empty. -/
theorem detectCycles_valid_iff (dps : List ParsedDP) :
    ((detectCycles (buildGraph dps)).valid = false ↔
      ∃ c, IsCycleList (buildGraph dps).nodes c) ∧
    ((detectCycles (buildGraph dps)).valid = true →
      (detectCycles (buildGraph dps)).errors = []) ∧
    ((detectCycles (buildGraph dps)).valid = false →
      (detectCycles (buildGraph dps)).errors ≠ []) := by
  refine ⟨detect_false_iff dps, ?_, ?_⟩
  · intro ht
    rcases detect_spec dps with ⟨_, he, _⟩ | ⟨hf, _⟩
    · exact he
    · rw [hf] at ht
      exact absurd ht (by simp)
  · intro hf
    rcases detect_spec dps with ⟨ht, _, _⟩ | ⟨_, c, _, he⟩
    · rw [ht] at hf
      exact absurd hf (by simp)
    · rw [he]
      simp

/-- C1 witness: on the two-node circular input, `detectCycles` is invalid,
a cycle exists, and the error list is non-empty. -/
theorem detectCycles_valid_iff_witness :
    (detectCycles (buildGraph cycDps)).valid = false ∧
    (∃ c, IsCycleList (buildGraph cycDps).nodes c) ∧
    (detectCycles (buildGraph cycDps)).errors ≠ [] := by
  have hv : (detectCycles (buildGraph cycDps)).valid = false := by decide
  exact ⟨hv, (detectCycles_valid_iff cycDps).1.mp hv,
    (detectCycles_valid_iff cycDps).2.2 hv⟩

/-- C9: whenever `detectCycles` reports a cycle, exactly one cycle error is
reported; the reported chain — the slice of the depth-first path from the
first occurrence of the revisited node, closed by that node — has at least
one edge, every consecutive pair of it is a forward dependency edge of the
input graph, and it starts and ends at the same identifier. -/
theorem detectCycles_reported_chain (dps : List ParsedDP)
    (h : (detectCycles (buildGraph dps)).valid = false) :
    ∃ c, (detectCycles (buildGraph dps)).errors = [cycleMsg c] ∧
      2 ≤ c.length ∧ c.Chain' (edge (buildGraph dps).nodes) ∧
      c.head? = c.getLast? := by
  rcases detect_spec dps with ⟨ht, _, _⟩ | ⟨_, c, hc, he⟩
  · rw [ht] at h
    exact absurd h (by simp)
  · exact ⟨c, he, hc.1, hc.2.1, hc.2.2⟩

/-- C9 witness: the two-node circular input. -/
theorem detectCycles_reported_chain_witness :
    (detectCycles (buildGraph cycDps)).valid = false ∧
    (∃ c, (detectCycles (buildGraph cycDps)).errors = [cycleMsg c] ∧
      2 ≤ c.length ∧ c.Chain' (edge (buildGraph cycDps).nodes) ∧
      c.head? = c.getLast?) :=
  ⟨by decide, detectCycles_reported_chain cycDps (by decide)⟩

/-- C4: on every input whose dependency relation contains a cycle, `resolve`
returns a non-empty error list — exactly the cycle detector's errors — and
does not produce a compiled plan: it short-circuits after cycle detection
with the empty placeholder plan. -/
theorem resolve_cycle_no_plan (now : String) (dps : List ParsedDP)
    (h : ∃ c, IsCycleList (buildGraph dps).nodes c) :
    (resolve now dps).errors ≠ [] ∧
    (resolve now dps).yadasmith.levels = [] ∧
    (resolve now dps).errors = (detectCycles (buildGraph dps)).errors := by
  have hne : ¬ dps.length = 0 := by
    intro h0
    obtain ⟨c, hc⟩ := h
    have hdps : dps = [] := List.length_eq_zero.mp h0
    subst hdps
    have hcne : c ≠ [] := by
      intro hnil
      rw [hnil] at hc
      simp [IsCycleList] at hc
    obtain ⟨a, hamem⟩ : ∃ a, a ∈ c := by
      cases c with
      | nil => exact absurd rfl hcne
      | cons x xs => exact ⟨x, by simp⟩
    obtain ⟨b, hab, _⟩ := cycle_successor _ c hc a hamem
    obtain ⟨n, hn, _⟩ := hab
    simp [jmGet] at hn
  have hvalid : (detectCycles (buildGraph dps)).valid = false :=
    (detect_false_iff dps).mpr h
  have hresolve : resolve now dps =
      { yadasmith := createEmptyYadasmith now,
        errors := (detectCycles (buildGraph dps)).errors, warnings := [] } := by
    unfold resolve
    rw [if_neg hne]
    show (if (detectCycles (buildGraph dps)).valid = false then _ else _) = _
    rw [if_pos hvalid]
  rcases detect_spec dps with ⟨ht, _, _⟩ | ⟨_, c, _, he⟩
  · rw [ht] at hvalid
    exact absurd hvalid (by simp)
  · refine ⟨?_, ?_, ?_⟩
    · rw [hresolve]
      show (detectCycles (buildGraph dps)).errors ≠ []
      rw [he]
      simp
    · rw [hresolve]
      rfl
    · rw [hresolve]

/-- C4 witness: the two-node circular input with cycle `a -> b -> a`. -/
theorem resolve_cycle_no_plan_witness :
    (∃ c, IsCycleList (buildGraph cycDps).nodes c) ∧
    ((resolve "t0" cycDps).errors ≠ [] ∧
     (resolve "t0" cycDps).yadasmith.levels = [] ∧
     (resolve "t0" cycDps).errors = (detectCycles (buildGraph cycDps)).errors) :=
  ⟨⟨["a", "b", "a"], by decide⟩,
   resolve_cycle_no_plan "t0" cycDps ⟨["a", "b", "a"], by decide⟩⟩

theorem entryLE_trans (pm : JMap String Int) (a b c : YadasmithEntry)
    (hab : entryLE pm a b = true) (hbc : entryLE pm b c = true) :
    entryLE pm a c = true := by
  simp only [entryLE, Bool.or_eq_true, Bool.and_eq_true, decide_eq_true_eq] at *
  rcases hab with h1 | ⟨h1, h2⟩ <;> rcases hbc with h3 | ⟨h3, h4⟩
  · left
    omega
  · left
    omega
  · left
    omega
  · right
    exact ⟨h1.trans h3, le_trans h2 h4⟩

theorem entryLE_total (pm : JMap String Int) (a b : YadasmithEntry) :
    (entryLE pm a b || entryLE pm b a) = true := by
  simp only [entryLE, Bool.or_eq_true, Bool.and_eq_true, decide_eq_true_eq]
  rcases lt_trichotomy (prioOf pm a) (prioOf pm b) with h | h | h
  · right
    left
    exact h
  · rcases le_total a.id b.id with hid | hid
    · left
      right
      exact ⟨h, hid⟩
    · right
      right
      exact ⟨h.symm, hid⟩
  · left
    left
    exact h

theorem sortByPriority_pairwise (y : Yadasmith) (dps : List ParsedDP) :
    ∀ lv ∈ (sortByPriority y dps).levels,
      lv.dps.Pairwise (fun a b => entryLE (priorityMap dps) a b = true) := by
  intro lv hlv
  unfold sortByPriority at hlv
  simp only [List.mem_map] at hlv
  obtain ⟨lv0, _, rfl⟩ := hlv
  exact List.sorted_mergeSort (entryLE_trans (priorityMap dps))
    (entryLE_total (priorityMap dps)) lv0.dps

theorem resolve_shape (now : String) (dps : List ParsedDP) :
    (resolve now dps).yadasmith.levels = [] ∨
    ∃ y0, (resolve now dps).yadasmith = sortByPriority y0 dps := by
  unfold resolve
  split
  · left
    rfl
  · dsimp only
    split
    · left
      rfl
    · right
      exact ⟨_, rfl⟩

theorem entryLE_AC : entryLE (priorityMap prioDps) eA eC = true := by
  have h1 : prioOf (priorityMap prioDps) eA = prioOf (priorityMap prioDps) eC := by
    decide
  have h2 : eA.id ≤ eC.id := by
    rw [String.le_iff_toList_le]
    decide
  simp [entryLE, h1, h2]

theorem entryLE_BA : entryLE (priorityMap prioDps) eB eA = false := by
  have h1 : ¬ prioOf (priorityMap prioDps) eA < prioOf (priorityMap prioDps) eB := by
    decide
  have h2 : ¬ prioOf (priorityMap prioDps) eB = prioOf (priorityMap prioDps) eA := by
    decide
  simp [entryLE, h1, h2]

theorem entryLE_BC : entryLE (priorityMap prioDps) eB eC = false := by
  have h1 : ¬ prioOf (priorityMap prioDps) eC < prioOf (priorityMap prioDps) eB := by
    decide
  have h2 : ¬ prioOf (priorityMap prioDps) eB = prioOf (priorityMap prioDps) eC := by
    decide
  simp [entryLE, h1, h2]

theorem mergeSort_prioExample :
    [eB, eA, eC].mergeSort (entryLE (priorityMap prioDps)) = [eA, eC, eB] := by
  simp only [List.mergeSort, List.merge, List.splitInTwo_fst,
    List.splitInTwo_snd, List.take, List.drop, entryLE_AC, entryLE_BA, entryLE_BC,
    if_true, if_false, Bool.false_eq_true, Bool.true_eq_false]

unseal List.merge List.mergeSort in
theorem resolve_prioExample :
    resolve "t0" prioDps =
      { yadasmith := sortByPriority
          { version := "1.0.0", compiledAt := "t0",
            levels := [{ level := 1, dps := [eB, eA, eC] }] } prioDps,
        errors := [], warnings := [] } := by
  rfl

theorem prioExample_levels :
    (resolve "t0" prioDps).yadasmith.levels
      = [{ level := 1, dps := [eA, eC, eB] }] := by
  rw [resolve_prioExample]
  show [({ level := 1, dps := [eB, eA, eC] } : YadasmithLevel)].map (fun lv =>
      ({ level := lv.level,
         dps := lv.dps.mergeSort (entryLE (priorityMap prioDps)) } : YadasmithLevel))
    = [{ level := 1, dps := [eA, eC, eB] }]
  simp only [List.map, mergeSort_prioExample]

/-- C3: within every single level of a plan produced by `resolve`, entries
are sorted by priority descending with ties broken by identifier ascending
(plain string comparison); in particular, three same-level entries with
priorities 10, 50, 50 and identifiers b, a, c come out in the order
(a, 50), (c, 50), (b, 10). -/
theorem resolve_level_order (now : String) (dps : List ParsedDP) :
    (∀ lv ∈ (resolve now dps).yadasmith.levels,
      lv.dps.Pairwise (fun a b =>
        prioOf (priorityMap dps) b < prioOf (priorityMap dps) a ∨
        (prioOf (priorityMap dps) a = prioOf (priorityMap dps) b ∧ a.id ≤ b.id))) ∧
    (resolve "t0" prioDps).yadasmith.levels.map
        (fun lv => lv.dps.map (fun e => (e.id, prioOf (priorityMap prioDps) e)))
      = [[("a", 50), ("c", 50), ("b", 10)]] := by
  constructor
  · intro lv hlv
    rcases resolve_shape now dps with hsh | ⟨y0, hsh⟩
    · rw [hsh] at hlv
      simp at hlv
    · rw [hsh] at hlv
      have hp := sortByPriority_pairwise y0 dps lv hlv
      refine hp.imp ?_
      intro a b hab
      simpa [entryLE, Bool.or_eq_true, Bool.and_eq_true, decide_eq_true_eq] using hab
  · rw [prioExample_levels]
    decide

/-- C3 witness: the sorted level of the concrete priority example is a member
of the compiled plan and satisfies the ordering relation. -/
theorem resolve_level_order_witness :
    ({ level := 1, dps := [eA, eC, eB] } : YadasmithLevel)
      ∈ (resolve "t0" prioDps).yadasmith.levels ∧
    ([eA, eC, eB] : List YadasmithEntry).Pairwise (fun a b =>
        prioOf (priorityMap prioDps) b < prioOf (priorityMap prioDps) a ∨
        (prioOf (priorityMap prioDps) a = prioOf (priorityMap prioDps) b ∧
          a.id ≤ b.id)) := by
  constructor
  · rw [prioExample_levels]
    exact List.mem_singleton.mpr rfl
  · exact (resolve_level_order "t0" prioDps).1
      { level := 1, dps := [eA, eC, eB] }
      (by rw [prioExample_levels]; exact List.mem_singleton.mpr rfl)

/-- C8 witness: the concrete three-entry plan with one completed entry. -/
theorem getStatus_summary_spec_witness :
    (flattenEntries samplePlan1).length = 3 ∧
    ((flattenEntries samplePlan1).filter
      (fun e => e.status == TaskStatus.completed)).length = 1 ∧
    ((getStatus (some samplePlan1)).completed = 1 ∧
     (getStatus (some samplePlan1)).total = 3 ∧
     (getStatus (some samplePlan1)).percentComplete = 33) :=
  ⟨by decide, by decide, getStatus_summary_spec.2.2 samplePlan1 (by decide) (by decide)⟩

theorem sum_map_add_distrib {α : Type} (P : List α) (f g : α → Nat) :
    (P.map (fun d => f d + g d)).sum = (P.map f).sum + (P.map g).sum := by
  induction P with
  | nil => rfl
  | cons a t ih =>
    simp only [List.map_cons, List.sum_cons, ih]
    omega

theorem sum_map_ite_nodup (P : List String) (hP : P.Nodup) (e : String) :
    (P.map (fun d => if d = e then 1 else 0)).sum = if e ∈ P then 1 else 0 := by
  induction P with
  | nil => simp
  | cons a t ih =>
    rcases List.nodup_cons.mp hP with ⟨ha, ht⟩
    by_cases hae : a = e
    · subst hae
      simp [List.mem_cons, ih ht, ha]
    · have hea : ¬ e = a := fun h => hae h.symm
      simp only [List.map_cons, List.sum_cons, if_neg hae, List.mem_cons,
        ih ht, hea, false_or]
      omega

theorem sum_count_le (P : List String) (hP : P.Nodup) (l : List String) :
    (P.map (fun d => l.count d)).sum ≤ l.length ∧
      ((P.map (fun d => l.count d)).sum = l.length ↔ ∀ e ∈ l, e ∈ P) := by
  induction l with
  | nil => simp
  | cons e t ih =>
    have h1 : (P.map (fun d => (e :: t).count d))
        = (P.map (fun d => t.count d + if d = e then 1 else 0)) := by
      refine List.map_congr_left ?_
      intro d _
      by_cases hde : d = e
      · subst hde
        simp [List.count_cons]
      · have hed : ¬ e = d := fun h => hde h.symm
        simp [List.count_cons, hde, hed]
    have hsplit : (P.map (fun d => (e :: t).count d)).sum
        = (P.map (fun d => t.count d)).sum + (if e ∈ P then 1 else 0) := by
      rw [h1, sum_map_add_distrib, sum_map_ite_nodup P hP e]
    have hle := ih.1
    constructor
    · rw [hsplit]
      by_cases he : e ∈ P <;> simp [he, List.length_cons] <;> omega
    · rw [hsplit]
      constructor
      · intro heq x hx
        by_cases he : e ∈ P
        · rcases List.mem_cons.mp hx with hxe | hxt
          · subst hxe
            exact he
          · have hts : (P.map (fun d => t.count d)).sum = t.length := by
              simp only [if_pos he, List.length_cons] at heq
              omega
            exact (ih.2.mp hts) x hxt
        · exfalso
          simp only [if_neg he, List.length_cons] at heq
          omega
      · intro hall
        have he : e ∈ P := hall e (by simp)
        have hts : (P.map (fun d => t.count d)).sum = t.length :=
          ih.2.mpr (fun x hx => hall x (List.mem_cons_of_mem _ hx))
        simp [he, hts]

theorem occCount_nil (g : JMap String GraphNode) (x : String) :
    occCount g [] x = 0 := rfl

theorem occCount_append (g : JMap String GraphNode) (P Q : List String)
    (x : String) :
    occCount g (P ++ Q) x = occCount g P x + occCount g Q x := by
  simp [occCount]

theorem occCount_single (g : JMap String GraphNode) (c x : String) :
    occCount g [c] x = (ndept g c).count x := by
  simp [occCount]

theorem occCount_eq_sum_deps (g : JMap String GraphNode)
    (hdual : ∀ x d, (ndeps g x).count d = (ndept g d).count x)
    (P : List String) (x : String) :
    occCount g P x = (P.map (fun d => (ndeps g x).count d)).sum := by
  unfold occCount
  congr 1
  exact List.map_congr_left (fun d _ => (hdual x d).symm)

theorem occ_saturated (g : JMap String GraphNode)
    (hdual : ∀ x d, (ndeps g x).count d = (ndept g d).count x)
    (P : List String) (hP : P.Nodup) (x : String) :
    occCount g P x = (ndeps g x).length ↔ ∀ d ∈ ndeps g x, d ∈ P := by
  rw [occCount_eq_sum_deps g hdual P x]
  exact (sum_count_le P hP (ndeps g x)).2

theorem occ_le (g : JMap String GraphNode)
    (hdual : ∀ x d, (ndeps g x).count d = (ndept g d).count x)
    (P : List String) (hP : P.Nodup) (x : String) :
    occCount g P x ≤ (ndeps g x).length := by
  rw [occCount_eq_sum_deps g hdual P x]
  exact (sum_count_le P hP (ndeps g x)).1

theorem foldr_max_ge {l : List Nat} {a : Nat} (ha : a ∈ l) :
    a ≤ l.foldr max 0 := by
  induction l with
  | nil => simp at ha
  | cons b t ih =>
    rcases List.mem_cons.mp ha with h | h
    · subst h
      simp only [List.foldr_cons]
      omega
    · have := ih h
      simp only [List.foldr_cons]
      omega

theorem foldr_max_filter_extend (l P : List String) (c : String) (hc : c ∉ P)
    (f : String → Nat) :
    ((l.filter (fun d => decide (d ∈ P ++ [c]))).map f).foldr max 0
      = max (((l.filter (fun d => decide (d ∈ P))).map f).foldr max 0)
          (if c ∈ l then f c else 0) := by
  induction l with
  | nil => simp
  | cons a t ih =>
    by_cases hac : a = c
    · subst hac
      have h1 : (a ∈ P ++ [a]) := by simp
      have h2 : a ∉ P := hc
      simp only [List.filter_cons, decide_eq_true_eq, if_pos h1, if_neg h2,
        List.map_cons, List.foldr_cons, ih, List.mem_cons, true_or, if_true]
      by_cases hct : a ∈ t <;> simp [hct] <;> omega
    · have hmm : (a ∈ P ++ [c]) ↔ a ∈ P := by
        simp [List.mem_append, hac]
      by_cases hap : a ∈ P
      · have h1 : a ∈ P ++ [c] := hmm.mpr hap
        simp only [List.filter_cons, decide_eq_true_eq, if_pos h1, if_pos hap,
          List.map_cons, List.foldr_cons, ih]
        have hca : (c ∈ a :: t) ↔ c ∈ t := by
          constructor
          · intro h
            rcases List.mem_cons.mp h with h | h
            · exact absurd h.symm hac
            · exact h
          · exact fun h => List.mem_cons_of_mem _ h
        rw [if_congr hca rfl rfl]
        by_cases hct : c ∈ t <;> simp [hct] <;> omega
      · have h1 : ¬ (a ∈ P ++ [c]) := fun h => hap (hmm.mp h)
        simp only [List.filter_cons, decide_eq_true_eq, if_neg h1, if_neg hap, ih]
        have hca : (c ∈ a :: t) ↔ c ∈ t := by
          constructor
          · intro h
            rcases List.mem_cons.mp h with h | h
            · exact absurd h.symm hac
            · exact h
          · exact fun h => List.mem_cons_of_mem _ h
        rw [if_congr hca rfl rfl]

theorem depMax_congr (g m m' : JMap String GraphNode) (P : List String)
    (x : String)
    (hlev : ∀ d ∈ (ndeps g x).filter (fun d => decide (d ∈ P)),
      nlevel m' d = nlevel m d) :
    depMax g m' P x = depMax g m P x := by
  unfold depMax
  congr 1
  exact List.map_congr_left (fun d hd => by rw [hlev d hd])

theorem depMax_nil (g m : JMap String GraphNode) (x : String) :
    depMax g m [] x = 0 := by
  unfold depMax
  simp

theorem jmGet_of_mem_nodup {α β : Type} [DecidableEq α] :
    ∀ (m : JMap α β), (jmKeys m).Nodup → ∀ p ∈ m, jmGet m p.1 = some p.2 := by
  intro m
  induction m with
  | nil =>
    intro _ p hp
    simp at hp
  | cons q t ih =>
    obtain ⟨a, b⟩ := q
    intro hnd p hp
    rw [jmKeys_cons] at hnd
    rcases List.nodup_cons.mp hnd with ⟨hq, ht⟩
    rcases List.mem_cons.mp hp with h | h
    · subst h
      simp [jmGet]
    · have hne : p.1 ≠ a := by
        intro he
        exact hq (he ▸ List.mem_map.mpr ⟨p, h, rfl⟩)
      rw [show jmGet ((a, b) :: t) p.1
            = if p.1 = a then some b else jmGet t p.1 from rfl]
      rw [if_neg hne]
      exact ih ht p h

theorem jmGet_some_of_mem_keys {α β : Type} [DecidableEq α] {m : JMap α β}
    {k : α} (hk : k ∈ jmKeys m) : ∃ v, jmGet m k = some v := by
  have h := (jmGet_isSome_iff m k).mpr hk
  cases hv : jmGet m k with
  | none => rw [hv] at h; simp at h
  | some v => exact ⟨v, rfl⟩

theorem ndeps_update_keep (g : JMap String GraphNode) (k : String)
    (f : GraphNode → GraphNode)
    (hf : ∀ n, (f n).dependencies = n.dependencies) (x : String) :
    ndeps (jmUpdate g k f) x = ndeps g x := by
  unfold ndeps
  by_cases hx : x = k
  · subst hx
    rw [jmGet_update_self]
    cases jmGet g x with
    | none => rfl
    | some n => simp [hf]
  · rw [jmGet_update_ne _ _ _ _ hx]

theorem ndept_update_keep (g : JMap String GraphNode) (k : String)
    (f : GraphNode → GraphNode)
    (hf : ∀ n, (f n).dependents = n.dependents) (x : String) :
    ndept (jmUpdate g k f) x = ndept g x := by
  unfold ndept
  by_cases hx : x = k
  · subst hx
    rw [jmGet_update_self]
    cases jmGet g x with
    | none => rfl
    | some n => simp [hf]
  · rw [jmGet_update_ne _ _ _ _ hx]

theorem nlevel_update_keep (g : JMap String GraphNode) (k : String)
    (f : GraphNode → GraphNode)
    (hf : ∀ n, (f n).level = n.level) (x : String) :
    nlevel (jmUpdate g k f) x = nlevel g x := by
  unfold nlevel
  by_cases hx : x = k
  · subst hx
    rw [jmGet_update_self]
    cases jmGet g x with
    | none => rfl
    | some n => simp [hf]
  · rw [jmGet_update_ne _ _ _ _ hx]

theorem nlevel_update_ne (g : JMap String GraphNode) (k : String)
    (f : GraphNode → GraphNode) (x : String) (hx : x ≠ k) :
    nlevel (jmUpdate g k f) x = nlevel g x := by
  unfold nlevel
  rw [jmGet_update_ne _ _ _ _ hx]

theorem edges_dual (dps : List ParsedDP) :
    ∀ x d, (ndeps (dps.foldl addEdges (initNodes dps)) x).count d
      = (ndept (dps.foldl addEdges (initNodes dps)) d).count x := by
  have hinit : ∀ x, ndeps (initNodes dps) x = [] ∧ ndept (initNodes dps) x = [] := by
    intro x
    unfold ndeps ndept
    cases hx : jmGet (initNodes dps) x with
    | none => exact ⟨rfl, rfl⟩
    | some n =>
      have hfa := (initNodes_forall dps) _ (jmGet_mem hx)
      exact ⟨hfa.2.1, hfa.2.2.1⟩
  have hmain := foldl_invariant_mem
    (fun ns => jmKeys ns = jmKeys (initNodes dps) ∧
      ∀ x d, (ndeps ns x).count d = (ndept ns d).count x)
    addEdges dps ?_ (initNodes dps)
    ⟨rfl, fun x d => by rw [(hinit x).1, (hinit d).2]; simp⟩
  · exact hmain.2
  · intro s dp hdp hP
    have hdpK : dp.id ∈ jmKeys (initNodes dps) := mem_initNodes_keys dps dp hdp
    unfold addEdges
    refine foldl_invariant_mem
      (fun ns => jmKeys ns = jmKeys (initNodes dps) ∧
        ∀ x d, (ndeps ns x).count d = (ndept ns d).count x)
      _ dp.dependencies ?_ s hP
    intro s' depId _ hQ
    obtain ⟨hkeys, hdual⟩ := hQ
    by_cases hhas : jmHas s' depId
    · rw [if_pos hhas]
      have hdepK : depId ∈ jmKeys s' := (jmHas_iff s' depId).mp hhas
      have hdpK' : dp.id ∈ jmKeys s' := by rw [hkeys]; exact hdpK
      obtain ⟨n, hn⟩ := jmGet_some_of_mem_keys hdpK'
      constructor
      · rw [jmKeys_update, jmKeys_update, hkeys]
      · intro x d
        set f1 : GraphNode → GraphNode :=
          fun n => { n with dependencies := n.dependencies ++ [depId] } with hf1
        set f2 : GraphNode → GraphNode :=
          fun n => { n with dependents := n.dependents ++ [dp.id] } with hf2
        have hA : ndeps (jmUpdate (jmUpdate s' dp.id f1) depId f2) x
            = ndeps (jmUpdate s' dp.id f1) x :=
          ndeps_update_keep (jmUpdate s' dp.id f1) depId f2 (fun n => rfl) x
        have hB : ndept (jmUpdate s' dp.id f1) d = ndept s' d :=
          ndept_update_keep s' dp.id f1 (fun n => rfl) d
        have hdepsome : ∃ m, jmGet (jmUpdate s' dp.id f1) depId = some m := by
          refine jmGet_some_of_mem_keys ?_
          rw [jmKeys_update]
          exact hdepK
        have hC : ∀ y, ndeps (jmUpdate s' dp.id f1) y
            = if y = dp.id then ndeps s' y ++ [depId] else ndeps s' y := by
          intro y
          by_cases hy : y = dp.id
          · subst hy
            unfold ndeps
            rw [jmGet_update_self, hn, if_pos rfl]
            rfl
          · unfold ndeps
            rw [jmGet_update_ne _ _ _ _ hy, if_neg hy]
        have hD : ∀ y, ndept (jmUpdate (jmUpdate s' dp.id f1) depId f2) y
            = if y = depId then ndept (jmUpdate s' dp.id f1) y ++ [dp.id]
              else ndept (jmUpdate s' dp.id f1) y := by
          intro y
          by_cases hy : y = depId
          · subst hy
            obtain ⟨m, hm⟩ := hdepsome
            unfold ndept
            rw [jmGet_update_self, hm, if_pos rfl]
            rfl
          · unfold ndept
            rw [jmGet_update_ne _ _ _ _ hy, if_neg hy]
        rw [hA, hC x, hD d, hB]
        by_cases hx : x = dp.id <;> by_cases hd : d = depId
        · subst hx; subst hd
          simp [List.count_append, hdual, List.count_singleton]
        · subst hx
          have hdd : ¬ d = depId := hd
          have hdd2 : ¬ depId = d := fun h => hd h.symm
          simp [List.count_append, hdual, List.count_cons, hdd, hdd2]
        · subst hd
          have hxx2 : ¬ dp.id = x := fun h => hx h.symm
          simp [List.count_append, hdual, List.count_cons, hxx2, hx]
        · simp [hdual, hx, hd]
    · rw [if_neg hhas]
      exact ⟨hkeys, hdual⟩

theorem edges_level0 (dps : List ParsedDP) :
    ∀ x, nlevel (dps.foldl addEdges (initNodes dps)) x = 0 := by
  have hall : ∀ p ∈ dps.foldl addEdges (initNodes dps), p.2.level = 0 := by
    refine foldl_invariant_mem (fun ns => ∀ p ∈ ns, p.2.level = 0)
      addEdges dps ?_ (initNodes dps)
      (fun p hp => ((initNodes_forall dps) p hp).2.2.2)
    intro s dp _ hP
    unfold addEdges
    refine foldl_invariant_mem (fun ns => ∀ p ∈ ns, p.2.level = 0)
      _ dp.dependencies ?_ s hP
    intro s' depId _ hQ
    by_cases hhas : jmHas s' depId
    · rw [if_pos hhas]
      refine jmUpdate_forall (jmUpdate_forall hQ ?_) ?_
      · intro a v hv
        exact hv
      · intro a v hv
        exact hv
    · rw [if_neg hhas]
      exact hQ
  intro x
  unfold nlevel
  cases hx : jmGet (dps.foldl addEdges (initNodes dps)) x with
  | none => rfl
  | some n => simpa using hall _ (jmGet_mem hx)

theorem edgesFold_GraphWF (dps : List ParsedDP) :
    GraphWF (dps.foldl addEdges (initNodes dps)) := by
  refine ⟨?_, ?_, ?_, edges_dual dps⟩
  · rw [(edgesFold_inv dps).1]
    exact initNodes_keys_nodup dps
  · intro x hx d hd
    obtain ⟨n, hn⟩ := jmGet_some_of_mem_keys hx
    have hfacts := (edgesFold_inv dps).2 _ (jmGet_mem hn)
    have : d ∈ jmKeys (initNodes dps) := by
      refine hfacts.2.1 d ?_
      unfold ndeps at hd
      rw [hn] at hd
      exact hd
    rw [(edgesFold_inv dps).1]
    exact this
  · intro x hx d hd
    obtain ⟨n, hn⟩ := jmGet_some_of_mem_keys hx
    have hfacts := (edgesFold_inv dps).2 _ (jmGet_mem hn)
    have : d ∈ jmKeys (initNodes dps) := by
      refine hfacts.2.2 d ?_
      unfold ndept at hd
      rw [hn] at hd
      exact hd
    rw [(edgesFold_inv dps).1]
    exact this

theorem jmSet_append {α β : Type} [DecidableEq α] (m : JMap α β) (k : α) (v : β)
    (hk : k ∉ jmKeys m) : jmSet m k v = m ++ [(k, v)] := by
  induction m with
  | nil => rfl
  | cons q t ih =>
    obtain ⟨a, b⟩ := q
    rw [jmKeys_cons] at hk
    have h1 : ¬ k = a := fun h => hk (h ▸ List.mem_cons_self _ _)
    have h2 : k ∉ jmKeys t := fun h => hk (List.mem_cons_of_mem _ h)
    rw [show jmSet ((a, b) :: t) k v
          = if k = a then (a, v) :: t else (a, b) :: jmSet t k v from rfl]
    rw [if_neg h1, ih h2]
    rfl

theorem jmGet_map_val {β : Type} (g : JMap String GraphNode)
    (f : GraphNode → β) (x : String) (n : GraphNode) (hx : jmGet g x = some n) :
    jmGet (g.map (fun p => (p.1, f p.2))) x = some (f n) := by
  induction g with
  | nil => simp [jmGet] at hx
  | cons q t ih =>
    obtain ⟨a, b⟩ := q
    by_cases hxa : x = a
    · subst hxa
      rw [show jmGet ((x, b) :: t) x = some b from by simp [jmGet]] at hx
      cases hx
      simp [jmGet]
    · rw [show jmGet ((a, b) :: t) x = jmGet t x from by simp [jmGet, hxa]] at hx
      rw [List.map_cons,
        show jmGet ((a, f b) :: t.map (fun p => (p.1, f p.2))) x
          = jmGet (t.map (fun p => (p.1, f p.2))) x from by simp [jmGet, hxa]]
      exact ih hx

theorem inDegMap_eq :
    ∀ (l : JMap String GraphNode) (acc : JMap String Int),
    (∀ p ∈ l, p.1 ∉ jmKeys acc) → (jmKeys l).Nodup →
    l.foldl (fun m p => jmSet m p.1 (p.2.dependencies.length : Int)) acc
      = acc ++ l.map (fun p => (p.1, (p.2.dependencies.length : Int))) := by
  intro l
  induction l with
  | nil =>
    intro acc _ _
    simp
  | cons p t ih =>
    intro acc hacc hnd
    rw [jmKeys_cons] at hnd
    rcases List.nodup_cons.mp hnd with ⟨hp, ht⟩
    have hstep : jmSet acc p.1 (p.2.dependencies.length : Int)
        = acc ++ [(p.1, (p.2.dependencies.length : Int))] :=
      jmSet_append acc _ _ (hacc p (List.mem_cons_self _ _))
    rw [List.foldl_cons, hstep,
      ih _ ?_ ht]
    · rw [List.map_cons, List.append_assoc]
      rfl
    · intro q hq
      rw [show jmKeys (acc ++ [(p.1, (p.2.dependencies.length : Int))])
            = jmKeys acc ++ [p.1] from by simp [jmKeys]]
      intro hmem
      rcases List.mem_append.mp hmem with h | h
      · exact hacc q (List.mem_cons_of_mem _ hq) h
      · rcases List.mem_singleton.mp h with heq
        exact hp (heq ▸ List.mem_map.mpr ⟨q, hq, rfl⟩)

theorem seed_fold_spec :
    ∀ (l : JMap String Int) (q0 : List String) (ns0 : JMap String GraphNode),
    (l.foldl
      (fun (st : List String × JMap String GraphNode) p =>
        if p.2 = 0 then
          (st.1 ++ [p.1], jmUpdate st.2 p.1 (fun n => { n with level := 1 }))
        else st) (q0, ns0)).1
      = q0 ++ (l.filter (fun p => decide (p.2 = 0))).map Prod.fst ∧
    SameShape ns0 (l.foldl
      (fun (st : List String × JMap String GraphNode) p =>
        if p.2 = 0 then
          (st.1 ++ [p.1], jmUpdate st.2 p.1 (fun n => { n with level := 1 }))
        else st) (q0, ns0)).2 ∧
    (∀ x, x ∉ (l.filter (fun p => decide (p.2 = 0))).map Prod.fst →
      nlevel (l.foldl
        (fun (st : List String × JMap String GraphNode) p =>
          if p.2 = 0 then
            (st.1 ++ [p.1], jmUpdate st.2 p.1 (fun n => { n with level := 1 }))
          else st) (q0, ns0)).2 x = nlevel ns0 x) ∧
    (∀ x, x ∈ (l.filter (fun p => decide (p.2 = 0))).map Prod.fst →
      x ∈ jmKeys ns0 →
      nlevel (l.foldl
        (fun (st : List String × JMap String GraphNode) p =>
          if p.2 = 0 then
            (st.1 ++ [p.1], jmUpdate st.2 p.1 (fun n => { n with level := 1 }))
          else st) (q0, ns0)).2 x = 1) := by
  intro l
  induction l with
  | nil =>
    intro q0 ns0
    exact ⟨by simp, sameShape_refl _, fun x _ => rfl, fun x hx _ => by simp at hx⟩
  | cons p t ih =>
    intro q0 ns0
    by_cases hp : p.2 = 0
    · have hstep : (if p.2 = 0 then
          (q0 ++ [p.1], jmUpdate ns0 p.1 (fun n => { n with level := 1 }))
          else (q0, ns0))
          = (q0 ++ [p.1], jmUpdate ns0 p.1 (fun n => { n with level := 1 })) :=
        if_pos hp
      have hfil : (p :: t).filter (fun p => decide (p.2 = 0))
          = p :: t.filter (fun p => decide (p.2 = 0)) := by
        simp [List.filter_cons, hp]
      obtain ⟨ih1, ih2, ih3, ih4⟩ :=
        ih (q0 ++ [p.1]) (jmUpdate ns0 p.1 (fun n => { n with level := 1 }))
      refine ⟨?_, ?_, ?_, ?_⟩
      · rw [List.foldl_cons, hstep, ih1, hfil]
        simp
      · rw [List.foldl_cons, hstep]
        exact sameShape_trans
          (sameShape_update p.1 (fun n => { n with level := 1 }) (fun n => rfl)) ih2
      · intro x hx
        rw [hfil, List.map_cons] at hx
        have hx1 : x ≠ p.1 := fun h => hx (h ▸ List.mem_cons_self _ _)
        have hx2 : x ∉ (t.filter (fun p => decide (p.2 = 0))).map Prod.fst :=
          fun h => hx (List.mem_cons_of_mem _ h)
        rw [List.foldl_cons, hstep, ih3 x hx2]
        exact nlevel_update_ne _ _ _ _ hx1
      · intro x hx hxk
        rw [hfil, List.map_cons] at hx
        rw [List.foldl_cons, hstep]
        by_cases hxt : x ∈ (t.filter (fun p => decide (p.2 = 0))).map Prod.fst
        · refine ih4 x hxt ?_
          rw [jmKeys_update]
          exact hxk
        · have hx1 : x = p.1 := by
            rcases List.mem_cons.mp hx with h | h
            · exact h
            · exact absurd h hxt
          rw [ih3 x hxt]
          obtain ⟨n, hn⟩ := jmGet_some_of_mem_keys hxk
          rw [hx1] at hn
          unfold nlevel
          rw [hx1, jmGet_update_self, hn]
          rfl
    · have hstep : (if p.2 = 0 then
          (q0 ++ [p.1], jmUpdate ns0 p.1 (fun n => { n with level := 1 }))
          else (q0, ns0)) = (q0, ns0) := if_neg hp
      have hfil : (p :: t).filter (fun p => decide (p.2 = 0))
          = t.filter (fun p => decide (p.2 = 0)) := by
        simp [List.filter_cons, hp]
      obtain ⟨ih1, ih2, ih3, ih4⟩ := ih q0 ns0
      exact ⟨by rw [List.foldl_cons, hstep, ih1, hfil],
        by rw [List.foldl_cons, hstep]; exact ih2,
        fun x hx => by
          rw [hfil] at hx
          rw [List.foldl_cons, hstep]
          exact ih3 x hx,
        fun x hx hxk => by
          rw [hfil] at hx
          rw [List.foldl_cons, hstep]
          exact ih4 x hx hxk⟩

theorem seedQueue_mem (g : JMap String GraphNode) (hnd : (jmKeys g).Nodup)
    (x : String) :
    (x ∈ ((g.foldl (fun m p => jmSet m p.1 (p.2.dependencies.length : Int)) []).filter
        (fun p => decide (p.2 = 0))).map Prod.fst)
      ↔ (x ∈ jmKeys g ∧ ndeps g x = []) := by
  rw [inDegMap_eq g [] (by simp [jmKeys]) hnd, List.nil_append]
  constructor
  · intro hx
    obtain ⟨p, hpf, hpx⟩ := List.mem_map.mp hx
    have hpfil := List.mem_filter.mp hpf
    obtain ⟨q, hq, hfq⟩ := List.mem_map.mp hpfil.1
    have hval : (q.2.dependencies.length : Int) = 0 := by
      have h2 := hpfil.2
      rw [← hfq] at h2
      simpa using h2
    have hlen : q.2.dependencies.length = 0 := by exact_mod_cast hval
    have hget : jmGet g q.1 = some q.2 := jmGet_of_mem_nodup g hnd q hq
    have hx1 : x = q.1 := by rw [← hpx, ← hfq]
    subst hx1
    refine ⟨List.mem_map.mpr ⟨q, hq, rfl⟩, ?_⟩
    unfold ndeps
    rw [hget]
    simpa using List.length_eq_zero.mp hlen
  · rintro ⟨hk, hdeps⟩
    obtain ⟨n, hn⟩ := jmGet_some_of_mem_keys hk
    have hmem : (x, n) ∈ g := jmGet_mem hn
    have hdeps2 : n.dependencies = [] := by
      unfold ndeps at hdeps
      rw [hn] at hdeps
      exact hdeps
    refine List.mem_map.mpr ⟨(x, (n.dependencies.length : Int)), ?_, rfl⟩
    refine List.mem_filter.mpr ⟨List.mem_map.mpr ⟨(x, n), hmem, rfl⟩, ?_⟩
    simp [hdeps2]

theorem seedQueue_nodup (g : JMap String GraphNode) (hnd : (jmKeys g).Nodup) :
    (((g.foldl (fun m p => jmSet m p.1 (p.2.dependencies.length : Int)) []).filter
        (fun p => decide (p.2 = 0))).map Prod.fst).Nodup := by
  rw [inDegMap_eq g [] (by simp [jmKeys]) hnd, List.nil_append]
  have hsub : List.Sublist
      (((g.map (fun p => (p.1, (p.2.dependencies.length : Int)))).filter
        (fun p => decide (p.2 = 0))).map Prod.fst)
      ((g.map (fun p => (p.1, (p.2.dependencies.length : Int)))).map Prod.fst) :=
    (List.filter_sublist _).map Prod.fst
  have hkeys : (g.map (fun p => (p.1, (p.2.dependencies.length : Int)))).map Prod.fst
      = jmKeys g := by
    rw [List.map_map]
    rfl
  rw [hkeys] at hsub
  exact hsub.nodup hnd

theorem dacc_of_no_deps (g : JMap String GraphNode) (x : String)
    (h : ndeps g x = []) : DAcc g x := by
  refine DAcc.intro x ?_
  intro b hb
  obtain ⟨n, hn, hbn⟩ := hb
  unfold ndeps at h
  rw [hn] at h
  simp only [Option.getD_some] at h
  rw [h] at hbn
  simp at hbn

theorem kahn_init (g : JMap String GraphNode) (hWF : GraphWF g)
    (hl0 : ∀ x, nlevel g x = 0) :
    KahnInv g
      ((g.foldl (fun m p => jmSet m p.1 (p.2.dependencies.length : Int)) []).foldl
        (fun (st : List String × JMap String GraphNode) p =>
          if p.2 = 0 then
            (st.1 ++ [p.1], jmUpdate st.2 p.1 (fun n => { n with level := 1 }))
          else st) ([], g)).2
      (g.foldl (fun m p => jmSet m p.1 (p.2.dependencies.length : Int)) [])
      ((g.foldl (fun m p => jmSet m p.1 (p.2.dependencies.length : Int)) []).foldl
        (fun (st : List String × JMap String GraphNode) p =>
          if p.2 = 0 then
            (st.1 ++ [p.1], jmUpdate st.2 p.1 (fun n => { n with level := 1 }))
          else st) ([], g)).1
      [] := by
  obtain ⟨hq, hsh, hl_un, hl_sd⟩ :=
    seed_fold_spec
      (g.foldl (fun m p => jmSet m p.1 (p.2.dependencies.length : Int)) []) [] g
  rw [List.nil_append] at hq
  refine ⟨hsh, List.nodup_nil, ?_, ?_, ?_, ?_, ?_, ?_, ?_, ?_, ?_⟩
  · rw [hq]
    exact seedQueue_nodup g hWF.keys_nodup
  · intro x _
    exact List.not_mem_nil x
  · intro x hx
    exact absurd hx (List.not_mem_nil x)
  · intro x hx
    rw [hq] at hx
    exact ((seedQueue_mem g hWF.keys_nodup x).mp hx).1
  · intro x hx
    rw [inDegMap_eq g [] (by simp [jmKeys]) hWF.keys_nodup, List.nil_append]
    obtain ⟨n, hn⟩ := jmGet_some_of_mem_keys hx
    rw [jmGet_map_val g (fun n => (n.dependencies.length : Int)) x n hn]
    unfold ndeps
    rw [hn]
    simp [occCount_nil]
  · intro x hx
    rw [hq]
    simp only [List.not_mem_nil, false_or, occCount_nil]
    rw [seedQueue_mem g hWF.keys_nodup x]
    constructor
    · intro h
      rw [h.2]
      rfl
    · intro h
      exact ⟨hx, List.length_eq_zero.mp h.symm⟩
  · intro x hx
    rw [depMax_nil, Nat.max_zero]
    unfold seedLvl
    by_cases hdeps : ndeps g x = []
    · rw [if_pos hdeps]
      refine hl_sd x ?_ hx
      exact (seedQueue_mem g hWF.keys_nodup x).mpr ⟨hx, hdeps⟩
    · rw [if_neg hdeps]
      have hxq : x ∉ ((g.foldl
          (fun m p => jmSet m p.1 (p.2.dependencies.length : Int)) []).filter
          (fun p => decide (p.2 = 0))).map Prod.fst := by
        intro hmem
        exact hdeps ((seedQueue_mem g hWF.keys_nodup x).mp hmem).2
      rw [hl_un x hxq]
      exact hl0 x
  · intro x hx
    exact absurd hx (List.not_mem_nil x)
  · intro x hx
    rw [hq] at hx
    exact dacc_of_no_deps g x ((seedQueue_mem g hWF.keys_nodup x).mp hx).2

theorem sameShape_ndeps {m1 m2 : JMap String GraphNode} (h : SameShape m1 m2)
    (x : String) : ndeps m2 x = ndeps m1 x := by
  unfold ndeps
  cases hx : jmGet m1 x with
  | none =>
    rw [(sameShape_get h x).1 hx]
  | some n =>
    obtain ⟨n2, hn2, hsh⟩ := (sameShape_get h x).2 n hx
    rw [hn2]
    exact congrArg (fun t => t.2.2.1) hsh

theorem sameShape_ndept {m1 m2 : JMap String GraphNode} (h : SameShape m1 m2)
    (x : String) : ndept m2 x = ndept m1 x := by
  unfold ndept
  cases hx : jmGet m1 x with
  | none =>
    rw [(sameShape_get h x).1 hx]
  | some n =>
    obtain ⟨n2, hn2, hsh⟩ := (sameShape_get h x).2 n hx
    rw [hn2]
    exact congrArg (fun t => t.2.2.2) hsh

theorem kahnVisit_eq (c : String)
    (st : JMap String GraphNode × JMap String Int × List String) (x : String) :
    kahnVisit c st x =
      (jmUpdate st.1 x
        (fun n => { n with level := max n.level (((jmGet st.1 c).getD dfltNode).level + 1) }),
       jmSet st.2.1 x ((jmGet st.2.1 x).getD 0 - 1),
       if (jmGet st.2.1 x).getD 0 - 1 = 0 then st.2.2 ++ [x] else st.2.2) := rfl

theorem kahnMid_step (g : JMap String GraphNode) (c : String)
    (processed rest : List String) (nodes0 : JMap String GraphNode)
    (done : List String) (x : String)
    (st : JMap String GraphNode × JMap String Int × List String)
    (hxk : x ∈ jmKeys g) (hxc : x ≠ c)
    (hcd0 : done.count c = 0)
    (hcnt_lt : done.count x + 1 ≤ (ndept g c).count x)
    (hbound : occCount g processed x + (ndept g c).count x
        ≤ (ndeps g x).length)
    (hrest_sat : ∀ y ∈ rest, occCount g processed y = (ndeps g y).length)
    (hmid : KahnMid g c processed rest nodes0 done st) :
    KahnMid g c processed rest nodes0 (done ++ [x]) (kahnVisit c st x) := by
  have hlvlc : ((jmGet st.1 c).getD dfltNode).level = nlevel nodes0 c :=
    hmid.lvl0 c hcd0
  have hdegx : jmGet st.2.1 x
      = some (((ndeps g x).length : Int) - (occCount g processed x : Int)
          - (done.count x : Int)) :=
    hmid.deg x hxk
  rw [kahnVisit_eq]
  have hdeg1 : (jmGet st.2.1 x).getD 0 - 1
      = ((ndeps g x).length : Int) - (occCount g processed x : Int)
          - (done.count x : Int) - 1 := by
    rw [hdegx]
    rfl
  refine ⟨?_, ?_, ?_, ?_, ?_, ?_⟩
  · exact sameShape_trans hmid.shape
      (sameShape_update x _ (fun n => rfl))
  · intro y hy
    by_cases hyx : y = x
    · subst hyx
      show jmGet (jmSet st.2.1 y ((jmGet st.2.1 y).getD 0 - 1)) y = _
      rw [jmGet_set_self, hdeg1]
      have hcny : (done ++ [y]).count y = done.count y + 1 := by
        simp
      rw [hcny]
      congr 1
      push_cast
      ring
    · show jmGet (jmSet st.2.1 x ((jmGet st.2.1 x).getD 0 - 1)) y = _
      rw [jmGet_set_ne _ _ _ _ hyx, hmid.deg y hy]
      have hcny : (done ++ [x]).count y = done.count y := by
        simp [List.count_append, List.count_singleton]
        intro h
        exact absurd h.symm hyx
      rw [hcny]
  · intro y
    show (y ∈ if (jmGet st.2.1 x).getD 0 - 1 = 0 then st.2.2 ++ [x] else st.2.2) ↔ _
    have hcnyx : (done ++ [x]).count x = done.count x + 1 := by
      simp
    have hcne : ∀ z, z ≠ x → (done ++ [x]).count z = done.count z := by
      intro z hz
      have h2 : List.count z [x] = 0 := by
        rw [List.count_eq_zero]
        simp [hz]
      rw [List.count_append, h2]
      omega
    by_cases henq : (jmGet st.2.1 x).getD 0 - 1 = 0
    · have henqA := henq
      rw [hdeg1] at henqA
      rw [if_pos henq]
      rw [List.mem_append, List.mem_singleton, hmid.qmem y]
      by_cases hyx : y = x
      · subst hyx
        rw [hcnyx]
        constructor
        · intro _
          exact Or.inr ⟨by omega, by omega⟩
        · intro _
          exact Or.inr rfl
      · rw [hcne y hyx]
        constructor
        · intro h
          rcases h with h | h
          · exact h
          · exact absurd h hyx
        · intro h
          exact Or.inl h
    · have henqA := henq
      rw [hdeg1] at henqA
      rw [if_neg henq]
      rw [hmid.qmem y]
      by_cases hyx : y = x
      · subst hyx
        rw [hcnyx]
        constructor
        · intro h
          rcases h with h | h
          · exact Or.inl h
          · exfalso
            omega
        · intro h
          rcases h with h | h
          · exact Or.inl h
          · exfalso
            omega
      · rw [hcne y hyx]
  · by_cases henq : (jmGet st.2.1 x).getD 0 - 1 = 0
    · show (if (jmGet st.2.1 x).getD 0 - 1 = 0
          then st.2.2 ++ [x] else st.2.2).Nodup
      rw [if_pos henq]
      rw [hdeg1] at henq
      rw [List.nodup_append]
      refine ⟨hmid.qnodup, List.nodup_singleton x, ?_⟩
      intro a ha hax
      rw [List.mem_singleton] at hax
      subst hax
      rcases (hmid.qmem a).mp ha with h | h
      · have := hrest_sat a h
        omega
      · omega
    · show (if (jmGet st.2.1 x).getD 0 - 1 = 0
          then st.2.2 ++ [x] else st.2.2).Nodup
      rw [if_neg henq]
      exact hmid.qnodup
  · intro y hy
    have hyx : y ≠ x := by
      intro h
      subst h
      simp [List.count_append] at hy
    have hyd : done.count y = 0 := by
      simp only [List.count_append] at hy
      omega
    show nlevel (jmUpdate st.1 x _) y = _
    rw [nlevel_update_ne _ _ _ _ hyx]
    exact hmid.lvl0 y hyd
  · intro y hy
    by_cases hyx : y = x
    · subst hyx
      have hky : y ∈ jmKeys st.1 := by
        rw [← sameShape_keys hmid.shape]
        exact hxk
      obtain ⟨n, hn⟩ := jmGet_some_of_mem_keys hky
      have hlev : nlevel (jmUpdate st.1 y
          (fun n => { n with level := max n.level (((jmGet st.1 c).getD dfltNode).level + 1) })) y
          = max n.level (nlevel nodes0 c + 1) := by
        unfold nlevel
        rw [jmGet_update_self, hn, hlvlc]
        rfl
      have hnlv : n.level = nlevel st.1 y := by
        unfold nlevel
        rw [hn]
        rfl
      show nlevel (jmUpdate st.1 y _) y = _
      rw [hlev, hnlv]
      by_cases hyd : done.count y = 0
      · rw [hmid.lvl0 y hyd]
      · have h1 : 1 ≤ done.count y := by omega
        rw [hmid.lvl1 y h1]
        omega
    · have h1 : 1 ≤ done.count y := by
        simp only [List.count_append] at hy
        have : List.count y [x] = 0 := by
          rw [List.count_eq_zero]
          simp [hyx]
        omega
      show nlevel (jmUpdate st.1 x _) y = _
      rw [nlevel_update_ne _ _ _ _ hyx]
      exact hmid.lvl1 y h1

theorem kahnMid_fold (g : JMap String GraphNode) (hWF : GraphWF g)
    (c : String) (hcK : c ∈ jmKeys g)
    (processed rest : List String) (nodes0 : JMap String GraphNode)
    (hcd : c ∉ ndept g c)
    (hbound : ∀ y, occCount g processed y + (ndept g c).count y
        ≤ (ndeps g y).length)
    (hrest_sat : ∀ y ∈ rest, occCount g processed y = (ndeps g y).length) :
    ∀ (todo done : List String)
      (st : JMap String GraphNode × JMap String Int × List String),
      ndept g c = done ++ todo →
      KahnMid g c processed rest nodes0 done st →
      KahnMid g c processed rest nodes0 (done ++ todo)
        (todo.foldl (kahnVisit c) st) := by
  intro todo
  induction todo with
  | nil =>
    intro done st hsplit hmid
    simpa using hmid
  | cons x todo2 ih =>
    intro done st hsplit hmid
    have hxdept : x ∈ ndept g c := by
      rw [hsplit]
      exact List.mem_append.mpr (Or.inr (List.mem_cons_self _ _))
    have hxk : x ∈ jmKeys g := hWF.dept_keys c hcK x hxdept
    have hxc : x ≠ c := by
      intro h
      subst h
      exact hcd hxdept
    have hcd0 : done.count c = 0 := by
      rw [List.count_eq_zero]
      intro h
      exact hcd (by rw [hsplit]; exact List.mem_append.mpr (Or.inl h))
    have hcnt_lt : done.count x + 1 ≤ (ndept g c).count x := by
      rw [hsplit, List.count_append, List.count_cons_self]
      omega
    have hstep := kahnMid_step g c processed rest nodes0 done x st hxk hxc hcd0
      hcnt_lt (hbound x) hrest_sat hmid
    have hsplit2 : ndept g c = (done ++ [x]) ++ todo2 := by
      rw [hsplit]
      simp
    have hrec := ih (done ++ [x]) (kahnVisit c st x) hsplit2 hstep
    rw [List.foldl_cons]
    have hassoc : done ++ x :: todo2 = (done ++ [x]) ++ todo2 := by simp
    rw [hassoc]
    exact hrec

theorem kahnInv_step (g : JMap String GraphNode) (hWF : GraphWF g)
    (nodes : JMap String GraphNode) (inDeg : JMap String Int)
    (c : String) (rest processed : List String)
    (hinv : KahnInv g nodes inDeg (c :: rest) processed) :
    KahnInv g
      ((ndept nodes c).foldl (kahnVisit c) (nodes, inDeg, rest)).1
      ((ndept nodes c).foldl (kahnVisit c) (nodes, inDeg, rest)).2.1
      ((ndept nodes c).foldl (kahnVisit c) (nodes, inDeg, rest)).2.2
      (processed ++ [c]) := by
  have hdept_eq : ndept nodes c = ndept g c := sameShape_ndept hinv.shape c
  rw [hdept_eq]
  have hcq : c ∈ c :: rest := List.mem_cons_self _ _
  have hcK : c ∈ jmKeys g := hinv.queue_keys c hcq
  have hcp : c ∉ processed := hinv.disj c hcq
  have hcsat : occCount g processed c = (ndeps g c).length :=
    (hinv.memb c hcK).mp (Or.inr hcq)
  have hrest_parts := List.nodup_cons.mp hinv.queue_nodup
  have hcrest : c ∉ rest := hrest_parts.1
  have hrest_nd : rest.Nodup := hrest_parts.2
  have hrest_sat : ∀ y ∈ rest, occCount g processed y = (ndeps g y).length :=
    fun y hy =>
      (hinv.memb y (hinv.queue_keys y (List.mem_cons_of_mem _ hy))).mp
        (Or.inr (List.mem_cons_of_mem _ hy))
  have hcdp : c ∉ ndeps g c := by
    intro hmem
    exact hcp
      ((occ_saturated g hWF.dual processed hinv.proc_nodup c).mp hcsat c hmem)
  have hcd : c ∉ ndept g c := by
    intro hmem
    have h1 : 0 < (ndept g c).count c := List.count_pos_iff_mem.mpr hmem
    rw [← hWF.dual c c] at h1
    exact hcdp (List.count_pos_iff_mem.mp h1)
  have hcdz : (ndept g c).count c = 0 := List.count_eq_zero.mpr hcd
  have hpn2 : (processed ++ [c]).Nodup := by
    rw [List.nodup_append]
    refine ⟨hinv.proc_nodup, List.nodup_singleton c, ?_⟩
    intro a ha hac
    rw [List.mem_singleton] at hac
    subst hac
    exact hcp ha
  have hbound : ∀ y, occCount g processed y + (ndept g c).count y
      ≤ (ndeps g y).length := by
    intro y
    have h1 := occ_le g hWF.dual (processed ++ [c]) hpn2 y
    rw [occCount_append, occCount_single] at h1
    exact h1
  have hnoc : ∀ y, y ∈ jmKeys g →
      occCount g processed y = (ndeps g y).length →
      (ndept g c).count y = 0 := by
    intro y hyk hocc
    have hs := (occ_saturated g hWF.dual processed hinv.proc_nodup y).mp hocc
    have hcny : c ∉ ndeps g y := fun hcmem => hcp (hs c hcmem)
    rw [← hWF.dual y c]
    exact List.count_eq_zero.mpr hcny
  have hmid0 : KahnMid g c processed rest nodes [] (nodes, inDeg, rest) := by
    refine ⟨hinv.shape, ?_, ?_, hrest_nd, fun y _ => rfl, ?_⟩
    · intro y hy
      rw [hinv.deg y hy]
      simp
    · intro y
      simp
    · intro y hy
      simp at hy
  have hmidF := kahnMid_fold g hWF c hcK processed rest nodes hcd hbound
    hrest_sat (ndept g c) [] (nodes, inDeg, rest) (by simp) hmid0
  rw [List.nil_append] at hmidF
  have hlvl_keep : ∀ d, d ∈ processed →
      nlevel ((ndept g c).foldl (kahnVisit c) (nodes, inDeg, rest)).1 d
        = nlevel nodes d := by
    intro d hd
    refine hmidF.lvl0 d ?_
    exact hnoc d (hinv.proc_keys d hd)
      ((hinv.memb d (hinv.proc_keys d hd)).mp (Or.inl hd))
  have hdepMax_keep : ∀ y,
      depMax g ((ndept g c).foldl (kahnVisit c) (nodes, inDeg, rest)).1
        processed y = depMax g nodes processed y := by
    intro y
    refine depMax_congr g _ _ processed y ?_
    intro d hd
    have hdp : d ∈ processed := by
      have := List.of_mem_filter hd
      simpa using this
    exact hlvl_keep d hdp
  have hlvlc_keep :
      nlevel ((ndept g c).foldl (kahnVisit c) (nodes, inDeg, rest)).1 c
        = nlevel nodes c := hmidF.lvl0 c hcdz
  refine ⟨hmidF.shape, hpn2, hmidF.qnodup, ?_, ?_, ?_, ?_, ?_, ?_, ?_, ?_⟩
  · intro y hyq
    rcases (hmidF.qmem y).mp hyq with h | h
    · intro hmem
      rcases List.mem_append.mp hmem with h2 | h2
      · exact hinv.disj y (List.mem_cons_of_mem _ h) h2
      · rw [List.mem_singleton] at h2
        subst h2
        exact hcrest h
    · intro hmem
      rcases List.mem_append.mp hmem with h2 | h2
      · have hocc := (hinv.memb y (hinv.proc_keys y h2)).mp (Or.inl h2)
        omega
      · rw [List.mem_singleton] at h2
        subst h2
        omega
  · intro y hy
    rcases List.mem_append.mp hy with h | h
    · exact hinv.proc_keys y h
    · rw [List.mem_singleton] at h
      subst h
      exact hcK
  · intro y hy
    rcases (hmidF.qmem y).mp hy with h | h
    · exact hinv.queue_keys y (List.mem_cons_of_mem _ h)
    · refine hWF.dept_keys c hcK y ?_
      have : 0 < (ndept g c).count y := by omega
      exact List.count_pos_iff_mem.mp this
  · intro y hy
    rw [hmidF.deg y hy, occCount_append, occCount_single]
    congr 1
    push_cast
    ring
  · intro y hy
    rw [occCount_append, occCount_single]
    constructor
    · intro h
      rcases h with h | h
      · rcases List.mem_append.mp h with h2 | h2
        · have hocc := (hinv.memb y hy).mp (Or.inl h2)
          have hz := hnoc y hy hocc
          omega
        · rw [List.mem_singleton] at h2
          subst h2
          rw [hcdz]
          simpa using hcsat
      · rcases (hmidF.qmem y).mp h with h2 | h2
        · have hocc := hrest_sat y h2
          have hz := hnoc y hy hocc
          omega
        · omega
    · intro h
      by_cases hcnt : 1 ≤ (ndept g c).count y
      · right
        exact (hmidF.qmem y).mpr (Or.inr ⟨hcnt, h⟩)
      · have hz : (ndept g c).count y = 0 := by omega
        have hocc : occCount g processed y = (ndeps g y).length := by omega
        rcases (hinv.memb y hy).mpr hocc with h2 | h2
        · left
          exact List.mem_append.mpr (Or.inl h2)
        · rcases List.mem_cons.mp h2 with h3 | h3
          · left
            subst h3
            exact List.mem_append.mpr (Or.inr (List.mem_singleton.mpr rfl))
          · right
            exact (hmidF.qmem y).mpr (Or.inl h3)
  · intro y hy
    have hform := hinv.lvl y hy
    by_cases hcnt : 1 ≤ (ndept g c).count y
    · have hyn := hmidF.lvl1 y hcnt
      have hcy : c ∈ ndeps g y := by
        have h1 : 0 < (ndeps g y).count c := by
          rw [hWF.dual y c]
          omega
        exact List.count_pos_iff_mem.mp h1
      have hext := foldr_max_filter_extend (ndeps g y) processed c hcp
        (fun d => nlevel ((ndept g c).foldl (kahnVisit c) (nodes, inDeg, rest)).1 d + 1)
      have htarget : depMax g
          ((ndept g c).foldl (kahnVisit c) (nodes, inDeg, rest)).1
          (processed ++ [c]) y
          = max (depMax g nodes processed y)
              (nlevel nodes c + 1) := by
        unfold depMax
        rw [hext, if_pos hcy, hlvlc_keep]
        have h2 := hdepMax_keep y
        unfold depMax at h2
        rw [h2]
      rw [htarget, hyn, hform]
      omega
    · have hz : (ndept g c).count y = 0 := by omega
      have hyn := hmidF.lvl0 y hz
      have hcny : c ∉ ndeps g y := by
        have h1 : (ndeps g y).count c = 0 := by
          rw [hWF.dual y c]
          exact hz
        exact List.count_eq_zero.mp h1
      have hfil : (ndeps g y).filter (fun d => decide (d ∈ processed ++ [c]))
          = (ndeps g y).filter (fun d => decide (d ∈ processed)) := by
        refine List.filter_congr ?_
        intro d hd
        have hdc : d ≠ c := fun h => hcny (h ▸ hd)
        refine decide_eq_decide.mpr ?_
        rw [List.mem_append, List.mem_singleton]
        constructor
        · intro h2
          rcases h2 with h2 | h2
          · exact h2
          · exact absurd h2 hdc
        · exact Or.inl
      have htarget : depMax g
          ((ndept g c).foldl (kahnVisit c) (nodes, inDeg, rest)).1
          (processed ++ [c]) y
          = depMax g nodes processed y := by
        unfold depMax
        rw [hfil]
        have h2 := hdepMax_keep y
        unfold depMax at h2
        rw [h2]
      rw [htarget, hyn, hform]
  · intro y hy
    rcases List.mem_append.mp hy with h | h
    · exact hinv.proc_dacc y h
    · rw [List.mem_singleton] at h
      subst h
      exact hinv.queue_dacc y hcq
  · intro y hy
    rcases (hmidF.qmem y).mp hy with h | h
    · exact hinv.queue_dacc y (List.mem_cons_of_mem _ h)
    · have hocc2 : occCount g (processed ++ [c]) y = (ndeps g y).length := by
        rw [occCount_append, occCount_single]
        omega
      have hsat2 := (occ_saturated g hWF.dual (processed ++ [c]) hpn2 y).mp hocc2
      refine DAcc.intro y ?_
      intro b hb
      have hbdeps : b ∈ ndeps g y := by
        obtain ⟨n, hn, hbn⟩ := hb
        unfold ndeps
        rw [hn]
        exact hbn
      rcases List.mem_append.mp (hsat2 b hbdeps) with h2 | h2
      · exact hinv.proc_dacc b h2
      · rw [List.mem_singleton] at h2
        subst h2
        exact hinv.queue_dacc b hcq

theorem kahnLoop_inv (g : JMap String GraphNode) (hWF : GraphWF g) :
    ∀ (fuel : Nat) (nodes : JMap String GraphNode) (inDeg : JMap String Int)
      (queue processed : List String),
      KahnInv g nodes inDeg queue processed →
      (jmKeys g).length + 1 ≤ fuel + processed.length →
      ∃ pF iF, KahnInv g (kahnLoop fuel nodes inDeg queue) iF [] pF := by
  intro fuel
  induction fuel with
  | zero =>
    intro nodes inDeg queue processed hinv hfuel
    exfalso
    have hle : processed.length ≤ (jmKeys g).length :=
      (hinv.proc_nodup.subperm (fun x hx => hinv.proc_keys x hx)).length_le
    omega
  | succ f ih =>
    intro nodes inDeg queue processed hinv hfuel
    cases queue with
    | nil =>
      exact ⟨processed, inDeg, hinv⟩
    | cons c rest =>
      have hstep := kahnInv_step g hWF nodes inDeg c rest processed hinv
      have hred : kahnLoop (f + 1) nodes inDeg (c :: rest)
          = kahnLoop f
              ((ndept nodes c).foldl (kahnVisit c) (nodes, inDeg, rest)).1
              ((ndept nodes c).foldl (kahnVisit c) (nodes, inDeg, rest)).2.1
              ((ndept nodes c).foldl (kahnVisit c) (nodes, inDeg, rest)).2.2 := rfl
      rw [hred]
      refine ih _ _ _ (processed ++ [c]) hstep ?_
      rw [List.length_append]
      simp only [List.length_singleton]
      omega

theorem calculateLevels_inv (g : JMap String GraphNode) (hWF : GraphWF g)
    (hl0 : ∀ x, nlevel g x = 0) :
    ∃ pF iF, KahnInv g (calculateLevels g) iF [] pF := by
  have hinit := kahn_init g hWF hl0
  have hbound : (jmKeys g).length + 1 ≤ (g.length + 1) + ([] : List String).length := by
    have : (jmKeys g).length = g.length := by simp [jmKeys]
    simp [this]
  exact kahnLoop_inv g hWF (g.length + 1) _ _ _ [] hinit hbound

theorem dacc_sameShape {m1 m2 : JMap String GraphNode} (h : SameShape m1 m2)
    (x : String) (hd : DAcc m1 x) : DAcc m2 x := by
  induction hd with
  | intro a ha ih =>
    refine DAcc.intro a ?_
    intro b hb
    exact ih b ((sameShape_edge h a b).mpr hb)

theorem kahn_final_all_processed (g : JMap String GraphNode) (hWF : GraphWF g)
    {nodesF : JMap String GraphNode} {iF : JMap String Int} {pF : List String}
    (hinv : KahnInv g nodesF iF [] pF)
    (hdacc : ∀ x ∈ jmKeys g, DAcc g x) :
    ∀ x ∈ jmKeys g, x ∈ pF := by
  have main : ∀ x, DAcc g x → x ∈ jmKeys g → x ∈ pF := by
    intro x hx
    induction hx with
    | intro a h ih =>
      intro haK
      by_contra hnp
      have hocc : occCount g pF a ≠ (ndeps g a).length := by
        intro he
        rcases (hinv.memb a haK).mpr he with h2 | h2
        · exact hnp h2
        · simp at h2
      have hnotsat : ¬ ∀ d ∈ ndeps g a, d ∈ pF := fun hall =>
        hocc ((occ_saturated g hWF.dual pF hinv.proc_nodup a).mpr hall)
      push_neg at hnotsat
      obtain ⟨d, hd, hdnp⟩ := hnotsat
      have hedge : edge g a d := by
        obtain ⟨n, hn⟩ := jmGet_some_of_mem_keys haK
        refine ⟨n, hn, ?_⟩
        unfold ndeps at hd
        rw [hn] at hd
        exact hd
      exact hdnp (ih d hedge (hWF.deps_keys a haK d hd))
  exact fun x hx => main x (hdacc x hx) hx

theorem kahn_final_level (g : JMap String GraphNode) (hWF : GraphWF g)
    {nodesF : JMap String GraphNode} {iF : JMap String Int} {pF : List String}
    (hinv : KahnInv g nodesF iF [] pF)
    (x : String) (hx : x ∈ jmKeys g) (hxp : x ∈ pF) :
    nlevel nodesF x = max (seedLvl g x)
      (((ndeps g x).map (fun d => nlevel nodesF d + 1)).foldr max 0) := by
  have hform := hinv.lvl x hx
  have hsat : ∀ d ∈ ndeps g x, d ∈ pF :=
    (occ_saturated g hWF.dual pF hinv.proc_nodup x).mp
      ((hinv.memb x hx).mp (Or.inl hxp))
  have hfil : (ndeps g x).filter (fun d => decide (d ∈ pF)) = ndeps g x :=
    List.filter_eq_self.mpr (fun d hd => by simpa using hsat d hd)
  rw [hform]
  unfold depMax
  rw [hfil]

theorem foldr_max_map_succ (l : List String) (f : String → Nat) (hl : l ≠ []) :
    (l.map (fun d => f d + 1)).foldr max 0 = (l.map f).foldr max 0 + 1 := by
  induction l with
  | nil => simp at hl
  | cons a t ih =>
    cases t with
    | nil => simp
    | cons b t2 =>
      have h2 := ih (by simp)
      simp only [List.map_cons, List.foldr_cons] at h2 ⊢
      rw [h2]
      omega

/-- C2: for every acyclic input, after leveling every node's level is 1 when
the node has no dependencies and otherwise one more than the maximum of its
dependencies' levels; consequently every dependency's level is strictly
below its dependent's level and every level is at least 1. -/
theorem calculateLevels_leveling (dps : List ParsedDP)
    (hacyc : ¬ ∃ c, IsCycleList (buildGraph dps).nodes c) :
    ∀ x ∈ jmKeys (buildGraph dps).nodes,
      1 ≤ nlevel (buildGraph dps).nodes x ∧
      (ndeps (buildGraph dps).nodes x = [] →
        nlevel (buildGraph dps).nodes x = 1) ∧
      (ndeps (buildGraph dps).nodes x ≠ [] →
        nlevel (buildGraph dps).nodes x
          = ((ndeps (buildGraph dps).nodes x).map
              (fun d => nlevel (buildGraph dps).nodes d)).foldr max 0 + 1) ∧
      ∀ d ∈ ndeps (buildGraph dps).nodes x,
        nlevel (buildGraph dps).nodes d < nlevel (buildGraph dps).nodes x := by
  intro x hxm
  have hWF := edgesFold_GraphWF dps
  have hl0 := edges_level0 dps
  have hm : (buildGraph dps).nodes
      = calculateLevels (dps.foldl addEdges (initNodes dps)) := rfl
  have hshape : SameShape (dps.foldl addEdges (initNodes dps))
      (calculateLevels (dps.foldl addEdges (initNodes dps))) :=
    calculateLevels_sameShape _
  obtain ⟨pF, iF, hinv⟩ :=
    calculateLevels_inv (dps.foldl addEdges (initNodes dps)) hWF hl0
  have hxK : x ∈ jmKeys (dps.foldl addEdges (initNodes dps)) := by
    rw [hm, ← sameShape_keys hshape] at hxm
    exact hxm
  have hdacc : ∀ y ∈ jmKeys (dps.foldl addEdges (initNodes dps)),
      DAcc (dps.foldl addEdges (initNodes dps)) y := by
    intro y hy
    have hy2 : y ∈ jmKeys (buildGraph dps).nodes := by
      rw [hm, ← sameShape_keys hshape]
      exact hy
    have hdm := no_cycle_all_dacc dps hacyc y hy2
    exact dacc_sameShape hshape.symm y hdm
  have hxp := kahn_final_all_processed _ hWF hinv hdacc x hxK
  have hlev := kahn_final_level _ hWF hinv x hxK hxp
  have hndeps : ndeps (calculateLevels (dps.foldl addEdges (initNodes dps))) x
      = ndeps (dps.foldl addEdges (initNodes dps)) x := sameShape_ndeps hshape x
  rw [hm, hndeps]
  by_cases hdeps : ndeps (dps.foldl addEdges (initNodes dps)) x = []
  · have hmx : nlevel (calculateLevels (dps.foldl addEdges (initNodes dps))) x
        = 1 := by
      rw [hlev]
      unfold seedLvl
      rw [if_pos hdeps, hdeps]
      simp
    refine ⟨by omega, fun _ => hmx, fun h => absurd hdeps h, ?_⟩
    intro d hd
    rw [hdeps] at hd
    simp at hd
  · have hseed : seedLvl (dps.foldl addEdges (initNodes dps)) x = 0 := by
      unfold seedLvl
      rw [if_neg hdeps]
    have hsucc := foldr_max_map_succ (ndeps (dps.foldl addEdges (initNodes dps)) x)
      (fun d => nlevel (calculateLevels (dps.foldl addEdges (initNodes dps))) d)
      hdeps
    have hmx : nlevel (calculateLevels (dps.foldl addEdges (initNodes dps))) x
        = ((ndeps (dps.foldl addEdges (initNodes dps)) x).map
            (fun d => nlevel (calculateLevels (dps.foldl addEdges (initNodes dps))) d)).foldr
            max 0 + 1 := by
      rw [hlev, hseed, hsucc]
      omega
    refine ⟨by omega, fun h => absurd h hdeps, fun _ => hmx, ?_⟩
    intro d hd
    have hmem : nlevel (calculateLevels (dps.foldl addEdges (initNodes dps))) d
        ∈ (ndeps (dps.foldl addEdges (initNodes dps)) x).map
          (fun e => nlevel (calculateLevels (dps.foldl addEdges (initNodes dps))) e) :=
      List.mem_map.mpr ⟨d, hd, rfl⟩
    have hle := foldr_max_ge hmem
    omega

/-- C2 witness: the three-record input `a`, `b` after `a`, `c` after `a` and
`b` is acyclic, its node `c` is a key of the built graph, and the leveling
properties hold at `c`. -/
theorem calculateLevels_leveling_witness :
    (¬ ∃ c, IsCycleList (buildGraph c2Dps).nodes c) ∧
    ("c" ∈ jmKeys (buildGraph c2Dps).nodes) ∧
    (1 ≤ nlevel (buildGraph c2Dps).nodes "c" ∧
     (ndeps (buildGraph c2Dps).nodes "c" = [] →
       nlevel (buildGraph c2Dps).nodes "c" = 1) ∧
     (ndeps (buildGraph c2Dps).nodes "c" ≠ [] →
       nlevel (buildGraph c2Dps).nodes "c"
         = ((ndeps (buildGraph c2Dps).nodes "c").map
             (fun d => nlevel (buildGraph c2Dps).nodes d)).foldr max 0 + 1) ∧
     ∀ d ∈ ndeps (buildGraph c2Dps).nodes "c",
       nlevel (buildGraph c2Dps).nodes d < nlevel (buildGraph c2Dps).nodes "c") := by
  have hac : ¬ ∃ c, IsCycleList (buildGraph c2Dps).nodes c := by
    intro h
    have hv := (detect_false_iff c2Dps).mpr h
    have ht : (detectCycles (buildGraph c2Dps)).valid = true := by decide
    rw [ht] at hv
    exact Bool.noConfusion hv
  exact ⟨hac, by decide, calculateLevels_leveling c2Dps hac "c" (by decide)⟩

theorem dacc_not_on_cycle (g : JMap String GraphNode) (x : String)
    (hd : DAcc g x) (c : List String) (hc : IsCycleList g c) : x ∉ c := by
  induction hd with
  | intro a h ih =>
    intro hac
    obtain ⟨b, hedge, hbc⟩ := cycle_successor g c hc a hac
    exact ih b hedge hbc

theorem groupLevels_fold_get :
    ∀ (l : JMap String GraphNode) (acc : JMap Nat (List String)) (L : Nat),
    (jmGet (l.foldl (fun ls p =>
        jmSet ls p.2.level ((jmGet ls p.2.level).getD [] ++ [p.2.id])) acc) L).getD []
      = (jmGet acc L).getD []
          ++ (l.filter (fun p => decide (p.2.level = L))).map (fun p => p.2.id) := by
  intro l
  induction l with
  | nil =>
    intro acc L
    simp
  | cons p t ih =>
    intro acc L
    rw [List.foldl_cons, ih]
    by_cases hL : p.2.level = L
    · rw [show (p :: t).filter (fun p => decide (p.2.level = L))
            = p :: t.filter (fun p => decide (p.2.level = L)) from by
          simp [List.filter_cons, hL]]
      rw [← hL, jmGet_set_self]
      simp
    · rw [show (p :: t).filter (fun p => decide (p.2.level = L))
            = t.filter (fun p => decide (p.2.level = L)) from by
          simp [List.filter_cons, hL]]
      rw [jmGet_set_ne _ _ _ _ (fun h => hL h.symm)]

theorem groupLevels_get (nodes : JMap String GraphNode) (L : Nat) :
    (jmGet (groupLevels nodes) L).getD []
      = (nodes.filter (fun p => decide (p.2.level = L))).map (fun p => p.2.id) := by
  unfold groupLevels
  rw [groupLevels_fold_get nodes [] L]
  rfl

theorem sameShape_mem {m1 m2 : JMap String GraphNode} (h : SameShape m1 m2)
    {p : String × GraphNode} (hp : p ∈ m2) :
    ∃ q ∈ m1, q.1 = p.1 ∧ nodeShape q.2 = nodeShape p.2 := by
  have hmem : (p.1, nodeShape p.2) ∈ m1.map (fun r => (r.1, nodeShape r.2)) := by
    rw [h]
    exact List.mem_map.mpr ⟨p, hp, rfl⟩
  obtain ⟨q, hq, heq⟩ := List.mem_map.mp hmem
  exact ⟨q, hq, (Prod.ext_iff.mp heq).1, (Prod.ext_iff.mp heq).2⟩

theorem buildGraph_id_key (dps : List ParsedDP) :
    ∀ p ∈ (buildGraph dps).nodes, p.2.id = p.1 := by
  intro p hp
  have hshape : SameShape (dps.foldl addEdges (initNodes dps))
      (calculateLevels (dps.foldl addEdges (initNodes dps))) :=
    calculateLevels_sameShape _
  have hp2 : p ∈ calculateLevels (dps.foldl addEdges (initNodes dps)) := hp
  obtain ⟨q, hq, hkey, hsh⟩ := sameShape_mem hshape hp2
  have hid : q.2.id = q.1 := ((edgesFold_inv dps).2 q hq).1
  have hids : q.2.id = p.2.id := congrArg (fun t => t.1) hsh
  rw [← hids, hid, hkey]

/-- C10 (amended): `buildGraph` levels the graph unconditionally, before any
cycle detection runs; a node that lies on a dependency cycle or reaches one
is never processed by the Kahn traversal, and when every one of its direct
dependencies also lies on or reaches a cycle its level stays at the initial
0 and the node is grouped under level key 0. (A cycle node with a
terminating direct dependency can still be bumped to a positive level — see
the counterexample.) -/
theorem buildGraph_cycle_level_zero (dps : List ParsedDP) :
    ∀ x ∈ jmKeys (buildGraph dps).nodes,
      ¬ DAcc (buildGraph dps).nodes x →
      (∀ d ∈ ndeps (buildGraph dps).nodes x,
        ¬ DAcc (buildGraph dps).nodes d) →
      nlevel (buildGraph dps).nodes x = 0 ∧
      x ∈ (jmGet (buildGraph dps).levels 0).getD [] := by
  intro x hxm hnd hndeps
  have hWF := edgesFold_GraphWF dps
  have hl0 := edges_level0 dps
  have hm : (buildGraph dps).nodes
      = calculateLevels (dps.foldl addEdges (initNodes dps)) := rfl
  have hshape : SameShape (dps.foldl addEdges (initNodes dps))
      (calculateLevels (dps.foldl addEdges (initNodes dps))) :=
    calculateLevels_sameShape _
  obtain ⟨pF, iF, hinv⟩ :=
    calculateLevels_inv (dps.foldl addEdges (initNodes dps)) hWF hl0
  have hxK : x ∈ jmKeys (dps.foldl addEdges (initNodes dps)) := by
    rw [hm, ← sameShape_keys hshape] at hxm
    exact hxm
  have hxnp : x ∉ pF := by
    intro hp
    exact hnd (dacc_sameShape hshape x (hinv.proc_dacc x hp))
  have hdeq : ndeps (calculateLevels (dps.foldl addEdges (initNodes dps))) x
      = ndeps (dps.foldl addEdges (initNodes dps)) x := sameShape_ndeps hshape x
  have hdnp : ∀ d ∈ ndeps (dps.foldl addEdges (initNodes dps)) x, d ∉ pF := by
    intro d hd hp
    refine hndeps d ?_ (dacc_sameShape hshape d (hinv.proc_dacc d hp))
    rw [hm, hdeq]
    exact hd
  have hseed : seedLvl (dps.foldl addEdges (initNodes dps)) x = 0 := by
    unfold seedLvl
    rw [if_neg ?_]
    intro hdeps
    refine hnd (dacc_sameShape hshape x ?_)
    exact dacc_of_no_deps _ x hdeps
  have hfil : (ndeps (dps.foldl addEdges (initNodes dps)) x).filter
      (fun d => decide (d ∈ pF)) = [] := by
    rw [List.filter_eq_nil]
    intro d hd
    simpa using hdnp d hd
  have hlvl0 : nlevel (calculateLevels (dps.foldl addEdges (initNodes dps))) x
      = 0 := by
    rw [hinv.lvl x hxK, hseed]
    unfold depMax
    rw [hfil]
    rfl
  refine ⟨by rw [hm]; exact hlvl0, ?_⟩
  have hlv : (buildGraph dps).levels
      = groupLevels (calculateLevels (dps.foldl addEdges (initNodes dps))) := rfl
  rw [hlv, groupLevels_get]
  have hxm2 : x ∈ jmKeys (calculateLevels (dps.foldl addEdges (initNodes dps))) := by
    rw [sameShape_keys hshape] at hxK
    exact hxK
  obtain ⟨n, hn⟩ := jmGet_some_of_mem_keys hxm2
  have hmem : (x, n) ∈ calculateLevels (dps.foldl addEdges (initNodes dps)) :=
    jmGet_mem hn
  have hnlvl : n.level = 0 := by
    unfold nlevel at hlvl0
    rw [hn] at hlvl0
    exact hlvl0
  have hid : n.id = x := buildGraph_id_key dps (x, n) hmem
  refine List.mem_map.mpr ⟨(x, n), ?_, hid⟩
  refine List.mem_filter.mpr ⟨hmem, ?_⟩
  simp [hnlvl]

/-- C10 witness: in the two-node circular input, node `a` lies on the cycle,
all its dependencies do too, and it keeps level 0 and is grouped under level
key 0. -/
theorem buildGraph_cycle_level_zero_witness :
    ("a" ∈ jmKeys (buildGraph cycDps).nodes) ∧
    IsCycleList (buildGraph cycDps).nodes ["a", "b", "a"] ∧
    (nlevel (buildGraph cycDps).nodes "a" = 0 ∧
     "a" ∈ (jmGet (buildGraph cycDps).levels 0).getD []) := by
  have hcyc : IsCycleList (buildGraph cycDps).nodes ["a", "b", "a"] := by decide
  have h1 : ¬ DAcc (buildGraph cycDps).nodes "a" := fun hd =>
    dacc_not_on_cycle _ "a" hd ["a", "b", "a"] hcyc (by decide)
  have h2 : ∀ d ∈ ndeps (buildGraph cycDps).nodes "a",
      ¬ DAcc (buildGraph cycDps).nodes d := by
    intro d hd
    rw [show ndeps (buildGraph cycDps).nodes "a" = ["b"] from by decide] at hd
    rw [List.mem_singleton] at hd
    subst hd
    exact fun hdacc =>
      dacc_not_on_cycle _ "b" hdacc ["a", "b", "a"] hcyc (by decide)
  exact ⟨by decide, hcyc,
    buildGraph_cycle_level_zero cycDps "a" (by decide) h1 h2⟩

/-- C10 counterexample: in the input where `c` and `d` form a cycle while
`c` also depends on the acyclic `a`, node `c` lies on a cycle yet ends with
level 2 and is grouped under level key 2, not under key 0. -/
theorem buildGraph_cycle_level_zero_cex :
    IsCycleList (buildGraph c10Dps).nodes ["c", "d", "c"] ∧
    nlevel (buildGraph c10Dps).nodes "c" = 2 ∧
    "c" ∈ (jmGet (buildGraph c10Dps).levels 2).getD [] ∧
    "c" ∉ (jmGet (buildGraph c10Dps).levels 0).getD [] := by
  refine ⟨by decide, by decide, by decide, by decide⟩

end Yada
